import Mathlib

/-!
# Day 3 (battery banks): embedding of `src/day3/main.go`

Go values are embedded as follows.

* `[]int` is `List Int`; a Go `int` is a 64-bit two's-complement integer, and
  the arithmetic on bank elements and on the `int64` total, which can leave
  that range, is passed through `wrapInt64`. Lengths and loop indices cannot.
* `[]byte` is `List Nat` (each entry below 256); a Go `string` is `List Char`,
  the byte `b` being the character `Char.ofNat b`.
* `*big.Int` is `Int`.
* The monotonic stack of `FindMaxSubsequence` is kept top-first: the head of
  the list is `stack[len(stack)-1]`, and `string(stack)` reverses it.
-/

namespace Day3

/-! ## Machine integers -/

/-- Two's-complement reduction of an integer to the range of Go's `int64`
(and of `int` on 64-bit targets). -/
def wrapInt64 (x : Int) : Int :=
  (x + 9223372036854775808) % 18446744073709551616 - 9223372036854775808

/-! ## `FindMaxTwoDigitJoltage` (main.go 41-57) -/

/-- Inner loop `for j := i + 1; j < len(batteries); j++`: `a` is
`batteries[i]`, the list holds `batteries[i+1:]`, `maxJolt` is threaded. -/
def joltInner (a : Int) : List Int → Int → Int
  | [], maxJolt => maxJolt
  | b :: rest, maxJolt =>
    let jolt := wrapInt64 (10 * a + b)
    joltInner a rest (if jolt > maxJolt then jolt else maxJolt)

/-- Outer loop `for i := 0; i < len(batteries); i++` over `batteries[i:]`. -/
def joltOuter : List Int → Int → Int
  | [], maxJolt => maxJolt
  | a :: rest, maxJolt => joltOuter rest (joltInner a rest maxJolt)

/-- Embedding of `FindMaxTwoDigitJoltage`. -/
def FindMaxTwoDigitJoltage (batteries : List Int) : Int :=
  if batteries.length < 2 then 0 else joltOuter batteries 0

/-! ## `FindMaxSubsequence` (main.go 60-103) -/

/-- Embedding of `strconv.Itoa`: the decimal rendering of an `int`. -/
def Itoa (x : Int) : List Char :=
  if x < 0 then '-' :: (Nat.repr x.natAbs).toList else (Nat.repr x.natAbs).toList

/-- Branch `k >= n`: the `strings.Builder` loop writing `strconv.Itoa(battery)`
for each battery. -/
def writeAll : List Int → List Char
  | [] => []
  | battery :: rest => Itoa battery ++ writeAll rest

/-- The conversion `byte('0' + battery)`: truncation of the `int` to 8 bits. -/
def toDigitByte (battery : Int) : Nat :=
  ((48 + battery) % 256).toNat

/-- The pop loop of line 87, on a top-first stack:
`for len(stack) > 0 && stack[len(stack)-1] < c && len(stack)-1+remaining >= k`. -/
def popLoop (k remaining : Int) (c : Nat) : List Nat → List Nat
  | [] => []
  | top :: rest =>
    if top < c ∧ ((top :: rest).length : Int) - 1 + remaining ≥ k then
      popLoop k remaining c rest
    else top :: rest

/-- One iteration of the scan at index `i` with `c = digits[i]`: pop, then
push when `len(stack) < k`. -/
def scanStep (k n : Int) (i : Nat) (c : Nat) (stack : List Nat) : List Nat :=
  let remaining := n - (i : Int)
  let stack := popLoop k remaining c stack
  if (stack.length : Int) < k then c :: stack else stack

/-- The scan `for i := 0; i < n; i++`, started at index `i` with `digits[i:]`
still to read. -/
def scanLoop (k n : Int) : Nat → List Nat → List Nat → List Nat
  | _, [], stack => stack
  | i, c :: rest, stack => scanLoop k n (i + 1) rest (scanStep k n i c stack)

/-- Lines 98-100, `if len(stack) > k { stack = stack[:k] }`, on a top-first
stack: the first `k` entries are the bottom `k`. -/
def trimStack (k : Int) (stack : List Nat) : List Nat :=
  if (stack.length : Int) > k then stack.drop (stack.length - k.toNat) else stack

/-- The conversion `string(stack)` of a top-first stack. -/
def stackString (stack : List Nat) : List Char :=
  stack.reverse.map Char.ofNat

/-- Embedding of `FindMaxSubsequence`. -/
def FindMaxSubsequence (batteries : List Int) (k : Int) : List Char :=
  let n : Int := batteries.length
  if k ≤ 0 then []
  else if k ≥ n then writeAll batteries
  else
    let digits := batteries.map toDigitByte
    stackString (trimStack k (scanLoop k n 0 digits []))

/-! ## The two totals (main.go 106-132) -/

/-- Embedding of `SumMaxJoltagesPart1`; `total` is an `int64`. -/
def SumMaxJoltagesPart1 (banks : List (List Int)) : Int :=
  banks.foldl (fun total bank => wrapInt64 (total + FindMaxTwoDigitJoltage bank)) 0

/-- Value of one base-10 digit character, if it is one. -/
def digitVal (ch : Char) : Option Nat :=
  if '0' ≤ ch ∧ ch ≤ '9' then some (ch.toNat - 48) else none

/-- Base-10 reading of a digit string, most significant digit first; `none`
when a character is not a decimal digit. -/
def parseDecimal : List Char → Nat → Option Nat
  | [], acc => some acc
  | ch :: rest, acc =>
    match digitVal ch with
    | none => none
    | some d => parseDecimal rest (10 * acc + d)

/-- Embedding of `(*big.Int).SetString(s, 10)` from the Go standard library:
an optional sign followed by at least one decimal digit, the whole string
being consumed; `none` is the `ok == false` outcome. -/
def SetString (s : List Char) : Option Int :=
  match s with
  | '-' :: rest =>
    if rest = [] then none else (parseDecimal rest 0).map (fun v => -(v : Int))
  | '+' :: rest =>
    if rest = [] then none else (parseDecimal rest 0).map (fun v => (v : Int))
  | _ =>
    if s = [] then none else (parseDecimal s 0).map (fun v => (v : Int))

/-- Body of the loop of `SumMaxJoltagesPart2` for one bank: a failed parse
prints a warning and leaves `total` as it is. -/
def part2Step (total : Int) (bank : List Int) : Int :=
  let maxSeq := FindMaxSubsequence bank 12
  if maxSeq ≠ [] then
    match SetString maxSeq with
    | none => total
    | some num => total + num
  else total

/-- Embedding of `SumMaxJoltagesPart2`; the total is a `big.Int`. -/
def SumMaxJoltagesPart2 (banks : List (List Int)) : Int :=
  banks.foldl part2Step 0

/-! ## Specification vocabulary -/

/-- A digit bank: every element lies in `[0, 9]`. -/
def IsDigitBank (bank : List Int) : Prop :=
  ∀ d ∈ bank, 0 ≤ d ∧ d ≤ 9

instance (bank : List Int) : Decidable (IsDigitBank bank) := by
  unfold IsDigitBank; infer_instance

/-- The character of a digit value: `'0'` shifted by the digit. -/
def digitChar (d : Int) : Char :=
  Char.ofNat (48 + d.toNat)

/-- A strictly increasing list of positions of a sequence of length `n`. -/
def IsSelection (n : Nat) (idx : List Nat) : Prop :=
  idx.Pairwise (· < ·) ∧ ∀ i ∈ idx, i < n

/-- The digit string read off a bank at the given positions. -/
def selectDigits (bank : List Int) (idx : List Nat) : List Char :=
  idx.map (fun i => digitChar (bank.getD i 0))

/-- Lexicographic order on sequences (strings, byte sequences): `s` is no
larger than `t`. -/
def lexLE {α : Type} [LT α] : List α → List α → Prop
  | [], _ => True
  | _ :: _, [] => False
  | a :: s, b :: t => a < b ∨ (a = b ∧ lexLE s t)

/-- Base-10 value of a string of digit characters, the empty string being 0. -/
def decimalValue (s : List Char) : Nat :=
  s.foldl (fun acc ch => 10 * acc + (ch.toNat - 48)) 0

/-! ## Invariants of the scan

These predicates describe a state of the scan of `FindMaxSubsequence`: a
top-first stack together with the digits not yet read. -/

/-- Candidate outputs reachable from a scan state: the bottom part of the stack
(a suffix of the top-first list) followed by a selection of the unread digits,
of total length `k`. -/
def Candidate (k : Nat) (stack unread : List Nat) (out : List Nat) : Prop :=
  ∃ kept sel, kept <:+ stack ∧ sel.Sublist unread ∧
    out = kept.reverse ++ sel ∧ out.length = k

/-- Stack shape with `r` digits unread: an entry sits above a smaller one only
where dropping the smaller one would have left too few digits to reach `k`. -/
def Settled (k r : Nat) : List Nat → Prop
  | above :: below :: rest =>
    (above ≤ below ∨ rest.length + r + 1 < k) ∧ Settled k r (below :: rest)
  | _ => True

/-! ## `ParseBatteryBank` (main.go 23-38)

The line is given as the sequence of runes that `range` yields over it. -/

/-- Embedding of `unicode.IsSpace` from the Go standard library, the white
space that `strings.TrimSpace` removes. -/
def IsSpace (r : Char) : Bool :=
  let n := r.toNat
  decide ((0x09 ≤ n ∧ n ≤ 0x0d) ∨ n = 0x20 ∨ n = 0x85 ∨ n = 0xa0 ∨ n = 0x1680 ∨
    (0x2000 ≤ n ∧ n ≤ 0x200a) ∨ n = 0x2028 ∨ n = 0x2029 ∨ n = 0x202f ∨
    n = 0x205f ∨ n = 0x3000)

/-- Embedding of `strings.TrimSpace`: leading and trailing white space is
removed. -/
def TrimSpace (s : List Char) : List Char :=
  (s.dropWhile IsSpace).rdropWhile IsSpace

/-- The value of `len(line)`: the number of bytes of the UTF-8 encoding. -/
def byteLen (line : List Char) : Nat :=
  (line.map Char.utf8Size).sum

/-- The loop `for i, char := range line`: `i` is the byte offset of `char`,
`batteries` the slice being filled; a character outside `'0'..'9'` ends the
call with the error naming it. -/
def parseLoop : List Char → Nat → List Int → Except Char (List Int)
  | [], _, batteries => Except.ok batteries
  | char :: rest, i, batteries =>
    if char < '0' ∨ char > '9' then Except.error char
    else parseLoop rest (i + char.utf8Size) (batteries.set i ((char.toNat : Int) - 48))

/-- Embedding of `ParseBatteryBank`; the `nil` bank of a blank line is the
empty list, and the error carries the offending character. -/
def ParseBatteryBank (line : List Char) : Except Char (List Int) :=
  let line := TrimSpace line
  if line = [] then Except.ok []
  else parseLoop line 0 (List.replicate (byteLen line) 0)

/-! ## The scan of `FindMaxSubsequence`, iteration by iteration -/

/-- One test of the loop condition of line 87 and, when it holds, the pop of
line 88; `none` when the condition is false and the loop is left. -/
def popStep (k remaining : Int) (c : Nat) : List Nat → Option (List Nat)
  | [] => none
  | top :: rest =>
    if top < c ∧ ((top :: rest).length : Int) - 1 + remaining ≥ k then some rest
    else none

/-- The pop loop of line 87 run for at most `fuel` pops: `some stack` when the
loop is left within them, `none` when it is still running after them. -/
def popRun (k remaining : Int) (c : Nat) : Nat → List Nat → Option (List Nat)
  | 0, stack =>
    match popStep k remaining c stack with
    | none => some stack
    | some _ => none
  | fuel + 1, stack =>
    match popStep k remaining c stack with
    | none => some stack
    | some popped => popRun k remaining c fuel popped

/-- State of the scan with two counters added: the pops and the pushes done
so far. -/
structure ScanCount where
  stack : List Nat
  pops : Nat
  pushes : Nat

/-- The pop loop of line 87, counting its pops. -/
def popLoopCount (k remaining : Int) (c : Nat) : List Nat → Nat → List Nat × Nat
  | [], pops => ([], pops)
  | top :: rest, pops =>
    if top < c ∧ ((top :: rest).length : Int) - 1 + remaining ≥ k then
      popLoopCount k remaining c rest (pops + 1)
    else (top :: rest, pops)

/-- One iteration of the scan at index `i`, counting pops and pushes. -/
def scanStepCount (k n : Int) (i : Nat) (c : Nat) (st : ScanCount) : ScanCount :=
  let remaining := n - (i : Int)
  let popped := popLoopCount k remaining c st.stack st.pops
  if (popped.1.length : Int) < k then
    { stack := c :: popped.1, pops := popped.2, pushes := st.pushes + 1 }
  else { stack := popped.1, pops := popped.2, pushes := st.pushes }

/-- The scan `for i := 0; i < n; i++` from index `i`, counting pops and
pushes. -/
def scanLoopCount (k n : Int) : Nat → List Nat → ScanCount → ScanCount
  | _, [], st => st
  | i, c :: rest, st => scanLoopCount k n (i + 1) rest (scanStepCount k n i c st)

end Day3

/-! # Day 5 (fresh ingredient ranges): embedding of `src/day5/main.go` -/

namespace Day5

/-- The struct `IDRange`, with `int64` bounds. -/
structure IDRange where
  Start : Int
  End : Int
  deriving DecidableEq

/-- Embedding of `IsFresh` (main.go 48-55). -/
def IsFresh (id : Int) : List IDRange → Bool
  | [] => false
  | r :: rest => if id ≥ r.Start ∧ id ≤ r.End then true else IsFresh id rest

/-- The inner loop `for j := 0; j < m; j++` of the bubble sort, walking along
the slice: `a` is `sortedRanges[j]`, `b` is `sortedRanges[j+1]`. -/
def bubblePass : Nat → List IDRange → List IDRange
  | m + 1, a :: b :: rest =>
    if a.Start > b.Start then b :: bubblePass m (a :: rest)
    else a :: bubblePass m (b :: rest)
  | _, l => l

/-- The outer loop `for i := 0; i < len(sortedRanges)-1; i++`; the argument
is the inner bound `len(sortedRanges)-1-i`, which runs from `len-1` down
to 1. -/
def bubbleOuter : Nat → List IDRange → List IDRange
  | 0, l => l
  | m + 1, l => bubbleOuter m (bubblePass (m + 1) l)

/-- One iteration of the merge loop (main.go 169-180). `merged` is kept
last-first: its head is `merged[len(merged)-1]`. -/
def mergeStep (merged : List IDRange) (current : IDRange) : List IDRange :=
  match merged with
  | [] => [current]
  | last :: before =>
    if current.Start ≤ Day3.wrapInt64 (last.End + 1) then
      if current.End > last.End then { last with End := current.End } :: before
      else last :: before
    else current :: last :: before

/-- The counting loop (main.go 186-189) over `merged` in slice order. -/
def countLoop (merged : List IDRange) : Int :=
  merged.foldl
    (fun total r => Day3.wrapInt64 (total + Day3.wrapInt64 (Day3.wrapInt64 (r.End - r.Start) + 1)))
    0

/-- Embedding of `CountUniqueIDsInRanges` (main.go 148-192). The sorted slice
has the length of `ranges`, so past the guard `sortedRanges[0]` exists and the
first `match` arm is never taken. -/
def CountUniqueIDsInRanges (ranges : List IDRange) : Int :=
  if ranges.length = 0 then 0
  else
    match bubbleOuter (ranges.length - 1) ranges with
    | [] => 0
    | first :: rest => countLoop ((rest.foldl mergeStep [first]).reverse)

/-- The ids that lie in at least one of the ranges, as a finite set. -/
def coveredIDs : List IDRange → Finset Int
  | [] => ∅
  | r :: rest => Finset.Icc r.Start r.End ∪ coveredIDs rest

end Day5

/-! # Day 2 (invalid product ids): embedding of `src/day2/main.go` -/

namespace Day2

/-- Embedding of `IsInvalidIDPart1` (main.go 75-89); `strconv.Itoa` is
`Day3.Itoa`. -/
def IsInvalidIDPart1 (id : Int) : Bool :=
  let s := Day3.Itoa id
  let length := s.length
  if length % 2 ≠ 0 then false
  else
    let half := length / 2
    let firstHalf := s.take half
    let secondHalf := s.drop half
    firstHalf == secondHalf

/-- The loop `for i := 0; i < length; i += patternLen` of `IsInvalidIDPart2`
(main.go 112-118): the list holds `s[i:]`, the first argument is the number of
chunks still to compare, and the result is `allMatch`. Where `patternLen`
divides `length` the loop runs `length / patternLen` times. -/
def matchLoop (pattern : List Char) (patternLen : Nat) : Nat → List Char → Bool
  | 0, _ => true
  | chunks + 1, rest =>
    if rest.take patternLen ≠ pattern then false
    else matchLoop pattern patternLen chunks (rest.drop patternLen)

/-- The loop `for patternLen := 1; patternLen <= length/2; patternLen++`
(main.go 98-123), from `patternLen` on with `todo` values still to try. -/
def patternLoop (s : List Char) (length : Nat) : Nat → Nat → Bool
  | 0, _ => false
  | todo + 1, patternLen =>
    if length % patternLen ≠ 0 then patternLoop s length todo (patternLen + 1)
    else
      let pattern := s.take patternLen
      let repeatCount := length / patternLen
      if repeatCount < 2 then patternLoop s length todo (patternLen + 1)
      else if matchLoop pattern patternLen repeatCount s then true
      else patternLoop s length todo (patternLen + 1)

/-- Embedding of `IsInvalidIDPart2` (main.go 93-126). -/
def IsInvalidIDPart2 (id : Int) : Bool :=
  let s := Day3.Itoa id
  let length := s.length
  patternLoop s length (length / 2) 1

/-- The struct `IDRange` of day 2, with `int` bounds. -/
structure IDRange where
  Start : Int
  End : Int
  deriving DecidableEq

/-- The loop `for id := idRange.Start; id <= idRange.End; id++` (main.go
133-137) run for at most `fuel` iterations; `none` when it is still running
after them. `id++` is an `int` increment, `sum += int64(id)` an `int64`
addition. -/
def rangeLoop (isInvalidFunc : Int → Bool) (last : Int) : Nat → Int → Int → Option Int
  | 0, id, sum => if id ≤ last then none else some sum
  | fuel + 1, id, sum =>
    if id ≤ last then
      rangeLoop isInvalidFunc last fuel (Day3.wrapInt64 (id + 1))
        (if isInvalidFunc id then Day3.wrapInt64 (sum + id) else sum)
    else some sum

/-- The loop over the ranges (main.go 132-138), each inner loop having `fuel`
iterations at its disposal. -/
def sumLoop (fuel : Nat) (isInvalidFunc : Int → Bool) : List IDRange → Int → Option Int
  | [], sum => some sum
  | idRange :: rest, sum =>
    match rangeLoop isInvalidFunc idRange.End fuel idRange.Start sum with
    | none => none
    | some sum2 => sumLoop fuel isInvalidFunc rest sum2

/-- Embedding of `SumInvalidIDsInRanges` (main.go 129-141); `none` when some
inner loop needs more than `fuel` iterations. -/
def SumInvalidIDsInRanges (fuel : Nat) (ranges : List IDRange)
    (isInvalidFunc : Int → Bool) : Option Int :=
  sumLoop fuel isInvalidFunc ranges 0

/-- The sum the ranges stand for: over the ranges of the list, the sum of the
ids between `Start` and `End` that the predicate selects. -/
def invalidSum (ranges : List IDRange) (f : Int → Bool) : Int :=
  (ranges.map (fun r =>
    ((Finset.Icc r.Start r.End).filter (fun id => f id = true)).sum (fun id => id))).sum

end Day2

/-! # Day 1 (security dial): embedding of `src/day1/main.go` -/

namespace Day1

/-- The struct `Rotation`; the byte `Direction` is a character. -/
structure Rotation where
  Direction : Char
  Distance : Int
  deriving DecidableEq

/-- Go's `%` on `int`: the remainder of the division truncated toward zero,
which has the sign of the dividend. -/
def goMod (a b : Int) : Int :=
  Int.tmod a b

/-- Body of the loop of `SimulateDialPart1` (main.go 83-96) on the state
`(position, zeroCount)`. `zeroCount` grows by at most one per iteration and is
kept as an unbounded integer. -/
def part1Step (state : Int × Int) (rotation : Rotation) : Int × Int :=
  let position :=
    if rotation.Direction = 'L' then
      let moved := goMod (Day3.wrapInt64 (state.1 - rotation.Distance)) 100
      if moved < 0 then moved + 100 else moved
    else if rotation.Direction = 'R' then
      goMod (Day3.wrapInt64 (state.1 + rotation.Distance)) 100
    else state.1
  (position, if position = 0 then state.2 + 1 else state.2)

/-- Embedding of `SimulateDialPart1` (main.go 79-99). -/
def SimulateDialPart1 (rotations : List Rotation) : Int :=
  (rotations.foldl part1Step (50, 0)).2

/-- One click to the left (main.go 111-117) on the state
`(position, zeroCount)`; `zeroCount++` is an `int` increment. -/
def leftClick (state : Int × Int) : Int × Int :=
  let moved := goMod (Day3.wrapInt64 (state.1 - 1)) 100
  let position := if moved < 0 then moved + 100 else moved
  (position, if position = 0 then Day3.wrapInt64 (state.2 + 1) else state.2)

/-- One click to the right (main.go 122-125); `zeroCount++` is an `int`
increment. -/
def rightClick (state : Int × Int) : Int × Int :=
  let position := goMod (Day3.wrapInt64 (state.1 + 1)) 100
  (position, if position = 0 then Day3.wrapInt64 (state.2 + 1) else state.2)

/-- The loop `for step := 1; step <= rotation.Distance; step++` from `step`
on, run for at most `fuel` iterations; `none` when it is still running after
them. `step++` is an `int` increment. -/
def clickLoop (click : Int × Int → Int × Int) (distance : Int) :
    Nat → Int → Int × Int → Option (Int × Int)
  | 0, step, state => if step ≤ distance then none else some state
  | fuel + 1, step, state =>
    if step ≤ distance then
      clickLoop click distance fuel (Day3.wrapInt64 (step + 1)) (click state)
    else some state

/-- The loop over the rotations of `SimulateDialPart2` (main.go 107-128), each
click loop having `fuel` iterations at its disposal. -/
def part2Loop (fuel : Nat) : List Rotation → Int × Int → Option (Int × Int)
  | [], state => some state
  | rotation :: rest, state =>
    if rotation.Direction = 'L' then
      match clickLoop leftClick rotation.Distance fuel 1 state with
      | none => none
      | some state2 => part2Loop fuel rest state2
    else if rotation.Direction = 'R' then
      match clickLoop rightClick rotation.Distance fuel 1 state with
      | none => none
      | some state2 => part2Loop fuel rest state2
    else part2Loop fuel rest state

/-- Embedding of `SimulateDialPart2` (main.go 103-131); `none` when some click
loop needs more than `fuel` iterations. -/
def SimulateDialPart2 (fuel : Nat) (rotations : List Rotation) : Option Int :=
  (part2Loop fuel rotations (50, 0)).map (fun state => state.2)

/-- The signed distance of a rotation: `-Distance` for `'L'`, `+Distance`
otherwise. -/
def signedDistance (rotation : Rotation) : Int :=
  if rotation.Direction = 'L' then -rotation.Distance else rotation.Distance

/-- The number of indices `i` at which `start` plus the signed distances of
the rotations `0..i` is a multiple of 100. -/
def zeroStopsFrom (start : Int) (rotations : List Rotation) : Nat :=
  ((List.range rotations.length).filter
    (fun i => (start + ((rotations.take (i + 1)).map signedDistance).sum) % 100 = 0)).length

/-- The closed form of one rotation on the state `(position, zeroCount)`: the
number of times the dial passes 0 and the position it ends at. -/
def closedStep (state : Int × Int) (rotation : Rotation) : Int × Int :=
  let p := state.1
  let d := rotation.Distance
  if rotation.Direction = 'R' then ((p + d) % 100, state.2 + (p + d) / 100)
  else
    ((p - d) % 100,
      state.2 + (if p = 0 then d / 100 else if p ≤ d then 1 + (d - p) / 100 else 0))

/-- The closed form of `SimulateDialPart2`: `closedStep` folded over the
rotations from position 50. -/
def SimulateDialPart2Closed (rotations : List Rotation) : Int :=
  (rotations.foldl closedStep (50, 0)).2

end Day1

/-! # Day 4 (paper rolls): embedding of `src/day4/main.go`

A `Grid` (`[][]rune`) is a `List (List Char)`. A function that indexes a slice
returns an `Option`: `none` stands for the run-time panic of an index out of
range (and, for the removal loop, for fuel used up). -/

namespace Day4

/-- The read `grid[row][col]`; `none` when an index is out of range. -/
def cellAt (grid : List (List Char)) (row col : Int) : Option Char :=
  if row < 0 ∨ col < 0 then none
  else
    match grid[row.toNat]? with
    | none => none
    | some cells => cells[col.toNat]?

/-- The table `directions` of `CountAdjacentRolls`. -/
def directions : List (Int × Int) :=
  [(-1, -1), (-1, 0), (-1, 1), (0, -1), (0, 1), (1, -1), (1, 0), (1, 1)]

/-- The loop `for _, dir := range directions` (main.go 62-71). The sums
`row + dir[0]` and `col + dir[1]` are not reduced to `int`: a sum that leaves
the `int` range fails the bounds test either way. -/
def adjacentLoop (grid : List (List Char)) (rows cols row col : Int) :
    List (Int × Int) → Int → Option Int
  | [], count => some count
  | dir :: rest, count =>
    let newRow := row + dir.1
    let newCol := col + dir.2
    if newRow ≥ 0 ∧ newRow < rows ∧ newCol ≥ 0 ∧ newCol < cols then
      match cellAt grid newRow newCol with
      | none => none
      | some ch =>
        adjacentLoop grid rows cols row col rest (if ch = '@' then count + 1 else count)
    else adjacentLoop grid rows cols row col rest count

/-- Embedding of `CountAdjacentRolls` (main.go 50-74); `len(grid[0])` panics
on the empty grid. -/
def CountAdjacentRolls (grid : List (List Char)) (row col : Int) : Option Int :=
  match grid with
  | [] => none
  | first :: _ => adjacentLoop grid grid.length first.length row col directions 0

/-- Embedding of `IsAccessible` (main.go 77-82). -/
def IsAccessible (grid : List (List Char)) (row col : Int) : Option Bool :=
  match cellAt grid row col with
  | none => none
  | some ch =>
    if ch ≠ '@' then some false
    else
      match CountAdjacentRolls grid row col with
      | none => none
      | some n => some (decide (n < 4))

/-- The loop `for col := 0; col < len(grid[row]); col++` of
`CountAccessibleRolls`, from `col` on; the list holds `grid[row][col:]` and
gives the number of iterations. -/
def countInRow (grid : List (List Char)) (row : Nat) : List Char → Nat → Int → Option Int
  | [], _, count => some count
  | _ :: cells, col, count =>
    match IsAccessible grid row col with
    | none => none
    | some true => countInRow grid row cells (col + 1) (count + 1)
    | some false => countInRow grid row cells (col + 1) count

/-- The loop `for row := 0; row < len(grid); row++` of `CountAccessibleRolls`,
from `row` on; the list holds `grid[row:]`. -/
def countInRows (grid : List (List Char)) : List (List Char) → Nat → Int → Option Int
  | [], _, count => some count
  | line :: lines, row, count =>
    match countInRow grid row line 0 count with
    | none => none
    | some count2 => countInRows grid lines (row + 1) count2

/-- Embedding of `CountAccessibleRolls` (main.go 85-95). -/
def CountAccessibleRolls (grid : List (List Char)) : Option Int :=
  countInRows grid grid 0 0

/-- The column loop of the scan of `CountTotalRemovableRolls` (main.go
114-118), appending the accessible positions of the row. -/
def findInRow (grid : List (List Char)) (row : Nat) :
    List Char → Nat → List (Nat × Nat) → Option (List (Nat × Nat))
  | [], _, accessible => some accessible
  | _ :: cells, col, accessible =>
    match IsAccessible grid row col with
    | none => none
    | some true => findInRow grid row cells (col + 1) (accessible ++ [(row, col)])
    | some false => findInRow grid row cells (col + 1) accessible

/-- The row loop of the scan (main.go 113-119). -/
def findInRows (grid : List (List Char)) :
    List (List Char) → Nat → List (Nat × Nat) → Option (List (Nat × Nat))
  | [], _, accessible => some accessible
  | line :: lines, row, accessible =>
    match findInRow grid row line 0 accessible with
    | none => none
    | some accessible2 => findInRows grid lines (row + 1) accessible2

/-- The write `currentGrid[row][col] = ch`. The positions written by
`CountTotalRemovableRolls` were read in the same grid, so they are in range;
out of range the grid is left as it is. -/
def setCell (grid : List (List Char)) (row col : Nat) (ch : Char) : List (List Char) :=
  match grid[row]? with
  | none => grid
  | some line => grid.set row (line.set col ch)

/-- The loop `for _, pos := range accessible` (main.go 127-129). -/
def removeAll (grid : List (List Char)) (accessible : List (Nat × Nat)) :
    List (List Char) :=
  accessible.foldl (fun current pos => setCell current pos.1 pos.2 '.') grid

/-- The loop `for { ... }` of `CountTotalRemovableRolls` (main.go 109-133) run
for at most `fuel` rounds, on the state `(currentGrid, totalRemoved)`; the
grid it stops on is returned with the total. -/
def removalLoop : Nat → List (List Char) → Int → Option (List (List Char) × Int)
  | 0, _, _ => none
  | fuel + 1, currentGrid, totalRemoved =>
    match findInRows currentGrid currentGrid 0 [] with
    | none => none
    | some accessible =>
      if accessible.length = 0 then some (currentGrid, totalRemoved)
      else
        removalLoop fuel (removeAll currentGrid accessible)
          (totalRemoved + (accessible.length : Int))

/-- Embedding of `CountTotalRemovableRolls` (main.go 99-136); the copy of the
grid is the grid itself. -/
def CountTotalRemovableRolls (fuel : Nat) (grid : List (List Char)) : Option Int :=
  (removalLoop fuel grid 0).map (fun final => final.2)

/-- All rows of the grid have the same length. -/
def Rectangular (grid : List (List Char)) : Prop :=
  ∀ a ∈ grid, ∀ b ∈ grid, a.length = b.length

/-- The eight neighbours of `(row, col)`: the cells at most one row and at most
one column away, the cell itself left out. -/
def neighbours (row col : Int) : Finset (Int × Int) :=
  (Finset.Icc (row - 1) (row + 1) ×ˢ Finset.Icc (col - 1) (col + 1)).erase (row, col)

/-- The number of the eight neighbours of `(row, col)` that lie in the grid and
hold `'@'`. -/
def neighbourRolls (grid : List (List Char)) (row col : Int) : Nat :=
  ((neighbours row col).filter (fun p => cellAt grid p.1 p.2 = some '@')).card

/-- The cell `(row, col)` holds `'@'` and fewer than 4 of its neighbours do. -/
def accessibleCell (grid : List (List Char)) (row col : Nat) : Bool :=
  decide (cellAt grid row col = some '@') && decide (neighbourRolls grid row col < 4)

/-- The positions of a row of the grid, from column 0 on. -/
def rowCells (row : Nat) (line : List Char) : List (Nat × Nat) :=
  (List.range line.length).map (fun col => (row, col))

/-- The positions of the rows `lines`, numbered from `row` on, in row-major
order. -/
def cellsFrom : List (List Char) → Nat → List (Nat × Nat)
  | [], _ => []
  | line :: lines, row => rowCells row line ++ cellsFrom lines (row + 1)

/-- The accessible cells of the grid, in row-major order. -/
def accessibleCells (grid : List (List Char)) : List (Nat × Nat) :=
  (cellsFrom grid 0).filter (fun pos => accessibleCell grid pos.1 pos.2)

/-- The number of cells of the grid that hold `'@'`. -/
def countRolls (grid : List (List Char)) : Nat :=
  (grid.map (fun line => line.count '@')).sum

end Day4

/-! # Day 6 (worksheets): embedding of `solvePart2` of `src/day6/main.go`

A line is the sequence of its runes; `len(line)` is `Day3.byteLen`. `none`
stands for the run-time panic of an index out of range, which a line holding a
rune of several bytes can cause. -/

namespace Day6

/-- Embedding of `n, _ := strconv.Atoi(s)`: the value of an optional sign and
decimal digits, brought into the `int` range; 0 when `s` is not of that
form. -/
def atoiOrZero (s : List Char) : Int :=
  let digits :=
    match s with
    | '+' :: rest => rest
    | '-' :: rest => rest
    | _ => s
  let negative :=
    match s with
    | '-' :: _ => true
    | _ => false
  if digits = [] then 0
  else
    match Day3.parseDecimal digits 0 with
    | none => 0
    | some v =>
      let value : Int := if negative then -(v : Int) else (v : Int)
      if value < -9223372036854775808 then -9223372036854775808
      else if value > 9223372036854775807 then 9223372036854775807
      else value

/-- The loop computing `maxWidth` (main.go 121-126). -/
def maxWidthOf (lines : List (List Char)) : Nat :=
  lines.foldl
    (fun maxWidth cells => if Day3.byteLen cells > maxWidth then Day3.byteLen cells else maxWidth)
    0

/-- The row `[]rune(line + strings.Repeat(" ", maxWidth-len(line)))`. -/
def padLine (maxWidth : Nat) (cells : List Char) : List Char :=
  cells ++ List.replicate (maxWidth - Day3.byteLen cells) ' '

/-- The closure `isBlankColumn` (main.go 138-145); the list holds the rows of
the grid from `r` on. -/
def isBlankColumn (c : Nat) : List (List Char) → Option Bool
  | [] => some true
  | cells :: rest =>
    match cells[c]? with
    | none => none
    | some ch => if ch ≠ ' ' then some false else isBlankColumn c rest

/-- The struct `problem`. -/
structure Problem where
  columns : List Nat
  operator : Char

/-- The loop `for _, col := range current` looking for the operator (main.go
158-164 and 173-179); `rune(0)` when there is none. -/
def findOperator (grid : List (List Char)) (opRow : Int) : List Nat → Option Char
  | [] => some (Char.ofNat 0)
  | col :: rest =>
    match Day4.cellAt grid opRow col with
    | none => none
    | some ch => if ch = '+' ∨ ch = '*' then some ch else findOperator grid opRow rest

/-- The loop `for c := 0; c < cols; c++` (main.go 155-171) from `c` on, with
`todo` columns left, on the state `(problems, current)`. -/
def columnLoop (grid : List (List Char)) (opRow : Int) :
    Nat → Nat → List Problem → List Nat → Option (List Problem × List Nat)
  | 0, _, problems, current => some (problems, current)
  | todo + 1, c, problems, current =>
    match isBlankColumn c grid with
    | none => none
    | some true =>
      if current.length > 0 then
        match findOperator grid opRow current with
        | none => none
        | some op => columnLoop grid opRow todo (c + 1) (problems ++ [⟨current, op⟩]) []
      else columnLoop grid opRow todo (c + 1) problems []
    | some false => columnLoop grid opRow todo (c + 1) problems (current ++ [c])

/-- The loop `for r := 0; r < opRow; r++` building `numStr` (main.go
190-194); the list holds the rows above the operator row from `r` on. -/
def columnText (col : Nat) : List (List Char) → List Char → Option (List Char)
  | [], numStr => some numStr
  | cells :: rest, numStr =>
    match cells[col]? with
    | none => none
    | some ch => columnText col rest (if ch ≠ ' ' then numStr ++ [ch] else numStr)

/-- The loop `for i := len(p.columns) - 1; i >= 0; i--` (main.go 187-199);
the list holds the columns still to read, last first. -/
def numbersOf (above : List (List Char)) : List Nat → List Int → Option (List Int)
  | [], numbers => some numbers
  | col :: rest, numbers =>
    match columnText col above [] with
    | none => none
    | some numStr =>
      numbersOf above rest (if numStr ≠ [] then numbers ++ [atoiOrZero numStr] else numbers)

/-- The value added to `result` for one problem (main.go 201-213). -/
def problemValue (operator : Char) (numbers : List Int) : Int :=
  if operator = '+' then numbers.foldl (fun sum n => Day3.wrapInt64 (sum + n)) 0
  else numbers.foldl (fun prod n => Day3.wrapInt64 (prod * n)) 1

/-- The loop `for pi := len(problems) - 1; pi >= 0; pi--` (main.go 184-214);
the list holds the problems still to solve, last first. -/
def solveLoop (above : List (List Char)) : List Problem → Int → Option Int
  | [], result => some result
  | p :: rest, result =>
    match numbersOf above p.columns.reverse [] with
    | none => none
    | some numbers =>
      solveLoop above rest (Day3.wrapInt64 (result + problemValue p.operator numbers))

/-- Embedding of `solvePart2` (main.go 115-217). -/
def solvePart2 (lines : List (List Char)) : Option Int :=
  if lines.length = 0 then some 0
  else
    let maxWidth := maxWidthOf lines
    let grid := lines.map (padLine maxWidth)
    let rows := grid.length
    let cols := maxWidth
    let opRow := rows - 1
    match columnLoop grid opRow cols 0 [] [] with
    | none => none
    | some (problems, current) =>
      match
        (if current.length > 0 then
          (findOperator grid opRow current).map (fun op => problems ++ [⟨current, op⟩])
        else some problems) with
      | none => none
      | some problems2 => solveLoop (grid.take opRow) problems2.reverse 0

end Day6

namespace Day4

/-! ## The removal loop with a round counter, and self-supporting sets -/

/-- The loop `for { ... }` of `CountTotalRemovableRolls` (main.go 109-133) with
a counter added: the number of rounds that removed rolls, the round that finds
nothing to remove and leaves the loop not being counted. -/
def removalLoopCount :
    Nat → List (List Char) → Int → Nat → Option (List (List Char) × Int × Nat)
  | 0, _, _, _ => none
  | fuel + 1, currentGrid, totalRemoved, rounds =>
    match findInRows currentGrid currentGrid 0 [] with
    | none => none
    | some accessible =>
      if accessible.length = 0 then some (currentGrid, totalRemoved, rounds)
      else
        removalLoopCount fuel (removeAll currentGrid accessible)
          (totalRemoved + (accessible.length : Int)) (rounds + 1)

/-- The set of the cells of the grid that hold `'@'`. -/
def rollSet (grid : List (List Char)) : Finset (Int × Int) :=
  (((cellsFrom grid 0).filter (fun pos => decide (cellAt grid pos.1 pos.2 = some '@'))).map
    (fun pos => ((pos.1 : Int), (pos.2 : Int)))).toFinset

/-- Every cell of `S` has at least 4 of its eight neighbours in `S`. -/
def SelfSupporting (S : Finset (Int × Int)) : Prop :=
  ∀ p ∈ S, 4 ≤ ((neighbours p.1 p.2).filter (fun q => q ∈ S)).card

end Day4

/-! # Theorems -/

namespace Day3

/-! ## Machine-integer facts -/

theorem wrapInt64_of_range (x : Int) (h1 : -9223372036854775808 ≤ x)
    (h2 : x < 9223372036854775808) : wrapInt64 x = x := by
  unfold wrapInt64; omega

theorem wrapInt64_wrap_add (a b : Int) : wrapInt64 (wrapInt64 a + b) = wrapInt64 (a + b) := by
  unfold wrapInt64; omega

theorem wrapInt64_range (x : Int) :
    -9223372036854775808 ≤ wrapInt64 x ∧ wrapInt64 x < 9223372036854775808 := by
  unfold wrapInt64; omega

/-! ## The pair maximum -/

theorem joltInner_spec (a : Int) (ha : 0 ≤ a ∧ a ≤ 9) :
    ∀ (rest : List Int) (m : Int), IsDigitBank rest →
      m ≤ joltInner a rest m ∧
      (∀ j, j < rest.length → 10 * a + rest.getD j 0 ≤ joltInner a rest m) ∧
      (joltInner a rest m = m ∨
        ∃ j, j < rest.length ∧ joltInner a rest m = 10 * a + rest.getD j 0) := by
  intro rest
  induction rest with
  | nil => intro m _; simp [joltInner]
  | cons b rest ih =>
    intro m hd
    have hb : 0 ≤ b ∧ b ≤ 9 := hd b (List.mem_cons_self _ _)
    have hrest : IsDigitBank rest := fun d hd' => hd d (List.mem_cons_of_mem _ hd')
    have hw : wrapInt64 (10 * a + b) = 10 * a + b :=
      wrapInt64_of_range _ (by omega) (by omega)
    simp only [joltInner, hw]
    by_cases hc : 10 * a + b > m
    · rw [if_pos hc]
      obtain ⟨h1, h2, h3⟩ := ih (10 * a + b) hrest
      refine ⟨by omega, ?_, ?_⟩
      · intro j hj
        cases j with
        | zero => simpa using h1
        | succ j =>
          simp only [List.getD_cons_succ]
          exact h2 j (by simpa using hj)
      · right
        rcases h3 with h3 | ⟨j, hj, h3⟩
        · exact ⟨0, by simp, by simpa using h3⟩
        · exact ⟨j + 1, by simpa using hj, by simpa using h3⟩
    · rw [if_neg hc]
      obtain ⟨h1, h2, h3⟩ := ih m hrest
      refine ⟨h1, ?_, ?_⟩
      · intro j hj
        cases j with
        | zero =>
          simp only [List.getD_cons_zero]
          omega
        | succ j =>
          simp only [List.getD_cons_succ]
          exact h2 j (by simpa using hj)
      · rcases h3 with h3 | ⟨j, hj, h3⟩
        · left; exact h3
        · right
          exact ⟨j + 1, by simpa using hj, by simpa using h3⟩

theorem joltOuter_spec :
    ∀ (l : List Int) (m : Int), IsDigitBank l →
      m ≤ joltOuter l m ∧
      (∀ i j, i < j → j < l.length → 10 * l.getD i 0 + l.getD j 0 ≤ joltOuter l m) ∧
      (joltOuter l m = m ∨
        ∃ i j, i < j ∧ j < l.length ∧ joltOuter l m = 10 * l.getD i 0 + l.getD j 0) := by
  intro l
  induction l with
  | nil => intro m _; simp [joltOuter]
  | cons a rest ih =>
    intro m hd
    have ha : 0 ≤ a ∧ a ≤ 9 := hd a (List.mem_cons_self _ _)
    have hrest : IsDigitBank rest := fun d hd' => hd d (List.mem_cons_of_mem _ hd')
    obtain ⟨i1, i2, i3⟩ := joltInner_spec a ha rest m hrest
    obtain ⟨h1, h2, h3⟩ := ih (joltInner a rest m) hrest
    simp only [joltOuter]
    refine ⟨le_trans i1 h1, ?_, ?_⟩
    · intro i j hij hj
      cases j with
      | zero => omega
      | succ j =>
        cases i with
        | zero =>
          simp only [List.getD_cons_zero, List.getD_cons_succ]
          exact le_trans (i2 j (by simpa using hj)) h1
        | succ i =>
          simp only [List.getD_cons_succ]
          exact h2 i j (by omega) (by simpa using hj)
    · rcases h3 with h3 | ⟨i, j, hij, hj, h3⟩
      · rcases i3 with i3 | ⟨j, hj, i3⟩
        · left; rw [h3, i3]
        · right
          exact ⟨0, j + 1, by omega, by simpa using hj, by rw [h3, i3]; simp⟩
      · right
        exact ⟨i + 1, j + 1, by omega, by simpa using hj, by simpa using h3⟩

/-- C1: for a digit bank of length at least 2, `FindMaxTwoDigitJoltage` is the
maximum of `10 * bank[i] + bank[j]` over the pairs `i < j`: the value is
attained at some pair and no pair exceeds it. -/
theorem FindMaxTwoDigitJoltage_is_max (bank : List Int) (hd : IsDigitBank bank)
    (hn : 2 ≤ bank.length) :
    (∃ i j, i < j ∧ j < bank.length ∧
        FindMaxTwoDigitJoltage bank = 10 * bank.getD i 0 + bank.getD j 0) ∧
    (∀ i j, i < j → j < bank.length →
        10 * bank.getD i 0 + bank.getD j 0 ≤ FindMaxTwoDigitJoltage bank) := by
  have hlen : ¬ bank.length < 2 := by omega
  obtain ⟨h1, h2, h3⟩ := joltOuter_spec bank 0 hd
  simp only [FindMaxTwoDigitJoltage, if_neg hlen]
  refine ⟨?_, h2⟩
  rcases h3 with h3 | h3
  · refine ⟨0, 1, by omega, by omega, ?_⟩
    have hle := h2 0 1 (by omega) (by omega)
    have h0 : 0 ≤ bank.getD 0 0 := by
      rw [List.getD_eq_getElem _ _ (by omega)]
      exact (hd _ (List.getElem_mem _)).1
    have h1' : 0 ≤ bank.getD 1 0 := by
      rw [List.getD_eq_getElem _ _ (by omega)]
      exact (hd _ (List.getElem_mem _)).1
    omega
  · exact h3

/-- Witness for C1 on the bank `[1, 2, 3, 4, 5]`. -/
theorem FindMaxTwoDigitJoltage_is_max_witness :
    (∃ i j, i < j ∧ j < [1, 2, 3, 4, 5].length ∧
        FindMaxTwoDigitJoltage [1, 2, 3, 4, 5]
          = 10 * [1, 2, 3, 4, 5].getD i 0 + [1, 2, 3, 4, 5].getD j 0) ∧
    (∀ i j, i < j → j < [1, 2, 3, 4, 5].length →
        10 * [1, 2, 3, 4, 5].getD i 0 + [1, 2, 3, 4, 5].getD j 0
          ≤ FindMaxTwoDigitJoltage [1, 2, 3, 4, 5]) :=
  FindMaxTwoDigitJoltage_is_max [1, 2, 3, 4, 5] (by decide) (by decide)

/-! ## The bounded total and the guards -/

theorem sumPart1_foldl (banks : List (List Int)) : ∀ t : Int,
    banks.foldl (fun total bank => wrapInt64 (total + FindMaxTwoDigitJoltage bank))
        (wrapInt64 t)
      = wrapInt64 (t + (banks.map FindMaxTwoDigitJoltage).sum) := by
  induction banks with
  | nil => intro t; simp
  | cons b rest ih =>
    intro t
    simp only [List.foldl_cons, List.map_cons, List.sum_cons]
    rw [wrapInt64_wrap_add, ih]
    congr 1
    ring

theorem SumMaxJoltagesPart1_eq_wrap (banks : List (List Int)) :
    SumMaxJoltagesPart1 banks = wrapInt64 (banks.map FindMaxTwoDigitJoltage).sum := by
  have h := sumPart1_foldl banks 0
  have h0 : wrapInt64 0 = 0 := by decide
  rw [h0] at h
  simpa [SumMaxJoltagesPart1] using h

/-- C7: a bank of length 0 or 1 has pair maximum 0, and inserting such a bank
anywhere in the list leaves `SumMaxJoltagesPart1` unchanged. -/
theorem FindMaxTwoDigitJoltage_short (bank : List Int) (h : bank.length < 2) :
    FindMaxTwoDigitJoltage bank = 0 ∧
    ∀ pre post : List (List Int),
      SumMaxJoltagesPart1 (pre ++ bank :: post) = SumMaxJoltagesPart1 (pre ++ post) := by
  have h0 : FindMaxTwoDigitJoltage bank = 0 := by
    simp [FindMaxTwoDigitJoltage, h]
  refine ⟨h0, ?_⟩
  intro pre post
  rw [SumMaxJoltagesPart1_eq_wrap, SumMaxJoltagesPart1_eq_wrap]
  simp [h0]

/-- Witness for C7 on the one-element bank `[5]`. -/
theorem FindMaxTwoDigitJoltage_short_witness :
    FindMaxTwoDigitJoltage [5] = 0 ∧
    ∀ pre post : List (List Int),
      SumMaxJoltagesPart1 (pre ++ [5] :: post) = SumMaxJoltagesPart1 (pre ++ post) :=
  FindMaxTwoDigitJoltage_short [5] (by decide)

/-- C6: for any bank and any `k ≤ 0`, negative `k` included,
`FindMaxSubsequence` returns the empty string. -/
theorem FindMaxSubsequence_nonpos (bank : List Int) (k : Int) (hk : k ≤ 0) :
    FindMaxSubsequence bank k = [] := by
  unfold FindMaxSubsequence
  simp only
  rw [if_pos hk]

/-- Witness for C6 with a negative `k` and a bank holding non-digits. -/
theorem FindMaxSubsequence_nonpos_witness :
    FindMaxSubsequence [1, -7, 300] (-5) = [] :=
  FindMaxSubsequence_nonpos [1, -7, 300] (-5) (by decide)

/-- C9 as written fails: on two banks `[0, 2^63 - 1]` the `int64` total wraps
to `-2`, which is not the sum of the two pair maxima. -/
theorem SumMaxJoltagesPart1_not_exact_sum :
    SumMaxJoltagesPart1 [[0, 9223372036854775807], [0, 9223372036854775807]] = -2 ∧
    ([[0, 9223372036854775807], [0, 9223372036854775807]].map
        FindMaxTwoDigitJoltage).sum = 18446744073709551614 ∧
    SumMaxJoltagesPart1 [[0, 9223372036854775807], [0, 9223372036854775807]]
      ≠ ([[0, 9223372036854775807], [0, 9223372036854775807]].map
          FindMaxTwoDigitJoltage).sum := by
  decide

/-- C9 (amended): `SumMaxJoltagesPart1` is the sum of the pair maxima of the
banks reduced to the `int64` range, and it is that sum exactly whenever the
sum lies in the `int64` range. -/
theorem SumMaxJoltagesPart1_eq_sum (banks : List (List Int)) :
    SumMaxJoltagesPart1 banks = wrapInt64 (banks.map FindMaxTwoDigitJoltage).sum ∧
    (-9223372036854775808 ≤ (banks.map FindMaxTwoDigitJoltage).sum →
      (banks.map FindMaxTwoDigitJoltage).sum < 9223372036854775808 →
      SumMaxJoltagesPart1 banks = (banks.map FindMaxTwoDigitJoltage).sum) := by
  refine ⟨SumMaxJoltagesPart1_eq_wrap banks, ?_⟩
  intro h1 h2
  rw [SumMaxJoltagesPart1_eq_wrap, wrapInt64_of_range _ h1 h2]

/-- Witness for C9 (amended) on the banks `[1, 2, 3, 4, 5]` and `[5, 5]`. -/
theorem SumMaxJoltagesPart1_eq_sum_witness :
    SumMaxJoltagesPart1 [[1, 2, 3, 4, 5], [5, 5]]
      = ([[1, 2, 3, 4, 5], [5, 5]].map FindMaxTwoDigitJoltage).sum :=
  (SumMaxJoltagesPart1_eq_sum [[1, 2, 3, 4, 5], [5, 5]]).2 (by decide) (by decide)

/-- C10: on the empty list of banks both totals are 0. -/
theorem Sum_empty :
    SumMaxJoltagesPart1 [] = 0 ∧ SumMaxJoltagesPart2 [] = 0 :=
  ⟨rfl, rfl⟩

/-! ## Digits, bytes and characters -/

theorem IsDigitBank.tail {a : Int} {rest : List Int} (h : IsDigitBank (a :: rest)) :
    IsDigitBank rest :=
  fun d hd => h d (List.mem_cons_of_mem _ hd)

theorem IsDigitBank.head {a : Int} {rest : List Int} (h : IsDigitBank (a :: rest)) :
    0 ≤ a ∧ a ≤ 9 :=
  h a (List.mem_cons_self _ _)

theorem Itoa_digit (d : Int) (h0 : 0 ≤ d) (h9 : d ≤ 9) : Itoa d = [digitChar d] := by
  obtain ⟨m, rfl⟩ := Int.eq_ofNat_of_zero_le h0
  have hm : m ≤ 9 := by omega
  interval_cases m <;> decide

theorem toDigitByte_digit (d : Int) (h0 : 0 ≤ d) (h9 : d ≤ 9) :
    toDigitByte d = 48 + d.toNat := by
  unfold toDigitByte; omega

theorem ofNat_toDigitByte (d : Int) (h0 : 0 ≤ d) (h9 : d ≤ 9) :
    Char.ofNat (toDigitByte d) = digitChar d := by
  rw [toDigitByte_digit d h0 h9]; rfl

theorem toNat_ofNat_byte (b : Nat) (h : b < 256) : (Char.ofNat b).toNat = b := by
  have hv : b.isValidChar := Or.inl (by omega)
  unfold Char.ofNat
  rw [dif_pos hv]
  simp [Char.toNat, Char.ofNatAux, UInt32.toNat]

theorem toNat_digitChar (d : Int) (h0 : 0 ≤ d) (h9 : d ≤ 9) :
    (digitChar d).toNat = 48 + d.toNat := by
  unfold digitChar
  exact toNat_ofNat_byte _ (by omega)

theorem writeAll_digits (bank : List Int) (hd : IsDigitBank bank) :
    writeAll bank = bank.map digitChar := by
  induction bank with
  | nil => rfl
  | cons a rest ih =>
    simp only [writeAll, List.map_cons, ih hd.tail, Itoa_digit a hd.head.1 hd.head.2,
      List.singleton_append]

theorem map_toDigitByte_digits (bank : List Int) (hd : IsDigitBank bank) :
    (bank.map toDigitByte).map Char.ofNat = bank.map digitChar := by
  induction bank with
  | nil => rfl
  | cons a rest ih =>
    simp only [List.map_cons, ih hd.tail, ofNat_toDigitByte a hd.head.1 hd.head.2]

/-! ## The pop loop -/

theorem popLoop_suffix (k r : Int) (c : Nat) (stack : List Nat) :
    popLoop k r c stack <:+ stack := by
  induction stack with
  | nil => exact List.suffix_refl _
  | cons top rest ih =>
    unfold popLoop
    split_ifs
    · exact ih.trans (List.suffix_cons _ _)
    · exact List.suffix_refl _

theorem popLoop_feasible (k r : Int) (c : Nat) (stack : List Nat)
    (h : k ≤ (stack.length : Int) + r) :
    k ≤ ((popLoop k r c stack).length : Int) + r := by
  induction stack with
  | nil => simpa [popLoop] using h
  | cons top rest ih =>
    unfold popLoop
    split_ifs with hc
    · apply ih
      have := hc.2
      simp only [List.length_cons, Nat.cast_add, Nat.cast_one] at this
      omega
    · exact h

theorem popLoop_head (k r : Int) (c : Nat) (stack : List Nat) (top : Nat)
    (rest : List Nat) (h : popLoop k r c stack = top :: rest) :
    c ≤ top ∨ (rest.length : Int) + r < k := by
  induction stack with
  | nil => simp [popLoop] at h
  | cons t s ih =>
    unfold popLoop at h
    split_ifs at h with hc
    · exact ih h
    · obtain ⟨rfl, rfl⟩ := List.cons.inj h
      simp only [List.length_cons, Nat.cast_add, Nat.cast_one] at hc
      by_cases hlt : t < c
      · right
        have := fun h2 => hc ⟨hlt, h2⟩
        omega
      · left; omega

/-! ## Length of the stack during the scan -/

theorem scanStep_length_le (k n : Int) (i c : Nat) (stack : List Nat)
    (h : (stack.length : Int) ≤ k) : ((scanStep k n i c stack).length : Int) ≤ k := by
  have hs := (popLoop_suffix k (n - i) c stack).length_le
  unfold scanStep
  simp only
  split_ifs with hc
  · simp only [List.length_cons, Nat.cast_add, Nat.cast_one]; omega
  · omega

theorem scanStep_feasible (k n : Int) (i c : Nat) (stack : List Nat)
    (hi : (i : Int) < n) (h : k ≤ (stack.length : Int) + (n - i)) :
    k ≤ ((scanStep k n i c stack).length : Int) + (n - (i + 1 : Nat)) := by
  have hf := popLoop_feasible k (n - i) c stack h
  unfold scanStep
  simp only
  split_ifs with hc
  · simp only [List.length_cons, Nat.cast_add, Nat.cast_one]; omega
  · push_cast; omega

theorem scanLoop_length (k n : Int) :
    ∀ (unread : List Nat) (i : Nat) (stack : List Nat),
      n = (i : Int) + unread.length →
      (stack.length : Int) ≤ k →
      k ≤ (stack.length : Int) + (n - i) →
      ((scanLoop k n i unread stack).length : Int) = k := by
  intro unread
  induction unread with
  | nil =>
    intro i stack hn hle hfe
    simp only [List.length_nil, Nat.cast_zero, add_zero] at hn
    simp only [scanLoop]
    omega
  | cons c rest ih =>
    intro i stack hn hle hfe
    simp only [scanLoop]
    apply ih
    · simp only [List.length_cons, Nat.cast_add, Nat.cast_one] at hn
      push_cast; omega
    · exact scanStep_length_le k n i c stack hle
    · refine scanStep_feasible k n i c stack ?_ hfe
      simp only [List.length_cons, Nat.cast_add, Nat.cast_one] at hn
      omega

theorem trimStack_of_le (k : Int) (stack : List Nat) (h : (stack.length : Int) ≤ k) :
    trimStack k stack = stack := by
  unfold trimStack
  rw [if_neg (by omega)]

theorem scan_length (digits : List Nat) (k : Int) (hk : 0 < k)
    (hn : k < (digits.length : Int)) :
    ((scanLoop k digits.length 0 digits []).length : Int) = k :=
  scanLoop_length k digits.length digits 0 [] (by simp) (by simpa using hk.le)
    (by simp; omega)

theorem subsequence_of_nonpos (bank : List Int) (k : Int) (hk : k ≤ 0) :
    FindMaxSubsequence bank k = [] := by
  simp [FindMaxSubsequence, hk]

theorem subsequence_of_ge (bank : List Int) (k : Int) (hd : IsDigitBank bank)
    (hk : (bank.length : Int) ≤ k) :
    FindMaxSubsequence bank k = bank.map digitChar := by
  unfold FindMaxSubsequence
  simp only
  split_ifs with h0
  · have : bank.length = 0 := by omega
    rw [List.length_eq_zero.mp this]; rfl
  · exact writeAll_digits bank hd

theorem subsequence_of_lt (bank : List Int) (k : Int) (h0 : 0 < k)
    (hk : k < (bank.length : Int)) :
    FindMaxSubsequence bank k
      = stackString (scanLoop k bank.length 0 (bank.map toDigitByte) []) := by
  unfold FindMaxSubsequence
  simp only
  rw [if_neg (by omega), if_neg (by omega)]
  have hlen := scan_length (bank.map toDigitByte) k h0 (by simpa using hk)
  simp only [List.length_map] at hlen
  rw [trimStack_of_le k _ (by omega)]

theorem subsequence_length (bank : List Int) (k : Int) (hd : IsDigitBank bank) :
    ((FindMaxSubsequence bank k).length : Int) = min (max k 0) (bank.length : Int) := by
  by_cases h0 : k ≤ 0
  · rw [subsequence_of_nonpos bank k h0]
    simp only [List.length_nil, Nat.cast_zero]
    omega
  · by_cases h1 : (bank.length : Int) ≤ k
    · rw [subsequence_of_ge bank k hd h1, List.length_map]
      omega
    · rw [subsequence_of_lt bank k (by omega) (by omega)]
      have hlen := scan_length (bank.map toDigitByte) k (by omega)
        (by simpa using (by omega : k < (bank.length : Int)))
      simp only [List.length_map] at hlen
      simp only [stackString, List.length_map, List.length_reverse, hlen]
      omega

/-- C5: for a digit bank of length `n` and `k ≥ n`, the result is the string of
all the bank's digits in order (empty for the empty bank). -/
theorem FindMaxSubsequence_all (bank : List Int) (k : Int) (hd : IsDigitBank bank)
    (hk : (bank.length : Int) ≤ k) :
    FindMaxSubsequence bank k = bank.map digitChar :=
  subsequence_of_ge bank k hd hk

/-- Witness for C5 on the repository's test case `k = n = 5`. -/
theorem FindMaxSubsequence_all_witness :
    FindMaxSubsequence [1, 2, 3, 4, 5] 5 = [1, 2, 3, 4, 5].map digitChar :=
  FindMaxSubsequence_all [1, 2, 3, 4, 5] 5 (by decide) (by decide)

/-- C4: for a digit bank of length `n` and any integer `k`, the result has
length `min (max k 0) n`; in particular exactly `k` when `1 ≤ k ≤ n`. -/
theorem FindMaxSubsequence_length (bank : List Int) (k : Int) (hd : IsDigitBank bank) :
    ((FindMaxSubsequence bank k).length : Int) = min (max k 0) (bank.length : Int) ∧
    (1 ≤ k → k ≤ (bank.length : Int) →
      ((FindMaxSubsequence bank k).length : Int) = k) := by
  have key := subsequence_length bank k hd
  refine ⟨key, ?_⟩
  intro h1 h2
  rw [key]
  omega

/-- Witness for C4 on a 15-digit bank with `k = 12`. -/
theorem FindMaxSubsequence_length_witness :
    ((FindMaxSubsequence [9, 8, 7, 6, 5, 4, 3, 2, 1, 1, 1, 1, 1, 1, 1] 12).length : Int)
      = 12 :=
  (FindMaxSubsequence_length [9, 8, 7, 6, 5, 4, 3, 2, 1, 1, 1, 1, 1, 1, 1] 12
    (by decide)).2 (by decide) (by decide)

/-! ## Selections of positions and sublists -/

theorem selection_of_sublist {α β : Type} (f : α → β) (d : α) :
    ∀ (l : List α) (out : List β), out.Sublist (l.map f) →
      ∃ idx, IsSelection l.length idx ∧ out = idx.map (fun i => f (l.getD i d)) := by
  intro l
  induction l with
  | nil =>
    intro out h
    refine ⟨[], ⟨List.Pairwise.nil, by simp⟩, ?_⟩
    simpa using h
  | cons a rest ih =>
    intro out h
    have shift : ∀ idx, IsSelection rest.length idx →
        IsSelection (a :: rest).length (idx.map (· + 1)) := by
      intro idx hsel
      refine ⟨?_, ?_⟩
      · rw [List.pairwise_map]
        exact hsel.1.imp (by intro x y hxy; omega)
      · intro i hi
        obtain ⟨j, hj, rfl⟩ := List.mem_map.mp hi
        have := hsel.2 j hj
        simp only [List.length_cons]; omega
    rw [List.map_cons] at h
    cases h with
    | cons _ h' =>
      obtain ⟨idx, hsel, rfl⟩ := ih _ h'
      refine ⟨idx.map (· + 1), shift idx hsel, ?_⟩
      simp [List.map_map, Function.comp_def]
    | cons₂ _ h' =>
      obtain ⟨idx, hsel, rfl⟩ := ih _ h'
      refine ⟨0 :: idx.map (· + 1), ⟨?_, ?_⟩, ?_⟩
      · refine List.Pairwise.cons ?_ (shift idx hsel).1
        intro i hi
        obtain ⟨j, _, rfl⟩ := List.mem_map.mp hi
        omega
      · intro i hi
        rcases List.mem_cons.mp hi with rfl | hi
        · simp
        · exact (shift idx hsel).2 i hi
      · simp [List.map_map, Function.comp_def]

theorem sublist_of_selection {α β : Type} (f : α → β) (d : α) :
    ∀ (l : List α) (idx : List Nat), IsSelection l.length idx →
      (idx.map (fun i => f (l.getD i d))).Sublist (l.map f) := by
  intro l
  induction l with
  | nil =>
    intro idx hsel
    have : idx = [] := by
      cases idx with
      | nil => rfl
      | cons i _ => exact absurd (hsel.2 i (List.mem_cons_self _ _)) (by simp)
    subst this
    simp
  | cons a rest ih =>
    intro idx hsel
    have unshift : ∀ js : List Nat, IsSelection (a :: rest).length js →
        (∀ j ∈ js, 0 < j) →
        IsSelection rest.length (js.map (· - 1)) ∧
        js.map (fun i => f ((a :: rest).getD i d))
          = (js.map (· - 1)).map (fun i => f (rest.getD i d)) := by
      intro js hjs hpos
      refine ⟨⟨?_, ?_⟩, ?_⟩
      · rw [List.pairwise_map]
        refine hjs.1.imp_of_mem ?_
        intro x y hx hy hxy
        have := hpos x hx
        omega
      · intro i hi
        obtain ⟨j, hj, rfl⟩ := List.mem_map.mp hi
        have h1 := hjs.2 j hj
        have h2 := hpos j hj
        simp only [List.length_cons] at h1
        omega
      · rw [List.map_map]
        apply List.map_congr_left
        intro j hj
        have h2 := hpos j hj
        obtain ⟨j', rfl⟩ : ∃ j', j = j' + 1 := ⟨j - 1, by omega⟩
        simp
    cases idx with
    | nil => simp
    | cons i js =>
      have hjs : IsSelection (a :: rest).length js :=
        ⟨(List.pairwise_cons.mp hsel.1).2, fun j hj => hsel.2 j (List.mem_cons_of_mem _ hj)⟩
      have hgt : ∀ j ∈ js, i < j := (List.pairwise_cons.mp hsel.1).1
      cases i with
      | zero =>
        obtain ⟨hsel', heq⟩ := unshift js hjs (fun j hj => hgt j hj)
        simp only [List.map_cons, List.getD_cons_zero]
        rw [heq]
        exact (ih _ hsel').cons₂ _
      | succ i =>
        obtain ⟨hsel', heq⟩ := unshift ((i + 1) :: js) hsel (by
          intro j hj
          rcases List.mem_cons.mp hj with rfl | hj
          · omega
          · have := hgt j hj; omega)
        rw [heq, List.map_cons]
        exact (ih _ hsel').cons _

/-! ## The stack is read off the bank in order -/

theorem scanStep_sublist (k n : Int) (i c : Nat) (stack unread : List Nat) :
    ((scanStep k n i c stack).reverse ++ unread).Sublist
      (stack.reverse ++ c :: unread) := by
  have hs := popLoop_suffix k (n - i) c stack
  have hpre : (popLoop k (n - i) c stack).reverse <+: stack.reverse :=
    List.reverse_prefix.mpr hs
  unfold scanStep
  simp only
  split_ifs
  · rw [List.reverse_cons, List.append_assoc, List.singleton_append]
    exact hpre.sublist.append (List.Sublist.refl _)
  · exact hpre.sublist.append (List.sublist_cons_self _ _)

theorem scanLoop_sublist (k n : Int) :
    ∀ (unread : List Nat) (i : Nat) (stack : List Nat),
      (scanLoop k n i unread stack).reverse.Sublist (stack.reverse ++ unread) := by
  intro unread
  induction unread with
  | nil => intro i stack; simp [scanLoop]
  | cons c rest ih =>
    intro i stack
    simp only [scanLoop]
    exact (ih (i + 1) (scanStep k n i c stack)).trans (scanStep_sublist k n i c stack rest)

theorem subsequence_sublist (bank : List Int) (k : Int) (hd : IsDigitBank bank) :
    (FindMaxSubsequence bank k).Sublist (bank.map digitChar) := by
  by_cases h0 : k ≤ 0
  · rw [subsequence_of_nonpos bank k h0]; exact List.nil_sublist _
  · by_cases h1 : (bank.length : Int) ≤ k
    · rw [subsequence_of_ge bank k hd h1]
    · rw [subsequence_of_lt bank k (by omega) (by omega), ← map_toDigitByte_digits bank hd]
      unfold stackString
      have h := scanLoop_sublist k bank.length (bank.map toDigitByte) 0 []
      simp only [List.reverse_nil, List.nil_append] at h
      exact h.map _

/-- C3: for a digit bank and any integer `k`, the result is read off the bank
at strictly increasing positions: its `j`-th character is the digit character
of the bank element at the `j`-th position. -/
theorem FindMaxSubsequence_is_selection (bank : List Int) (k : Int)
    (hd : IsDigitBank bank) :
    ∃ idx : List Nat, IsSelection bank.length idx ∧
      FindMaxSubsequence bank k = selectDigits bank idx :=
  selection_of_sublist digitChar 0 bank _ (subsequence_sublist bank k hd)

/-- Witness for C3 on the bank `[1, 2, 3, 4, 5]` with `k = 2`. -/
theorem FindMaxSubsequence_is_selection_witness :
    ∃ idx : List Nat, IsSelection [1, 2, 3, 4, 5].length idx ∧
      FindMaxSubsequence [1, 2, 3, 4, 5] 2 = selectDigits [1, 2, 3, 4, 5] idx :=
  FindMaxSubsequence_is_selection [1, 2, 3, 4, 5] 2 (by decide)

/-! ## Lexicographic order on byte sequences -/

theorem lexLE_refl {α : Type} [LT α] (s : List α) : lexLE s s := by
  induction s with
  | nil => trivial
  | cons a s ih => exact Or.inr ⟨rfl, ih⟩

theorem lexLE_trans : ∀ (s t u : List Nat), lexLE s t → lexLE t u → lexLE s u := by
  intro s
  induction s with
  | nil => intro t u _ _; trivial
  | cons a s ih =>
    intro t u hst htu
    cases t with
    | nil => exact absurd hst (by simp [lexLE])
    | cons b t =>
      cases u with
      | nil => exact absurd htu (by simp [lexLE])
      | cons c u =>
        simp only [lexLE] at hst htu ⊢
        rcases hst with hab | ⟨rfl, hst⟩
        · rcases htu with hbc | ⟨rfl, _⟩
          · left; omega
          · left; exact hab
        · rcases htu with hbc | ⟨rfl, htu⟩
          · left; exact hbc
          · right; exact ⟨rfl, ih t u hst htu⟩

theorem lexLE_append_left (p : List Nat) {s t : List Nat} (h : lexLE s t) :
    lexLE (p ++ s) (p ++ t) := by
  induction p with
  | nil => exact h
  | cons a p ih => exact Or.inr ⟨rfl, ih⟩

theorem lexLE_cons_lt {a b : Nat} (h : a < b) (s t : List Nat) :
    lexLE (a :: s) (b :: t) :=
  Or.inl h

/-! ## Domination of candidates along the scan -/

theorem candidate_pop (k c top : Nat) (rest unread out : List Nat) (htop : top < c)
    (hfeas : k ≤ rest.length + (unread.length + 1))
    (h : Candidate k (top :: rest) (c :: unread) out) :
    ∃ out2, Candidate k rest (c :: unread) out2 ∧ lexLE out out2 := by
  obtain ⟨kept, sel, hkept, hsel, rfl, hlen⟩ := h
  rcases List.suffix_cons_iff.mp hkept with rfl | hkept
  · -- the dropped entry was kept: replace it by `c`
    simp only [List.reverse_cons, List.append_assoc, List.singleton_append,
      List.length_append, List.length_reverse, List.length_cons] at hlen ⊢
    refine ⟨rest.reverse ++ c :: unread.take (k - rest.length - 1),
      ⟨rest, c :: unread.take (k - rest.length - 1), List.suffix_refl _,
        (List.take_sublist _ _).cons₂ _, rfl, ?_⟩, ?_⟩
    · simp only [List.length_append, List.length_reverse, List.length_cons,
        List.length_take]
      omega
    · exact lexLE_append_left _ (lexLE_cons_lt htop _ _)
  · exact ⟨_, ⟨kept, sel, hkept, hsel, rfl, hlen⟩, lexLE_refl _⟩

theorem candidate_popLoop (k c : Nat) (unread : List Nat) :
    ∀ (stack out : List Nat), Candidate k stack (c :: unread) out →
      ∃ out2, Candidate k (popLoop k ((unread.length + 1 : Nat) : Int) c stack)
          (c :: unread) out2 ∧ lexLE out out2 := by
  intro stack
  induction stack with
  | nil => intro out h; exact ⟨out, by simpa [popLoop] using h, lexLE_refl _⟩
  | cons top rest ih =>
    intro out h
    unfold popLoop
    split_ifs with hc
    · have hfeas : k ≤ rest.length + (unread.length + 1) := by
        have := hc.2
        simp only [List.length_cons] at this
        push_cast at this
        omega
      obtain ⟨out1, h1, hle1⟩ := candidate_pop k c top rest unread out hc.1 hfeas h
      obtain ⟨out2, h2, hle2⟩ := ih out1 h1
      exact ⟨out2, h2, lexLE_trans _ _ _ hle1 hle2⟩
    · exact ⟨out, h, lexLE_refl _⟩

theorem Settled.of_suffix (k r : Nat) :
    ∀ (stack kept : List Nat), kept <:+ stack → Settled k r stack → Settled k r kept := by
  intro stack
  induction stack with
  | nil =>
    intro kept hs h
    rw [List.suffix_nil.mp hs]; exact h
  | cons a rest ih =>
    intro kept hs h
    rcases List.suffix_cons_iff.mp hs with rfl | hs
    · exact h
    · apply ih kept hs
      cases rest with
      | nil => trivial
      | cons b rest => exact h.2

theorem Settled.mono_unread (k r : Nat) :
    ∀ (stack : List Nat), Settled k (r + 1) stack → Settled k r stack := by
  intro stack
  induction stack with
  | nil => intro _; trivial
  | cons a rest ih =>
    intro h
    cases rest with
    | nil => trivial
    | cons b rest =>
      refine ⟨?_, ih h.2⟩
      rcases h.1 with h1 | h1
      · exact Or.inl h1
      · right; omega

/-- Below an entry that the pop loop left in place, every entry under which
enough digits remain is at least `c`. -/
theorem settled_ge (k r c : Nat) :
    ∀ (above : List Nat) (x : Nat) (below : List Nat),
      Settled k (r + 1) (above ++ x :: below) →
      (∀ top rest, above ++ x :: below = top :: rest →
        c ≤ top ∨ rest.length + (r + 1) < k) →
      k ≤ below.length + 1 + r →
      c ≤ x := by
  intro above
  induction above with
  | nil =>
    intro x below _ hhead hk
    rcases hhead x below rfl with h | h
    · exact h
    · omega
  | cons b above ih =>
    intro x below hset hhead hk
    have hlen : below.length < (above ++ x :: below).length := by
      simp only [List.length_append, List.length_cons]; omega
    have hb : c ≤ b := by
      rcases hhead b (above ++ x :: below) rfl with h | h
      · exact h
      · omega
    apply ih x below
    · exact Settled.of_suffix k (r + 1) _ _ (List.suffix_cons _ _) hset
    · intro top rest heq
      have hset' : Settled k (r + 1) (b :: top :: rest) := by
        rw [← heq]; exact hset
      have hlen' : below.length ≤ rest.length := by
        have := congrArg List.length heq
        simp only [List.length_append, List.length_cons] at this
        omega
      rcases hset'.1 with h | h
      · left; omega
      · omega
    · exact hk

theorem candidate_push (k c : Nat) (unread stack out : List Nat)
    (hset : Settled k (unread.length + 1) stack)
    (hhead : ∀ top rest, stack = top :: rest →
      c ≤ top ∨ rest.length + (unread.length + 1) < k)
    (h : Candidate k stack (c :: unread) out) :
    ∃ out2, Candidate k (if (stack.length : Int) < (k : Int) then c :: stack else stack)
        unread out2 ∧ lexLE out out2 := by
  have hsuf : stack <:+ (if (stack.length : Int) < (k : Int) then c :: stack else stack) := by
    split_ifs
    · exact List.suffix_cons _ _
    · exact List.suffix_refl _
  obtain ⟨kept, sel, hkept, hsel, rfl, hlen⟩ := h
  cases hsel with
  | cons _ hsel' =>
    exact ⟨_, ⟨kept, sel, hkept.trans hsuf, hsel', rfl, hlen⟩, lexLE_refl _⟩
  | cons₂ _ hsel' =>
    rename_i sel'
    simp only [List.length_append, List.length_reverse, List.length_cons] at hlen
    have hsel_len := hsel'.length_le
    obtain ⟨above, rfl⟩ := hkept
    rcases List.eq_nil_or_concat above with rfl | ⟨above', x, rfl⟩
    · -- the whole stack is kept, so `c` is pushed
      simp only [List.nil_append] at hset hhead hsuf ⊢
      have hpush : (kept.length : Int) < (k : Int) := by omega
      rw [if_pos hpush]
      refine ⟨_, ⟨c :: kept, sel', List.suffix_refl _, hsel', ?_, ?_⟩, lexLE_refl _⟩
      · simp
      · simp only [List.length_append, List.length_reverse, List.length_cons]; omega
    · -- an entry `x` sits right above the kept part, and `c ≤ x`
      have hst : above'.concat x ++ kept = above' ++ x :: kept := by simp
      rw [hst] at hset hhead hsuf
      have hx : c ≤ x :=
        settled_ge k unread.length c above' x kept hset hhead (by omega)
      have hxk : (x :: kept) <:+ above' ++ x :: kept := List.suffix_append _ _
      refine ⟨(x :: kept).reverse ++ sel', ⟨x :: kept, sel', ?_, hsel', rfl, ?_⟩, ?_⟩
      · rw [hst]; exact hxk.trans hsuf
      · simp only [List.length_append, List.length_reverse, List.length_cons]; omega
      · rw [List.reverse_cons, List.append_assoc, List.singleton_append]
        apply lexLE_append_left
        rcases Nat.lt_or_eq_of_le hx with hlt | rfl
        · exact lexLE_cons_lt hlt _ _
        · exact lexLE_refl _

theorem candidate_scanStep (k : Nat) (n : Int) (i c : Nat) (unread stack out : List Nat)
    (hn : n = (i : Int) + ((c :: unread).length : Nat))
    (hset : Settled k (unread.length + 1) stack)
    (h : Candidate k stack (c :: unread) out) :
    Settled k unread.length (scanStep k n i c stack) ∧
    ∃ out2, Candidate k (scanStep k n i c stack) unread out2 ∧ lexLE out out2 := by
  have hrem : n - (i : Int) = ((unread.length + 1 : Nat) : Int) := by
    simp only [List.length_cons] at hn; omega
  have hsuf := popLoop_suffix k (n - i) c stack
  have hset1 : Settled k (unread.length + 1) (popLoop k (n - i) c stack) :=
    Settled.of_suffix _ _ _ _ hsuf hset
  have hhead : ∀ top rest, popLoop k (n - i) c stack = top :: rest →
      c ≤ top ∨ rest.length + (unread.length + 1) < k := by
    intro top rest heq
    rcases popLoop_head k (n - i) c stack top rest heq with h1 | h1
    · exact Or.inl h1
    · right; rw [hrem] at h1; push_cast at h1; omega
  obtain ⟨out1, hc1, hle1⟩ := candidate_popLoop k c unread stack out h
  rw [← hrem] at hc1
  obtain ⟨out2, hc2, hle2⟩ := candidate_push k c unread _ out1 hset1 hhead hc1
  unfold scanStep
  simp only
  refine ⟨?_, out2, hc2, lexLE_trans _ _ _ hle1 hle2⟩
  have hset2 := Settled.mono_unread k unread.length _ hset1
  split_ifs
  · cases hp : popLoop k (n - i) c stack with
    | nil => trivial
    | cons top rest =>
      rw [hp] at hset2
      refine ⟨?_, hset2⟩
      rcases hhead top rest hp with h1 | h1
      · exact Or.inl h1
      · right; omega
  · exact hset2

theorem candidate_scanLoop (k : Nat) (n : Int) :
    ∀ (unread : List Nat) (i : Nat) (stack out : List Nat),
      n = (i : Int) + (unread.length : Nat) →
      Settled k unread.length stack →
      Candidate k stack unread out →
      ∃ out2, Candidate k (scanLoop k n i unread stack) [] out2 ∧ lexLE out out2 := by
  intro unread
  induction unread with
  | nil =>
    intro i stack out _ _ h
    exact ⟨out, by simpa [scanLoop] using h, lexLE_refl _⟩
  | cons c rest ih =>
    intro i stack out hn hset h
    obtain ⟨hset1, out1, hc1, hle1⟩ := candidate_scanStep k n i c rest stack out hn hset h
    obtain ⟨out2, hc2, hle2⟩ := ih (i + 1) _ out1
      (by simp only [List.length_cons] at hn; push_cast at hn ⊢; omega) hset1 hc1
    exact ⟨out2, by simpa [scanLoop] using hc2, lexLE_trans _ _ _ hle1 hle2⟩

/-- The scan returns the lexicographically largest selection of `k` bytes. -/
theorem scan_lex_max (digits : List Nat) (k : Nat) (hk : 0 < k) (hn : k < digits.length)
    (sel : List Nat) (hsel : sel.Sublist digits) (hlen : sel.length = k) :
    lexLE sel (scanLoop k digits.length 0 digits []).reverse := by
  have hstart : Candidate k [] digits sel :=
    ⟨[], sel, List.suffix_refl _, hsel, by simp, hlen⟩
  obtain ⟨out, ⟨kept, sel2, hkept, hsel2, rfl, hlen2⟩, hle⟩ :=
    candidate_scanLoop k digits.length digits 0 [] sel (by simp) trivial hstart
  have hfinal := scan_length digits k (by exact_mod_cast hk) (by exact_mod_cast hn)
  have hs2 : sel2 = [] := List.sublist_nil.mp hsel2
  subst hs2
  simp only [List.append_nil, List.length_reverse] at hlen2 hle
  have : kept = scanLoop k digits.length 0 digits [] :=
    hkept.eq_of_length (by
      have : ((scanLoop k digits.length 0 digits []).length : Int) = (kept.length : Int) := by
        rw [hfinal, hlen2]
      exact_mod_cast this.symm)
  rw [← this]
  exact hle

/-! ## From bytes to characters and decimal values -/

theorem ofNat_lt_ofNat {a b : Nat} (hab : a < b) (hb : b < 256) :
    Char.ofNat a < Char.ofNat b := by
  show (Char.ofNat a).toNat < (Char.ofNat b).toNat
  rw [toNat_ofNat_byte a (by omega), toNat_ofNat_byte b hb]
  exact hab

theorem lexLE_map_ofNat : ∀ (s t : List Nat), (∀ x ∈ s, x < 256) → (∀ y ∈ t, y < 256) →
    lexLE s t → lexLE (s.map Char.ofNat) (t.map Char.ofNat) := by
  intro s
  induction s with
  | nil => intro t _ _ _; trivial
  | cons a s ih =>
    intro t hs ht h
    cases t with
    | nil => exact absurd h (by simp [lexLE])
    | cons b t =>
      simp only [lexLE, List.map_cons] at h ⊢
      rcases h with hab | ⟨rfl, h⟩
      · exact Or.inl (ofNat_lt_ofNat hab (ht b (List.mem_cons_self _ _)))
      · exact Or.inr ⟨rfl, ih t (fun x hx => hs x (List.mem_cons_of_mem _ hx))
          (fun y hy => ht y (List.mem_cons_of_mem _ hy)) h⟩

theorem digitChar_isDigit (d : Int) (h0 : 0 ≤ d) (h9 : d ≤ 9) :
    48 ≤ (digitChar d).toNat ∧ (digitChar d).toNat ≤ 57 := by
  rw [toNat_digitChar d h0 h9]; omega

theorem mem_map_digitChar (bank : List Int) (hd : IsDigitBank bank) :
    ∀ ch ∈ bank.map digitChar, 48 ≤ ch.toNat ∧ ch.toNat ≤ 57 := by
  intro ch hch
  obtain ⟨d, hdm, rfl⟩ := List.mem_map.mp hch
  exact digitChar_isDigit d (hd d hdm).1 (hd d hdm).2

theorem decimal_foldl (s : List Char) : ∀ acc : Nat,
    s.foldl (fun acc ch => 10 * acc + (ch.toNat - 48)) acc
      = acc * 10 ^ s.length + decimalValue s := by
  induction s with
  | nil => intro acc; simp [decimalValue]
  | cons a s ih =>
    intro acc
    simp only [decimalValue, List.foldl_cons, List.length_cons]
    rw [ih (10 * acc + (a.toNat - 48)), ih (10 * 0 + (a.toNat - 48))]
    ring

theorem decimalValue_cons (a : Char) (s : List Char) :
    decimalValue (a :: s) = (a.toNat - 48) * 10 ^ s.length + decimalValue s := by
  have h := decimal_foldl s (10 * 0 + (a.toNat - 48))
  simp only [decimalValue, List.foldl_cons] at h ⊢
  rw [h]
  simp

theorem decimalValue_lt (s : List Char) (hs : ∀ ch ∈ s, 48 ≤ ch.toNat ∧ ch.toNat ≤ 57) :
    decimalValue s < 10 ^ s.length := by
  induction s with
  | nil => simp [decimalValue]
  | cons a s ih =>
    have ha := hs a (List.mem_cons_self _ _)
    have hrec := ih (fun ch hch => hs ch (List.mem_cons_of_mem _ hch))
    rw [decimalValue_cons, List.length_cons, pow_succ]
    have hdig : a.toNat - 48 ≤ 9 := by omega
    have := Nat.mul_le_mul_right (10 ^ s.length) hdig
    omega

theorem decimalValue_le_of_lexLE : ∀ (s t : List Char), s.length = t.length →
    (∀ ch ∈ s, 48 ≤ ch.toNat ∧ ch.toNat ≤ 57) →
    (∀ ch ∈ t, 48 ≤ ch.toNat ∧ ch.toNat ≤ 57) →
    lexLE s t → decimalValue s ≤ decimalValue t := by
  intro s
  induction s with
  | nil =>
    intro t hlen _ _ _
    have : t = [] := List.length_eq_zero.mp hlen.symm
    subst this; exact le_refl _
  | cons a s ih =>
    intro t hlen hs ht h
    cases t with
    | nil => exact absurd h (by simp [lexLE])
    | cons b t =>
      have hlen' : s.length = t.length := by simpa using hlen
      have ha := hs a (List.mem_cons_self _ _)
      have hb := ht b (List.mem_cons_self _ _)
      have hs' : ∀ ch ∈ s, 48 ≤ ch.toNat ∧ ch.toNat ≤ 57 :=
        fun ch hch => hs ch (List.mem_cons_of_mem _ hch)
      have ht' : ∀ ch ∈ t, 48 ≤ ch.toNat ∧ ch.toNat ≤ 57 :=
        fun ch hch => ht ch (List.mem_cons_of_mem _ hch)
      rw [decimalValue_cons, decimalValue_cons, hlen']
      simp only [lexLE] at h
      rcases h with hab | ⟨rfl, h⟩
      · have hab' : a.toNat < b.toNat := hab
        have hlt := decimalValue_lt s hs'
        rw [hlen'] at hlt
        have hstep : (a.toNat - 48 + 1) * 10 ^ t.length ≤ (b.toNat - 48) * 10 ^ t.length :=
          Nat.mul_le_mul_right _ (by omega)
        rw [Nat.add_mul, Nat.one_mul] at hstep
        omega
      · have := ih t hlen' hs' ht' h
        omega

theorem selectDigits_sublist (bank : List Int) (idx : List Nat)
    (hsel : IsSelection bank.length idx) :
    (selectDigits bank idx).Sublist (bank.map digitChar) :=
  sublist_of_selection digitChar 0 bank idx hsel

theorem toDigitByte_lt (d : Int) : toDigitByte d < 256 := by
  unfold toDigitByte; omega

theorem subsequence_lex_max (bank : List Int) (k : Int) (hd : IsDigitBank bank)
    (h1 : 1 ≤ k) (hk : k ≤ (bank.length : Int)) (sel : List Char)
    (hsel : sel.Sublist (bank.map digitChar)) (hlen : (sel.length : Int) = k) :
    lexLE sel (FindMaxSubsequence bank k) := by
  by_cases hkn : k = (bank.length : Int)
  · rw [subsequence_of_ge bank k hd (by omega)]
    have : sel = bank.map digitChar :=
      hsel.eq_of_length (by simp only [List.length_map]; omega)
    rw [this]
    exact lexLE_refl _
  · obtain ⟨K, rfl⟩ := Int.eq_ofNat_of_zero_le (by omega : 0 ≤ k)
    rw [subsequence_of_lt bank K (by omega) (by omega)]
    rw [← map_toDigitByte_digits bank hd] at hsel
    obtain ⟨bytes, hbytes, rfl⟩ := List.sublist_map_iff.mp hsel
    have hmax := scan_lex_max (bank.map toDigitByte) K (by omega)
      (by simp only [List.length_map]; omega) bytes hbytes
      (by simp only [List.length_map] at hlen; omega)
    simp only [List.length_map] at hmax
    unfold stackString
    refine lexLE_map_ofNat _ _ ?_ ?_ hmax
    · intro x hx
      obtain ⟨d, _, rfl⟩ := List.mem_map.mp (hbytes.subset hx)
      exact toDigitByte_lt d
    · intro y hy
      have hsub := scanLoop_sublist K bank.length (bank.map toDigitByte) 0 []
      simp only [List.reverse_nil, List.nil_append] at hsub
      obtain ⟨d, _, rfl⟩ := List.mem_map.mp (hsub.subset hy)
      exact toDigitByte_lt d

/-- C2: for a digit bank of length `n` and `1 ≤ k ≤ n`, every selection of `k`
strictly increasing positions reads a digit string that is lexicographically
no larger than the result, and whose decimal value is no larger than the
result's. -/
theorem FindMaxSubsequence_maximal (bank : List Int) (k : Int) (hd : IsDigitBank bank)
    (h1 : 1 ≤ k) (hk : k ≤ (bank.length : Int)) (idx : List Nat)
    (hsel : IsSelection bank.length idx) (hlen : (idx.length : Int) = k) :
    lexLE (selectDigits bank idx) (FindMaxSubsequence bank k) ∧
    decimalValue (selectDigits bank idx) ≤ decimalValue (FindMaxSubsequence bank k) := by
  have hsub := selectDigits_sublist bank idx hsel
  have hlen' : ((selectDigits bank idx).length : Int) = k := by
    simpa [selectDigits] using hlen
  have hlex := subsequence_lex_max bank k hd h1 hk _ hsub hlen'
  refine ⟨hlex, ?_⟩
  have hrlen := subsequence_length bank k hd
  refine decimalValue_le_of_lexLE _ _ (by omega) ?_ ?_ hlex
  · exact fun ch hch => mem_map_digitChar bank hd ch (hsub.subset hch)
  · exact fun ch hch => mem_map_digitChar bank hd ch
      ((subsequence_sublist bank k hd).subset hch)

/-- Witness for C2: in the bank `[8, 1, 9, 2]` with `k = 2`, the selection at
positions 0 and 3 (reading `82`) is no larger than the result. -/
theorem FindMaxSubsequence_maximal_witness :
    lexLE (selectDigits [8, 1, 9, 2] [0, 3]) (FindMaxSubsequence [8, 1, 9, 2] 2) ∧
    decimalValue (selectDigits [8, 1, 9, 2] [0, 3])
      ≤ decimalValue (FindMaxSubsequence [8, 1, 9, 2] 2) :=
  FindMaxSubsequence_maximal [8, 1, 9, 2] 2 (by decide) (by decide) (by decide) [0, 3]
    (by unfold IsSelection; decide) (by decide)

/-! ## Parsing the selection in `SumMaxJoltagesPart2` -/

theorem digitVal_digit (ch : Char) (h : 48 ≤ ch.toNat ∧ ch.toNat ≤ 57) :
    digitVal ch = some (ch.toNat - 48) := by
  unfold digitVal
  have h0 : '0' ≤ ch := h.1
  have h9 : ch ≤ '9' := h.2
  rw [if_pos ⟨h0, h9⟩]

theorem parseDecimal_digits (s : List Char) (hs : ∀ ch ∈ s, 48 ≤ ch.toNat ∧ ch.toNat ≤ 57) :
    ∀ acc : Nat, parseDecimal s acc
      = some (s.foldl (fun acc ch => 10 * acc + (ch.toNat - 48)) acc) := by
  induction s with
  | nil => intro acc; rfl
  | cons a s ih =>
    intro acc
    simp only [parseDecimal, digitVal_digit a (hs a (List.mem_cons_self _ _)),
      List.foldl_cons]
    exact ih (fun ch hch => hs ch (List.mem_cons_of_mem _ hch)) _

theorem SetString_digits (s : List Char) (hne : s ≠ [])
    (hs : ∀ ch ∈ s, 48 ≤ ch.toNat ∧ ch.toNat ≤ 57) :
    SetString s = some (decimalValue s : Int) := by
  have hparse : parseDecimal s 0 = some (decimalValue s) := parseDecimal_digits s hs 0
  unfold SetString
  split
  · rename_i rest
    have := hs '-' (List.mem_cons_self _ _)
    exact absurd this.1 (by decide)
  · rename_i rest
    have := hs '+' (List.mem_cons_self _ _)
    exact absurd this.1 (by decide)
  · rw [if_neg hne, hparse]; rfl

theorem part2Step_digits (total : Int) (bank : List Int) (hd : IsDigitBank bank) :
    part2Step total bank = total + (decimalValue (FindMaxSubsequence bank 12) : Int) := by
  unfold part2Step
  simp only
  split_ifs with hne
  · have hs : ∀ ch ∈ FindMaxSubsequence bank 12, 48 ≤ ch.toNat ∧ ch.toNat ≤ 57 :=
      fun ch hch => mem_map_digitChar bank hd ch
        ((subsequence_sublist bank 12 hd).subset hch)
    rw [SetString_digits _ hne hs]
  · have : FindMaxSubsequence bank 12 = [] := by
      by_contra h; exact hne h
    rw [this]
    simp [decimalValue]

theorem part2_foldl (banks : List (List Int)) (hd : ∀ bank ∈ banks, IsDigitBank bank) :
    ∀ total : Int, banks.foldl part2Step total
      = total + (banks.map
          (fun bank => (decimalValue (FindMaxSubsequence bank 12) : Int))).sum := by
  induction banks with
  | nil => intro total; simp
  | cons b rest ih =>
    intro total
    simp only [List.foldl_cons, List.map_cons, List.sum_cons]
    rw [part2Step_digits total b (hd b (List.mem_cons_self _ _)),
      ih (fun bank hb => hd bank (List.mem_cons_of_mem _ hb))]
    ring

/-- C8: for a list of digit banks, `SumMaxJoltagesPart2` is the exact integer
sum of the base-10 values of `FindMaxSubsequence bank 12`, an empty selection
counting 0; the total is an unbounded integer, never reduced or truncated. -/
theorem SumMaxJoltagesPart2_exact (banks : List (List Int))
    (hd : ∀ bank ∈ banks, IsDigitBank bank) :
    SumMaxJoltagesPart2 banks
      = (banks.map (fun bank => (decimalValue (FindMaxSubsequence bank 12) : Int))).sum := by
  unfold SumMaxJoltagesPart2
  rw [part2_foldl banks hd 0]
  simp

/-- Witness for C8 on a 14-digit bank, a short bank and the empty bank. -/
theorem SumMaxJoltagesPart2_exact_witness :
    SumMaxJoltagesPart2 [[8, 1, 1, 1, 1, 1, 1, 1, 1, 1, 1, 1, 1, 9], [4, 2], []]
      = ([[8, 1, 1, 1, 1, 1, 1, 1, 1, 1, 1, 1, 1, 9], [4, 2], []].map
          (fun bank => (decimalValue (FindMaxSubsequence bank 12) : Int))).sum :=
  SumMaxJoltagesPart2_exact [[8, 1, 1, 1, 1, 1, 1, 1, 1, 1, 1, 1, 1, 9], [4, 2], []]
    (by decide)


/-! ## Order of the banks, and banks that are not digit banks -/

theorem part2Step_shift (total : Int) (bank : List Int) :
    part2Step total bank = total + part2Step 0 bank := by
  unfold part2Step
  simp only
  split_ifs
  · cases SetString (FindMaxSubsequence bank 12) <;> simp
  · simp

theorem part2_foldl_shift (banks : List (List Int)) : ∀ total : Int,
    banks.foldl part2Step total = total + (banks.map (part2Step 0)).sum := by
  induction banks with
  | nil => intro total; simp
  | cons b rest ih =>
    intro total
    simp only [List.foldl_cons, List.map_cons, List.sum_cons]
    rw [ih, part2Step_shift total b]
    ring

theorem SumMaxJoltagesPart2_eq_sum (banks : List (List Int)) :
    SumMaxJoltagesPart2 banks = (banks.map (part2Step 0)).sum := by
  unfold SumMaxJoltagesPart2
  rw [part2_foldl_shift banks 0]
  simp

theorem SumMaxJoltagesPart2_insert (pre post : List (List Int)) (bank : List Int) :
    SumMaxJoltagesPart2 (pre ++ bank :: post)
      = SumMaxJoltagesPart2 (pre ++ post) + part2Step 0 bank := by
  simp only [SumMaxJoltagesPart2_eq_sum, List.map_append, List.map_cons, List.sum_append,
    List.sum_cons]
  ring

/-- C11: permuting a list of banks (digit banks in particular) changes neither
total: the order in which the banks are folded does not matter. -/
theorem SumMaxJoltages_perm (banks banks2 : List (List Int)) (hp : banks.Perm banks2) :
    SumMaxJoltagesPart1 banks = SumMaxJoltagesPart1 banks2 ∧
    SumMaxJoltagesPart2 banks = SumMaxJoltagesPart2 banks2 := by
  refine ⟨?_, ?_⟩
  · rw [SumMaxJoltagesPart1_eq_wrap, SumMaxJoltagesPart1_eq_wrap,
      (hp.map FindMaxTwoDigitJoltage).sum_eq]
  · rw [SumMaxJoltagesPart2_eq_sum, SumMaxJoltagesPart2_eq_sum,
      (hp.map (part2Step 0)).sum_eq]

/-- Witness for C11 on two banks in both orders. -/
theorem SumMaxJoltages_perm_witness :
    SumMaxJoltagesPart1 [[1, 2, 3], [9, 8]] = SumMaxJoltagesPart1 [[9, 8], [1, 2, 3]] ∧
    SumMaxJoltagesPart2 [[1, 2, 3], [9, 8]] = SumMaxJoltagesPart2 [[9, 8], [1, 2, 3]] :=
  SumMaxJoltages_perm [[1, 2, 3], [9, 8]] [[9, 8], [1, 2, 3]] (List.Perm.swap _ _ _)

/-- C12 as written fails: the bank `[1, -2]` selects `"1-2"`, which is not a
digit string and does not parse, yet a total is returned and it is the total
without that bank; the bank `[-3]` selects `"-3"`, which is read as `-3`. -/
theorem SumMaxJoltagesPart2_no_abort :
    (FindMaxSubsequence [1, -2] 12 = ['1', '-', '2'] ∧
      SetString (FindMaxSubsequence [1, -2] 12) = none ∧
      SumMaxJoltagesPart2 [[1, -2], [3, 4]] = 34 ∧
      SumMaxJoltagesPart2 [[3, 4]] = 34) ∧
    (FindMaxSubsequence [-3] 12 = ['-', '3'] ∧
      SumMaxJoltagesPart2 [[-3], [3, 4]] = 31) := by
  decide

/-- C12 (amended): `SumMaxJoltagesPart2` never aborts. A bank whose selection
`SetString` rejects is skipped, the total being that of the list without the
bank; a bank whose non-empty selection `SetString` accepts adds the parsed
value. -/
theorem SumMaxJoltagesPart2_skips (pre post : List (List Int)) (bank : List Int) :
    (SetString (FindMaxSubsequence bank 12) = none →
      SumMaxJoltagesPart2 (pre ++ bank :: post) = SumMaxJoltagesPart2 (pre ++ post)) ∧
    (∀ v : Int, FindMaxSubsequence bank 12 ≠ [] →
      SetString (FindMaxSubsequence bank 12) = some v →
      SumMaxJoltagesPart2 (pre ++ bank :: post) = SumMaxJoltagesPart2 (pre ++ post) + v) := by
  refine ⟨?_, ?_⟩
  · intro h
    rw [SumMaxJoltagesPart2_insert]
    have : part2Step 0 bank = 0 := by
      unfold part2Step
      simp only [h]
      split_ifs <;> rfl
    rw [this, add_zero]
  · intro v hne h
    rw [SumMaxJoltagesPart2_insert]
    have : part2Step 0 bank = v := by
      unfold part2Step
      simp only [h]
      rw [if_pos hne, zero_add]
    rw [this]

/-- Witness for C12 (amended): the bank `[1, -2]` between two digit banks is
skipped. -/
theorem SumMaxJoltagesPart2_skips_witness :
    SumMaxJoltagesPart2 ([[5, 6]] ++ [1, -2] :: [[3, 4]])
      = SumMaxJoltagesPart2 ([[5, 6]] ++ [[3, 4]]) :=
  (SumMaxJoltagesPart2_skips [[5, 6]] [[3, 4]] [1, -2]).1 (by decide)

/-! ## Bounds on the pair maximum and on its total -/

theorem getD_digit (bank : List Int) (hd : IsDigitBank bank) (i : Nat)
    (hi : i < bank.length) : 0 ≤ bank.getD i 0 ∧ bank.getD i 0 ≤ 9 := by
  rw [List.getD_eq_getElem _ _ hi]
  exact hd _ (List.getElem_mem _)

theorem pairMax_range (bank : List Int) (hd : IsDigitBank bank) :
    0 ≤ FindMaxTwoDigitJoltage bank ∧ FindMaxTwoDigitJoltage bank ≤ 99 := by
  unfold FindMaxTwoDigitJoltage
  split_ifs
  · exact ⟨le_refl _, by decide⟩
  · obtain ⟨h1, _, h3⟩ := joltOuter_spec bank 0 hd
    refine ⟨h1, ?_⟩
    rcases h3 with h3 | ⟨i, j, hij, hj, h3⟩
    · rw [h3]; decide
    · have hi := getD_digit bank hd i (by omega)
      have hj' := getD_digit bank hd j hj
      omega

/-- C13: on a digit bank `FindMaxTwoDigitJoltage` lies in `0..99`. -/
theorem FindMaxTwoDigitJoltage_range (bank : List Int) (hd : IsDigitBank bank) :
    0 ≤ FindMaxTwoDigitJoltage bank ∧ FindMaxTwoDigitJoltage bank ≤ 99 :=
  pairMax_range bank hd

/-- Witness for C13 on the bank `[9, 9]`, which reaches the upper bound. -/
theorem FindMaxTwoDigitJoltage_range_witness :
    0 ≤ FindMaxTwoDigitJoltage [9, 9] ∧ FindMaxTwoDigitJoltage [9, 9] ≤ 99 :=
  FindMaxTwoDigitJoltage_range [9, 9] (by decide)

theorem pairMax_sum_range (banks : List (List Int)) (hd : ∀ bank ∈ banks, IsDigitBank bank) :
    0 ≤ (banks.map FindMaxTwoDigitJoltage).sum ∧
    (banks.map FindMaxTwoDigitJoltage).sum ≤ 99 * (banks.length : Int) := by
  induction banks with
  | nil => simp
  | cons b rest ih =>
    have hb := pairMax_range b (hd b (List.mem_cons_self _ _))
    have hr := ih (fun bank hm => hd bank (List.mem_cons_of_mem _ hm))
    simp only [List.map_cons, List.sum_cons, List.length_cons, Nat.cast_add, Nat.cast_one]
    omega

/-- C14: for a list of digit banks the sum of the pair maxima lies between 0
and `99 * len(banks)`; for fewer than `2^63 / 99` banks the `int64` total does
not overflow, so it is that sum and satisfies the same bounds. -/
theorem SumMaxJoltagesPart1_bounds (banks : List (List Int))
    (hd : ∀ bank ∈ banks, IsDigitBank bank) :
    (0 ≤ (banks.map FindMaxTwoDigitJoltage).sum ∧
      (banks.map FindMaxTwoDigitJoltage).sum ≤ 99 * (banks.length : Int)) ∧
    (99 * (banks.length : Int) < 9223372036854775808 →
      SumMaxJoltagesPart1 banks = (banks.map FindMaxTwoDigitJoltage).sum ∧
      0 ≤ SumMaxJoltagesPart1 banks ∧
      SumMaxJoltagesPart1 banks ≤ 99 * (banks.length : Int)) := by
  have hs := pairMax_sum_range banks hd
  refine ⟨hs, ?_⟩
  intro hlen
  have heq : SumMaxJoltagesPart1 banks = (banks.map FindMaxTwoDigitJoltage).sum := by
    rw [SumMaxJoltagesPart1_eq_wrap]
    exact wrapInt64_of_range _ (by omega) (by omega)
  rw [heq]
  exact ⟨rfl, hs⟩

/-- Witness for C14 on the banks `[9, 9]` and `[1, 2, 3]`. -/
theorem SumMaxJoltagesPart1_bounds_witness :
    SumMaxJoltagesPart1 [[9, 9], [1, 2, 3]]
        = ([[9, 9], [1, 2, 3]].map FindMaxTwoDigitJoltage).sum ∧
      0 ≤ SumMaxJoltagesPart1 [[9, 9], [1, 2, 3]] ∧
      SumMaxJoltagesPart1 [[9, 9], [1, 2, 3]]
        ≤ 99 * (([[9, 9], [1, 2, 3]] : List (List Int)).length : Int) :=
  (SumMaxJoltagesPart1_bounds [[9, 9], [1, 2, 3]] (by decide)).2 (by decide)


/-! ## `ParseBatteryBank` -/

theorem utf8Size_ascii (c : Char) (h : c.toNat ≤ 127) : c.utf8Size = 1 := by
  unfold Char.utf8Size
  have h1 : c.val.toNat = c.toNat := rfl
  have hle : c.val ≤ UInt32.ofNatCore 127 (by decide) := by
    show c.val.toNat ≤ 127
    omega
  rw [if_pos hle]

theorem digit_of_not_outside (c : Char) (h : ¬ (c < '0' ∨ c > '9')) :
    48 ≤ c.toNat ∧ c.toNat ≤ 57 := by
  have h1 : ¬ c.toNat < 48 := fun hh => h (Or.inl hh)
  have h2 : ¬ 57 < c.toNat := fun hh => h (Or.inr hh)
  omega

theorem set_at_length (done : List Int) (t v : Int) (tail : List Int) :
    (done ++ t :: tail).set done.length v = done ++ v :: tail := by
  rw [List.set_append_right _ _ (le_refl _), Nat.sub_self, List.set_cons_zero]

theorem parseLoop_digits : ∀ (rest : List Char) (done tail : List Int),
    (∀ ch ∈ rest, ¬ (ch < '0' ∨ ch > '9')) → tail.length = rest.length →
    parseLoop rest done.length (done ++ tail)
      = Except.ok (done ++ rest.map (fun ch => (ch.toNat : Int) - 48)) := by
  intro rest
  induction rest with
  | nil =>
    intro done tail _ hlen
    have : tail = [] := List.length_eq_zero.mp hlen
    subst this
    simp [parseLoop]
  | cons ch rest ih =>
    intro done tail hd hlen
    cases tail with
    | nil => simp at hlen
    | cons t tail =>
      have hch := hd ch (List.mem_cons_self _ _)
      have hsize := utf8Size_ascii ch (by have := digit_of_not_outside ch hch; omega)
      simp only [parseLoop, if_neg hch, hsize, set_at_length]
      have h := ih (done ++ [(ch.toNat : Int) - 48]) tail
        (fun c hc => hd c (List.mem_cons_of_mem _ hc)) (by simpa using hlen)
      simp only [List.length_append, List.length_singleton, List.append_assoc,
        List.singleton_append] at h
      rw [h, List.map_cons]

theorem parseLoop_error_mem : ∀ (rest : List Char) (i : Nat) (batteries : List Int)
    (e : Char), parseLoop rest i batteries = Except.error e →
    e ∈ rest ∧ (e < '0' ∨ e > '9') := by
  intro rest
  induction rest with
  | nil => intro i batteries e h; simp [parseLoop] at h
  | cons ch rest ih =>
    intro i batteries e h
    unfold parseLoop at h
    split_ifs at h with hc
    · have : ch = e := by injection h
      subst this
      exact ⟨List.mem_cons_self _ _, hc⟩
    · obtain ⟨hm, he⟩ := ih _ _ e h
      exact ⟨List.mem_cons_of_mem _ hm, he⟩

theorem parseLoop_error_of_mem : ∀ (rest : List Char),
    (∃ ch ∈ rest, ch < '0' ∨ ch > '9') →
    ∀ (i : Nat) (batteries : List Int), ∃ e, parseLoop rest i batteries = Except.error e := by
  intro rest
  induction rest with
  | nil => intro h; obtain ⟨ch, hm, _⟩ := h; simp at hm
  | cons c rest ih =>
    intro h i batteries
    unfold parseLoop
    split_ifs with hc
    · exact ⟨c, rfl⟩
    · apply ih
      obtain ⟨ch, hm, hout⟩ := h
      rcases List.mem_cons.mp hm with rfl | hm
      · exact absurd hout hc
      · exact ⟨ch, hm, hout⟩

theorem byteLen_digits (line : List Char) (hd : ∀ ch ∈ line, ¬ (ch < '0' ∨ ch > '9')) :
    byteLen line = line.length := by
  induction line with
  | nil => rfl
  | cons c rest ih =>
    have hc := digit_of_not_outside c (hd c (List.mem_cons_self _ _))
    have hr := ih (fun ch hm => hd ch (List.mem_cons_of_mem _ hm))
    unfold byteLen at hr ⊢
    simp only [List.map_cons, List.sum_cons, List.length_cons, hr,
      utf8Size_ascii c (by omega)]
    omega

theorem TrimSpace_blank (line : List Char) (h : ∀ ch ∈ line, IsSpace ch = true) :
    TrimSpace line = [] := by
  unfold TrimSpace
  rw [List.dropWhile_eq_nil_iff.mpr h]
  rfl

theorem parse_blank (line : List Char) (h : ∀ ch ∈ line, IsSpace ch = true) :
    ParseBatteryBank line = Except.ok [] := by
  unfold ParseBatteryBank
  simp only [TrimSpace_blank line h, if_true]

theorem parse_error_iff (line : List Char) :
    (∃ e, ParseBatteryBank line = Except.error e) ↔
      ∃ ch ∈ TrimSpace line, ch < '0' ∨ '9' < ch := by
  unfold ParseBatteryBank
  simp only
  constructor
  · rintro ⟨e, h⟩
    split_ifs at h with hnil
    exact ⟨e, parseLoop_error_mem _ _ _ e h⟩
  · intro h
    have hne : TrimSpace line ≠ [] := by
      obtain ⟨ch, hm, _⟩ := h
      exact List.ne_nil_of_mem hm
    rw [if_neg hne]
    exact parseLoop_error_of_mem _ h _ _

theorem parse_ok (line : List Char) (bank : List Int)
    (h : ParseBatteryBank line = Except.ok bank) :
    bank = (TrimSpace line).map (fun ch => (ch.toNat : Int) - 48) ∧
    ∀ ch ∈ TrimSpace line, 48 ≤ ch.toNat ∧ ch.toNat ≤ 57 := by
  unfold ParseBatteryBank at h
  simp only at h
  split_ifs at h with hnil
  · have : bank = [] := by injection h with h'; exact h'.symm
    rw [this, hnil]
    exact ⟨rfl, by simp⟩
  · have hdig : ∀ ch ∈ TrimSpace line, ¬ (ch < '0' ∨ ch > '9') := by
      intro ch hm hout
      obtain ⟨e, he⟩ := parseLoop_error_of_mem _ ⟨ch, hm, hout⟩ 0
        (List.replicate (byteLen (TrimSpace line)) 0)
      rw [he] at h
      injection h
    have hloop := parseLoop_digits (TrimSpace line) []
      (List.replicate (byteLen (TrimSpace line)) 0) hdig
      (by rw [List.length_replicate, byteLen_digits _ hdig])
    simp only [List.length_nil, List.nil_append] at hloop
    rw [hloop] at h
    have : (TrimSpace line).map (fun ch => (ch.toNat : Int) - 48) = bank := by
      injection h
    exact ⟨this.symm, fun ch hm => digit_of_not_outside ch (hdig ch hm)⟩

/-- C15: `ParseBatteryBank` returns an error exactly when the trimmed line
holds a character outside `'0'..'9'`; a blank or all-white-space line is not an
error. -/
theorem ParseBatteryBank_error_iff (line : List Char) :
    ((∃ e, ParseBatteryBank line = Except.error e) ↔
      ∃ ch ∈ TrimSpace line, ch < '0' ∨ '9' < ch) ∧
    ((∀ ch ∈ line, IsSpace ch = true) → ParseBatteryBank line = Except.ok []) :=
  ⟨parse_error_iff line, parse_blank line⟩

/-- Witness for C15 on a line of a blank and a tab. -/
theorem ParseBatteryBank_error_iff_witness :
    ParseBatteryBank [' ', '\t'] = Except.ok [] :=
  (ParseBatteryBank_error_iff [' ', '\t']).2 (by decide)

/-- C16: when `ParseBatteryBank` succeeds, the bank has as many elements as
the trimmed line has characters, element `i` is the numeric value of the
`i`-th character, and every element lies in `[0, 9]`; a blank line yields the
empty bank. -/
theorem ParseBatteryBank_ok (line : List Char) :
    (∀ bank, ParseBatteryBank line = Except.ok bank →
      bank.length = (TrimSpace line).length ∧
      (∀ i, i < bank.length →
        bank.getD i 0 = (((TrimSpace line).getD i '0').toNat : Int) - 48) ∧
      IsDigitBank bank) ∧
    ((∀ ch ∈ line, IsSpace ch = true) → ParseBatteryBank line = Except.ok []) := by
  refine ⟨?_, parse_blank line⟩
  intro bank h
  obtain ⟨hmap, hdig⟩ := parse_ok line bank h
  subst hmap
  refine ⟨by simp, ?_, ?_⟩
  · intro i hi
    have hi' : i < (TrimSpace line).length := by simpa using hi
    rw [List.getD_eq_getElem _ _ hi, List.getD_eq_getElem _ _ hi', List.getElem_map]
  · intro d hd
    obtain ⟨ch, hm, rfl⟩ := List.mem_map.mp hd
    have := hdig ch hm
    omega

/-- Witness for C16 on the line `" 12 "`. -/
theorem ParseBatteryBank_ok_witness :
    ([1, 2] : List Int).length = (TrimSpace [' ', '1', '2', ' ']).length ∧
      (∀ i, i < ([1, 2] : List Int).length →
        ([1, 2] : List Int).getD i 0
          = (((TrimSpace [' ', '1', '2', ' ']).getD i '0').toNat : Int) - 48) ∧
      IsDigitBank [1, 2] :=
  (ParseBatteryBank_ok [' ', '1', '2', ' ']).1 [1, 2] rfl


/-! ## Termination of the pop loop, and pops against pushes -/

theorem popStep_shrinks (k remaining : Int) (c : Nat) (stack popped : List Nat)
    (h : popStep k remaining c stack = some popped) :
    popped.length + 1 = stack.length := by
  cases stack with
  | nil => simp [popStep] at h
  | cons top rest =>
    simp only [popStep] at h
    split_ifs at h
    have : rest = popped := by injection h
    subst this
    simp

theorem popRun_enough (k remaining : Int) (c : Nat) :
    ∀ (stack : List Nat) (fuel : Nat), stack.length ≤ fuel →
      popRun k remaining c fuel stack = some (popLoop k remaining c stack) := by
  intro stack
  induction stack with
  | nil =>
    intro fuel _
    cases fuel <;> simp [popRun, popStep, popLoop]
  | cons top rest ih =>
    intro fuel hfuel
    cases fuel with
    | zero => simp at hfuel
    | succ fuel =>
      by_cases hc : top < c ∧ ((top :: rest).length : Int) - 1 + remaining ≥ k
      · simp only [popRun, popStep, popLoop, if_pos hc]
        exact ih fuel (by simpa using hfuel)
      · simp only [popRun, popStep, popLoop, if_neg hc]

theorem popLoopCount_spec (k remaining : Int) (c : Nat) :
    ∀ (stack : List Nat) (pops : Nat),
      (popLoopCount k remaining c stack pops).1 = popLoop k remaining c stack ∧
      (popLoopCount k remaining c stack pops).2 + (popLoop k remaining c stack).length
        = pops + stack.length := by
  intro stack
  induction stack with
  | nil => intro pops; simp [popLoopCount, popLoop]
  | cons top rest ih =>
    intro pops
    by_cases hc : top < c ∧ ((top :: rest).length : Int) - 1 + remaining ≥ k
    · simp only [popLoopCount, popLoop, if_pos hc]
      obtain ⟨h1, h2⟩ := ih (pops + 1)
      refine ⟨h1, ?_⟩
      simp only [List.length_cons]
      omega
    · simp only [popLoopCount, popLoop, if_neg hc]
      trivial

theorem scanStepCount_spec (k n : Int) (i c : Nat) (st : ScanCount)
    (hbal : st.pushes = st.pops + st.stack.length) :
    (scanStepCount k n i c st).stack = scanStep k n i c st.stack ∧
    (scanStepCount k n i c st).pushes
      = (scanStepCount k n i c st).pops + (scanStepCount k n i c st).stack.length := by
  obtain ⟨h1, h2⟩ := popLoopCount_spec k (n - i) c st.stack st.pops
  unfold scanStepCount scanStep
  simp only [h1]
  split_ifs
  · refine ⟨rfl, ?_⟩
    simp only [List.length_cons]
    omega
  · refine ⟨rfl, ?_⟩
    simp only
    omega

theorem scanLoopCount_spec (k n : Int) :
    ∀ (unread : List Nat) (i : Nat) (st : ScanCount),
      st.pushes = st.pops + st.stack.length →
      (scanLoopCount k n i unread st).stack = scanLoop k n i unread st.stack ∧
      (scanLoopCount k n i unread st).pushes
        = (scanLoopCount k n i unread st).pops
          + (scanLoopCount k n i unread st).stack.length := by
  intro unread
  induction unread with
  | nil => intro i st hbal; exact ⟨rfl, hbal⟩
  | cons c rest ih =>
    intro i st hbal
    obtain ⟨h1, h2⟩ := scanStepCount_spec k n i c st hbal
    obtain ⟨h3, h4⟩ := ih (i + 1) _ h2
    simp only [scanLoopCount, scanLoop]
    rw [← h1]
    exact ⟨h3, h4⟩

/-- C17: both selectors are total functions of the bank and of `k`. The pop
loop ends within `len(stack)` pops, each pop shortening the stack by one, and
after any number of iterations of the scan the pops do not exceed the pushes
(the pushes are the pops plus the entries still on the stack). -/
theorem scan_terminates (bank : List Int) (k : Int) :
    ((∃ v, FindMaxTwoDigitJoltage bank = v) ∧ (∃ s, FindMaxSubsequence bank k = s)) ∧
    (∀ (remaining : Int) (c : Nat) (stack popped : List Nat),
      popStep k remaining c stack = some popped → popped.length + 1 = stack.length) ∧
    (∀ (remaining : Int) (c : Nat) (stack : List Nat),
      popRun k remaining c stack.length stack = some (popLoop k remaining c stack)) ∧
    (∀ i : Nat,
      (scanLoopCount k bank.length 0 ((bank.map toDigitByte).take i) ⟨[], 0, 0⟩).stack
        = scanLoop k bank.length 0 ((bank.map toDigitByte).take i) [] ∧
      (scanLoopCount k bank.length 0 ((bank.map toDigitByte).take i) ⟨[], 0, 0⟩).pops
        ≤ (scanLoopCount k bank.length 0 ((bank.map toDigitByte).take i) ⟨[], 0, 0⟩).pushes ∧
      (scanLoopCount k bank.length 0 ((bank.map toDigitByte).take i) ⟨[], 0, 0⟩).pushes
        = (scanLoopCount k bank.length 0 ((bank.map toDigitByte).take i) ⟨[], 0, 0⟩).pops
          + (scanLoopCount k bank.length 0 ((bank.map toDigitByte).take i)
              ⟨[], 0, 0⟩).stack.length) := by
  refine ⟨⟨⟨_, rfl⟩, ⟨_, rfl⟩⟩, ?_, ?_, ?_⟩
  · intro remaining c stack popped h
    exact popStep_shrinks k remaining c stack popped h
  · intro remaining c stack
    exact popRun_enough k remaining c stack stack.length (le_refl _)
  · intro i
    obtain ⟨h1, h2⟩ := scanLoopCount_spec k bank.length ((bank.map toDigitByte).take i) 0
      ⟨[], 0, 0⟩ rfl
    exact ⟨h1, by omega, h2⟩

/-- Witness for C17: in the bank `[1, 2, 3, 4, 5]` with `k = 2`, reading `2`
with the stack holding `1` pops it, and the stack is one entry shorter. -/
theorem scan_terminates_witness :
    ([] : List Nat).length + 1 = [49].length :=
  (scan_terminates [1, 2, 3, 4, 5] 2).2.1 4 50 [49] [] (by decide)

end Day3

namespace Day5

/-! ## `IsFresh` and the covered ids -/

theorem isFresh_iff (id : Int) (ranges : List IDRange) :
    IsFresh id ranges = true ↔ ∃ r ∈ ranges, r.Start ≤ id ∧ id ≤ r.End := by
  induction ranges with
  | nil => simp [IsFresh]
  | cons r rest ih =>
    unfold IsFresh
    split_ifs with hc
    · simp only [true_iff]
      exact ⟨r, List.mem_cons_self _ _, hc.1, hc.2⟩
    · rw [ih]
      constructor
      · rintro ⟨q, hq, hin⟩
        exact ⟨q, List.mem_cons_of_mem _ hq, hin⟩
      · rintro ⟨q, hq, hin⟩
        rcases List.mem_cons.mp hq with rfl | hq
        · exact absurd ⟨hin.1, hin.2⟩ hc
        · exact ⟨q, hq, hin⟩

theorem mem_coveredIDs (id : Int) (ranges : List IDRange) :
    id ∈ coveredIDs ranges ↔ ∃ r ∈ ranges, r.Start ≤ id ∧ id ≤ r.End := by
  induction ranges with
  | nil => simp [coveredIDs]
  | cons r rest ih =>
    simp only [coveredIDs, Finset.mem_union, Finset.mem_Icc, ih, List.mem_cons,
      exists_eq_or_imp]

theorem coveredIDs_perm {l1 l2 : List IDRange} (hp : l1.Perm l2) :
    coveredIDs l1 = coveredIDs l2 := by
  ext id
  simp only [mem_coveredIDs, hp.mem_iff]

/-- C19: `IsFresh` holds exactly when some range of the list contains the id,
both bounds included; it is false on the empty list. -/
theorem IsFresh_spec (id : Int) (ranges : List IDRange) :
    (IsFresh id ranges = true ↔ ∃ r ∈ ranges, r.Start ≤ id ∧ id ≤ r.End) ∧
    IsFresh id [] = false :=
  ⟨isFresh_iff id ranges, rfl⟩

/-! ## The bubble sort -/

theorem bubblePass_perm : ∀ (m : Nat) (l : List IDRange), (bubblePass m l).Perm l := by
  intro m
  induction m with
  | zero => intro l; simp [bubblePass]
  | succ m ih =>
    intro l
    match l with
    | [] => simp [bubblePass]
    | [a] => simp [bubblePass]
    | a :: b :: rest =>
      unfold bubblePass
      split_ifs
      · exact ((ih (a :: rest)).cons b).trans (List.Perm.swap a b rest)
      · exact (ih (b :: rest)).cons a

theorem bubblePass_append : ∀ (m : Nat) (front back : List IDRange),
    front.length = m + 1 → bubblePass m (front ++ back) = bubblePass m front ++ back := by
  intro m
  induction m with
  | zero => intro front back _; simp [bubblePass]
  | succ m ih =>
    intro front back hlen
    match front, hlen with
    | a :: b :: rest, hlen =>
      have ha := ih (a :: rest) back (by simpa using hlen)
      have hb := ih (b :: rest) back (by simpa using hlen)
      simp only [List.cons_append] at ha hb
      simp only [List.cons_append, bubblePass]
      split_ifs
      · show b :: bubblePass m (a :: (rest ++ back)) = b :: (bubblePass m (a :: rest) ++ back)
        rw [ha]
      · show a :: bubblePass m (b :: (rest ++ back)) = a :: (bubblePass m (b :: rest) ++ back)
        rw [hb]

theorem bubblePass_last : ∀ (m : Nat) (front : List IDRange), front.length = m + 1 →
    ∃ init mx, bubblePass m front = init ++ [mx] ∧ ∀ x ∈ init, x.Start ≤ mx.Start := by
  intro m
  induction m with
  | zero =>
    intro front hlen
    match front, hlen with
    | [a], _ => exact ⟨[], a, by simp [bubblePass], by simp⟩
  | succ m ih =>
    intro front hlen
    match front, hlen with
    | a :: b :: rest, hlen =>
      unfold bubblePass
      split_ifs with hc
      · obtain ⟨init, mx, heq, hmax⟩ := ih (a :: rest) (by simpa using hlen)
        have ha : a ∈ init ++ [mx] := by
          rw [← heq]; exact (bubblePass_perm m (a :: rest)).mem_iff.mpr (List.mem_cons_self _ _)
        have hamx : a.Start ≤ mx.Start := by
          rcases List.mem_append.mp ha with h | h
          · exact hmax a h
          · rw [List.mem_singleton.mp h]
        refine ⟨b :: init, mx, by rw [heq]; rfl, ?_⟩
        intro x hx
        rcases List.mem_cons.mp hx with rfl | hx
        · omega
        · exact hmax x hx
      · obtain ⟨init, mx, heq, hmax⟩ := ih (b :: rest) (by simpa using hlen)
        have hb : b ∈ init ++ [mx] := by
          rw [← heq]; exact (bubblePass_perm m (b :: rest)).mem_iff.mpr (List.mem_cons_self _ _)
        have hbmx : b.Start ≤ mx.Start := by
          rcases List.mem_append.mp hb with h | h
          · exact hmax b h
          · rw [List.mem_singleton.mp h]
        refine ⟨a :: init, mx, by rw [heq]; rfl, ?_⟩
        intro x hx
        rcases List.mem_cons.mp hx with rfl | hx
        · omega
        · exact hmax x hx

theorem bubbleOuter_sorted : ∀ (m : Nat) (front back : List IDRange),
    front.length = m + 1 →
    back.Pairwise (fun a b => a.Start ≤ b.Start) →
    (∀ x ∈ front, ∀ y ∈ back, x.Start ≤ y.Start) →
    (bubbleOuter m (front ++ back)).Pairwise (fun a b => a.Start ≤ b.Start) ∧
    (bubbleOuter m (front ++ back)).Perm (front ++ back) := by
  intro m
  induction m with
  | zero =>
    intro front back hlen hback hle
    match front, hlen with
    | [a], _ =>
      simp only [bubbleOuter, List.singleton_append]
      exact ⟨List.Pairwise.cons (fun y hy => hle a (List.mem_singleton_self a) y hy) hback,
        List.Perm.refl _⟩
  | succ m ih =>
    intro front back hlen hback hle
    obtain ⟨init, mx, heq, hmax⟩ := bubblePass_last (m + 1) front hlen
    have hperm : (init ++ [mx]).Perm front := by
      rw [← heq]; exact bubblePass_perm _ _
    have hmx : mx ∈ front := hperm.mem_iff.mp (by simp)
    have hinit : ∀ x ∈ init, x ∈ front := fun x hx => hperm.mem_iff.mp (by simp [hx])
    have hilen : init.length = m + 1 := by
      have := hperm.length_eq
      simp only [List.length_append, List.length_singleton] at this
      omega
    have hstep : bubblePass (m + 1) (front ++ back) = init ++ (mx :: back) := by
      rw [bubblePass_append _ _ _ hlen, heq]; simp
    obtain ⟨hs, hp⟩ := ih init (mx :: back) hilen
      (List.Pairwise.cons (fun y hy => hle mx hmx y hy) hback)
      (by
        intro x hx y hy
        rcases List.mem_cons.mp hy with rfl | hy
        · exact hmax x hx
        · exact hle x (hinit x hx) y hy)
    simp only [bubbleOuter, hstep]
    refine ⟨hs, hp.trans ?_⟩
    rw [← hstep]
    exact bubblePass_perm _ _

theorem bubbleSort_spec (ranges : List IDRange) (hne : ranges ≠ []) :
    (bubbleOuter (ranges.length - 1) ranges).Pairwise (fun a b => a.Start ≤ b.Start) ∧
    (bubbleOuter (ranges.length - 1) ranges).Perm ranges := by
  have hlen : ranges.length = (ranges.length - 1) + 1 := by
    have := List.length_pos.mpr hne
    omega
  have h := bubbleOuter_sorted (ranges.length - 1) ranges [] hlen List.Pairwise.nil
    (by simp)
  simpa using h


/-! ## The merge loop -/

theorem mergeStep_spec (last current : IDRange) (before : List IDRange)
    (hsep : (last :: before).Pairwise (fun a b => b.End + 1 < a.Start))
    (hval : ∀ r ∈ last :: before,
      0 ≤ r.Start ∧ r.Start ≤ r.End ∧ r.End < 4611686018427387904)
    (hcur : 0 ≤ current.Start ∧ current.Start ≤ current.End ∧
      current.End < 4611686018427387904)
    (hle : last.Start ≤ current.Start) :
    ∃ last2 before2, mergeStep (last :: before) current = last2 :: before2 ∧
      (last2 :: before2).Pairwise (fun a b => b.End + 1 < a.Start) ∧
      (∀ r ∈ last2 :: before2,
        0 ≤ r.Start ∧ r.Start ≤ r.End ∧ r.End < 4611686018427387904) ∧
      last2.Start ≤ current.Start ∧
      ∀ id, id ∈ coveredIDs (last2 :: before2) ↔
        id ∈ coveredIDs (last :: before) ∨ (current.Start ≤ id ∧ id ≤ current.End) := by
  have hlast := hval last (List.mem_cons_self _ _)
  have hbefore : ∀ r ∈ before, 0 ≤ r.Start ∧ r.Start ≤ r.End ∧
      r.End < 4611686018427387904 := fun r hr => hval r (List.mem_cons_of_mem _ hr)
  have hsep1 : ∀ b ∈ before, b.End + 1 < last.Start := (List.pairwise_cons.mp hsep).1
  have hsep2 := (List.pairwise_cons.mp hsep).2
  have hw : Day3.wrapInt64 (last.End + 1) = last.End + 1 :=
    Day3.wrapInt64_of_range _ (by omega) (by omega)
  unfold mergeStep
  simp only [hw]
  by_cases h1 : current.Start ≤ last.End + 1
  · rw [if_pos h1]
    by_cases h2 : current.End > last.End
    · rw [if_pos h2]
      refine ⟨{ last with End := current.End }, before, rfl, ?_, ?_, hle, ?_⟩
      · exact List.Pairwise.cons (fun b hb => hsep1 b hb) hsep2
      · intro r hr
        rcases List.mem_cons.mp hr with rfl | hr
        · exact ⟨hlast.1, by simp only; omega, hcur.2.2⟩
        · exact hbefore r hr
      · intro id
        simp only [coveredIDs, Finset.mem_union, Finset.mem_Icc]
        constructor
        · rintro (h | h)
          · by_cases hid : id ≤ last.End
            · exact Or.inl (Or.inl ⟨h.1, hid⟩)
            · exact Or.inr ⟨by omega, h.2⟩
          · exact Or.inl (Or.inr h)
        · rintro ((h | h) | h)
          · exact Or.inl ⟨h.1, by omega⟩
          · exact Or.inr h
          · exact Or.inl ⟨by omega, h.2⟩
    · rw [if_neg h2]
      refine ⟨last, before, rfl, hsep, hval, hle, ?_⟩
      intro id
      simp only [coveredIDs, Finset.mem_union, Finset.mem_Icc]
      constructor
      · intro h; exact Or.inl h
      · rintro (h | h)
        · exact h
        · exact Or.inl ⟨by omega, by omega⟩
  · rw [if_neg h1]
    refine ⟨current, last :: before, rfl, ?_, ?_, le_refl _, ?_⟩
    · refine List.Pairwise.cons ?_ hsep
      intro b hb
      rcases List.mem_cons.mp hb with rfl | hb
      · omega
      · have := hsep1 b hb
        omega
    · intro r hr
      rcases List.mem_cons.mp hr with rfl | hr
      · exact hcur
      · exact hval r hr
    · intro id
      simp only [coveredIDs, Finset.mem_union, Finset.mem_Icc]
      tauto

theorem mergeLoop_spec : ∀ (rest : List IDRange) (last : IDRange) (before : List IDRange),
    (last :: before).Pairwise (fun a b => b.End + 1 < a.Start) →
    (∀ r ∈ last :: before,
      0 ≤ r.Start ∧ r.Start ≤ r.End ∧ r.End < 4611686018427387904) →
    (∀ r ∈ rest, 0 ≤ r.Start ∧ r.Start ≤ r.End ∧ r.End < 4611686018427387904) →
    rest.Pairwise (fun a b => a.Start ≤ b.Start) →
    (∀ s ∈ rest, last.Start ≤ s.Start) →
    (rest.foldl mergeStep (last :: before)).Pairwise (fun a b => b.End + 1 < a.Start) ∧
    (∀ r ∈ rest.foldl mergeStep (last :: before),
      0 ≤ r.Start ∧ r.Start ≤ r.End ∧ r.End < 4611686018427387904) ∧
    ∀ id, id ∈ coveredIDs (rest.foldl mergeStep (last :: before)) ↔
      id ∈ coveredIDs (last :: before) ∨ id ∈ coveredIDs rest := by
  intro rest
  induction rest with
  | nil =>
    intro last before hsep hval _ _ _
    simp only [List.foldl_nil]
    exact ⟨hsep, hval, fun id => by simp [coveredIDs]⟩
  | cons cur rest ih =>
    intro last before hsep hval hrest hsorted hle
    have hcur := hrest cur (List.mem_cons_self _ _)
    obtain ⟨last2, before2, heq, hsep2, hval2, hle2, hcov2⟩ :=
      mergeStep_spec last cur before hsep hval hcur (hle cur (List.mem_cons_self _ _))
    have hcs := List.pairwise_cons.mp hsorted
    obtain ⟨h1, h2, h3⟩ := ih last2 before2 hsep2 hval2
      (fun r hr => hrest r (List.mem_cons_of_mem _ hr)) hcs.2
      (fun s hs => le_trans hle2 (hcs.1 s hs))
    simp only [List.foldl_cons, heq]
    refine ⟨h1, h2, ?_⟩
    intro id
    rw [h3 id, hcov2 id]
    simp only [coveredIDs, Finset.mem_union, Finset.mem_Icc]
    tauto

/-! ## Counting -/

theorem countStep_wrap (t e s : Int) :
    Day3.wrapInt64 (Day3.wrapInt64 t + Day3.wrapInt64 (Day3.wrapInt64 (e - s) + 1))
      = Day3.wrapInt64 (t + (e - s + 1)) := by
  unfold Day3.wrapInt64; omega

theorem countLoop_foldl (merged : List IDRange) : ∀ t : Int,
    merged.foldl
      (fun total r =>
        Day3.wrapInt64 (total + Day3.wrapInt64 (Day3.wrapInt64 (r.End - r.Start) + 1)))
      (Day3.wrapInt64 t)
      = Day3.wrapInt64 (t + (merged.map (fun r => r.End - r.Start + 1)).sum) := by
  induction merged with
  | nil => intro t; simp
  | cons r rest ih =>
    intro t
    simp only [List.foldl_cons, List.map_cons, List.sum_cons]
    rw [countStep_wrap, ih]
    congr 1
    ring

theorem countLoop_eq (merged : List IDRange) :
    countLoop merged = Day3.wrapInt64 (merged.map (fun r => r.End - r.Start + 1)).sum := by
  have h := countLoop_foldl merged 0
  have h0 : Day3.wrapInt64 0 = 0 := by decide
  rw [h0] at h
  simpa [countLoop] using h

theorem separated_card : ∀ (merged : List IDRange),
    merged.Pairwise (fun a b => b.End + 1 < a.Start) →
    (∀ r ∈ merged, 0 ≤ r.Start ∧ r.Start ≤ r.End ∧ r.End < 4611686018427387904) →
    (merged.map (fun r => r.End - r.Start + 1)).sum = ((coveredIDs merged).card : Int) := by
  intro merged
  induction merged with
  | nil => intro _ _; simp [coveredIDs]
  | cons r rest ih =>
    intro hsep hval
    have hr := hval r (List.mem_cons_self _ _)
    have hps := List.pairwise_cons.mp hsep
    have hdisj : Disjoint (Finset.Icc r.Start r.End) (coveredIDs rest) := by
      rw [Finset.disjoint_left]
      intro id hid hcov
      obtain ⟨q, hq, hin⟩ := (mem_coveredIDs id rest).mp hcov
      have := hps.1 q hq
      have := (Finset.mem_Icc.mp hid).1
      omega
    simp only [List.map_cons, List.sum_cons, coveredIDs]
    rw [Finset.card_union_of_disjoint hdisj, Nat.cast_add,
      Int.card_Icc_of_le _ _ (by omega),
      ih hps.2 (fun q hq => hval q (List.mem_cons_of_mem _ hq))]
    ring

theorem coveredIDs_card_le (ranges : List IDRange)
    (hval : ∀ r ∈ ranges, 0 ≤ r.Start ∧ r.Start ≤ r.End ∧ r.End < 4611686018427387904) :
    ((coveredIDs ranges).card : Int) ≤ 4611686018427387904 := by
  have hsub : coveredIDs ranges ⊆ Finset.Icc 0 4611686018427387903 := by
    intro id hid
    obtain ⟨q, hq, hin⟩ := (mem_coveredIDs id ranges).mp hid
    have := hval q hq
    exact Finset.mem_Icc.mpr ⟨by omega, by omega⟩
  have h := Finset.card_le_card hsub
  have hc : ((Finset.Icc (0 : Int) 4611686018427387903).card : Int)
      = 4611686018427387904 := by
    rw [Int.card_Icc_of_le _ _ (by norm_num)]
    norm_num
  have : ((coveredIDs ranges).card : Int)
      ≤ ((Finset.Icc (0 : Int) 4611686018427387903).card : Int) := by exact_mod_cast h
  omega


theorem countUnique_card (ranges : List IDRange)
    (hval : ∀ r ∈ ranges, 0 ≤ r.Start ∧ r.Start ≤ r.End ∧ r.End < 4611686018427387904) :
    CountUniqueIDsInRanges ranges = ((coveredIDs ranges).card : Int) := by
  by_cases hne : ranges = []
  · subst hne
    simp [CountUniqueIDsInRanges, coveredIDs]
  · obtain ⟨hsorted, hperm⟩ := bubbleSort_spec ranges hne
    have hlen : ¬ ranges.length = 0 := fun h => hne (List.length_eq_zero.mp h)
    unfold CountUniqueIDsInRanges
    rw [if_neg hlen]
    cases hs : bubbleOuter (ranges.length - 1) ranges with
    | nil =>
      rw [hs] at hperm
      exact absurd hperm.symm.eq_nil hne
    | cons first rest =>
      rw [hs] at hsorted hperm
      have hval2 : ∀ r ∈ first :: rest,
          0 ≤ r.Start ∧ r.Start ≤ r.End ∧ r.End < 4611686018427387904 :=
        fun r hr => hval r (hperm.mem_iff.mp hr)
      have hcs := List.pairwise_cons.mp hsorted
      obtain ⟨hsep, hvalM, hcov⟩ := mergeLoop_spec rest first []
        (List.pairwise_singleton _ _)
        (fun r hr => hval2 r (by
          rw [List.mem_singleton.mp hr]; exact List.mem_cons_self _ _))
        (fun r hr => hval2 r (List.mem_cons_of_mem _ hr)) hcs.2 hcs.1
      have hsame : coveredIDs (rest.foldl mergeStep [first]) = coveredIDs ranges := by
        rw [← coveredIDs_perm hperm]
        ext id
        rw [hcov id]
        simp only [coveredIDs, Finset.mem_union, Finset.mem_Icc, Finset.not_mem_empty,
          or_false]
      have hsum := separated_card (rest.foldl mergeStep [first]) hsep hvalM
      have hbound := coveredIDs_card_le ranges hval
      simp only
      rw [countLoop_eq, List.map_reverse, List.sum_reverse, hsum, hsame]
      exact Day3.wrapInt64_of_range _ (by omega) (by omega)

/-- C18: for ranges with `0 ≤ Start ≤ End < 2^62`, `CountUniqueIDsInRanges` is
the number of distinct ids that lie in at least one range, that is the number
of ids for which `IsFresh` holds; overlapping and adjacent ranges count
once. -/
theorem CountUniqueIDsInRanges_card (ranges : List IDRange)
    (hval : ∀ r ∈ ranges, 0 ≤ r.Start ∧ r.Start ≤ r.End ∧ r.End < 4611686018427387904) :
    (∀ id, id ∈ coveredIDs ranges ↔ IsFresh id ranges = true) ∧
    CountUniqueIDsInRanges ranges = ((coveredIDs ranges).card : Int) := by
  refine ⟨?_, countUnique_card ranges hval⟩
  intro id
  rw [mem_coveredIDs, isFresh_iff]

/-- Witness for C18 on the overlapping and adjacent ranges `1-5`, `3-8`,
`9-12`. -/
theorem CountUniqueIDsInRanges_card_witness :
    (∀ id, id ∈ coveredIDs [⟨1, 5⟩, ⟨3, 8⟩, ⟨9, 12⟩]
      ↔ IsFresh id [⟨1, 5⟩, ⟨3, 8⟩, ⟨9, 12⟩] = true) ∧
    CountUniqueIDsInRanges [⟨1, 5⟩, ⟨3, 8⟩, ⟨9, 12⟩]
      = ((coveredIDs [⟨1, 5⟩, ⟨3, 8⟩, ⟨9, 12⟩]).card : Int) :=
  CountUniqueIDsInRanges_card [⟨1, 5⟩, ⟨3, 8⟩, ⟨9, 12⟩] (by decide)

end Day5

namespace Day3

/-! ## The decimal rendering is never empty -/

theorem toDigitsCore_ne_nil (base : Nat) : ∀ (fuel n : Nat) (ds : List Char),
    ds ≠ [] → Nat.toDigitsCore base fuel n ds ≠ [] := by
  intro fuel
  induction fuel with
  | zero => intro n ds h; simpa [Nat.toDigitsCore] using h
  | succ fuel ih =>
    intro n ds _
    unfold Nat.toDigitsCore
    simp only
    split_ifs
    · exact List.cons_ne_nil _ _
    · exact ih _ _ (List.cons_ne_nil _ _)

theorem repr_ne_nil (n : Nat) : (Nat.repr n).toList ≠ [] := by
  unfold Nat.repr Nat.toDigits
  show Nat.toDigitsCore 10 (n + 1) n [] ≠ []
  unfold Nat.toDigitsCore
  simp only
  split_ifs
  · exact List.cons_ne_nil _ _
  · exact toDigitsCore_ne_nil 10 _ _ _ (List.cons_ne_nil _ _)

theorem Itoa_ne_nil (x : Int) : Itoa x ≠ [] := by
  unfold Itoa
  split_ifs
  · exact List.cons_ne_nil _ _
  · exact repr_ne_nil _

end Day3

namespace Day2

/-! ## `IsInvalidIDPart1` -/

theorem invalidPart1_iff (id : Int) :
    IsInvalidIDPart1 id = true ↔
      ∃ m : Nat, 1 ≤ m ∧ (Day3.Itoa id).length = 2 * m ∧
        (Day3.Itoa id).take m = (Day3.Itoa id).drop m := by
  have hne : 0 < (Day3.Itoa id).length := List.length_pos.mpr (Day3.Itoa_ne_nil id)
  unfold IsInvalidIDPart1
  simp only
  constructor
  · intro h
    split_ifs at h with hodd
    refine ⟨(Day3.Itoa id).length / 2, by omega, by omega, ?_⟩
    simpa using h
  · rintro ⟨m, _, hlen, heq⟩
    have hodd : ¬ (Day3.Itoa id).length % 2 ≠ 0 := by omega
    have hhalf : (Day3.Itoa id).length / 2 = m := by omega
    rw [if_neg hodd, hhalf, heq]
    simp

/-- C20: `IsInvalidIDPart1` holds exactly when the decimal representation of
the id has even length `2m` with `m ≥ 1` and its first `m` characters equal its
last `m` characters; this is so for every id, the non-negative ones in
particular. -/
theorem IsInvalidIDPart1_spec (id : Int) :
    IsInvalidIDPart1 id = true ↔
      ∃ m : Nat, 1 ≤ m ∧ (Day3.Itoa id).length = 2 * m ∧
        (Day3.Itoa id).take m = (Day3.Itoa id).drop m :=
  invalidPart1_iff id

end Day2

namespace Day3

/-! ## The feasibility bound at every step of the scan -/

theorem scanLoop_append (k n : Int) : ∀ (a b : List Nat) (i : Nat) (stack : List Nat),
    scanLoop k n i (a ++ b) stack = scanLoop k n (i + a.length) b (scanLoop k n i a stack) := by
  intro a
  induction a with
  | nil => intro b i stack; simp [scanLoop]
  | cons c a ih =>
    intro b i stack
    have h := ih b (i + 1) (scanStep k n i c stack)
    have e : i + 1 + a.length = i + (a.length + 1) := by omega
    rw [e] at h
    simp only [List.cons_append, scanLoop, List.length_cons]
    exact h

theorem scanLoop_feasible (k n : Int) :
    ∀ (unread : List Nat) (i : Nat) (stack : List Nat),
      (i : Int) + unread.length ≤ n →
      k ≤ (stack.length : Int) + (n - i) →
      k ≤ ((scanLoop k n i unread stack).length : Int) + (n - (i + unread.length : Nat)) := by
  intro unread
  induction unread with
  | nil => intro i stack _ h; simpa [scanLoop] using h
  | cons c rest ih =>
    intro i stack hn h
    simp only [List.length_cons, Nat.cast_add, Nat.cast_one] at hn
    have hstep := scanStep_feasible k n i c stack (by omega) h
    have := ih (i + 1) (scanStep k n i c stack) (by push_cast; omega) hstep
    simp only [scanLoop, List.length_cons]
    have e : i + 1 + rest.length = i + (rest.length + 1) := by omega
    rw [e] at this
    exact this

theorem popStep_feasible (k remaining : Int) (c : Nat) (stack popped : List Nat)
    (h : popStep k remaining c stack = some popped) :
    k ≤ (popped.length : Int) + remaining := by
  cases stack with
  | nil => simp [popStep] at h
  | cons top rest =>
    simp only [popStep] at h
    split_ifs at h with hc
    have : rest = popped := by injection h
    subst this
    have := hc.2
    simp only [List.length_cons, Nat.cast_add, Nat.cast_one] at this
    omega

theorem take_succ_digits (digits : List Nat) (i : Nat) (hi : i < digits.length) :
    digits.take (i + 1) = digits.take i ++ [digits.getD i 0] := by
  rw [List.take_succ, List.getD_eq_getElem _ _ hi, List.getElem?_eq_getElem hi]
  rfl

/-- C29: in the scan with `0 < k < n`, before position `i` is processed
`len(stack) + (n - i) ≥ k`, after it is processed `len(stack) + (n - i - 1) ≥ k`,
and every single pop leaves `len(stack) + remaining ≥ k`. The stack before
position `i` is the scan of the first `i` digits; the stack after it is one
more `scanStep`. -/
theorem scan_feasibility (bank : List Int) (k : Int) (_h0 : 0 < k)
    (hk : k < (bank.length : Int)) :
    (∀ i : Nat, i < bank.length →
      k ≤ ((scanLoop k bank.length 0 ((bank.map toDigitByte).take i) []).length : Int)
          + ((bank.length : Int) - i) ∧
      scanLoop k bank.length 0 ((bank.map toDigitByte).take (i + 1)) []
        = scanStep k bank.length i ((bank.map toDigitByte).getD i 0)
            (scanLoop k bank.length 0 ((bank.map toDigitByte).take i) []) ∧
      k ≤ ((scanLoop k bank.length 0 ((bank.map toDigitByte).take (i + 1)) []).length : Int)
          + ((bank.length : Int) - i - 1)) ∧
    (∀ (remaining : Int) (c : Nat) (stack popped : List Nat),
      popStep k remaining c stack = some popped →
      k ≤ (popped.length : Int) + remaining) := by
  refine ⟨?_, fun remaining c stack popped h => popStep_feasible k remaining c stack popped h⟩
  intro i hi
  have hlen : ∀ j : Nat, j ≤ bank.length →
      k ≤ ((scanLoop k bank.length 0 ((bank.map toDigitByte).take j) []).length : Int)
          + ((bank.length : Int) - j) := by
    intro j hj
    have h := scanLoop_feasible k bank.length ((bank.map toDigitByte).take j) 0 []
      (by simp only [List.length_take, List.length_map]; push_cast; omega)
      (by simp only [List.length_nil]; push_cast; omega)
    simp only [List.length_take, List.length_map, Nat.zero_add,
      Nat.min_eq_left hj] at h
    exact h
  refine ⟨hlen i (by omega), ?_, ?_⟩
  · rw [take_succ_digits _ i (by simpa using hi), scanLoop_append]
    simp only [List.length_take, List.length_map, Nat.zero_add,
      Nat.min_eq_left (Nat.le_of_lt hi), scanLoop]
  · have := hlen (i + 1) (by omega)
    push_cast at this
    omega

/-- Witness for C29 on the bank `[1, 2, 3, 4, 5]` with `k = 2` at position 1. -/
theorem scan_feasibility_witness :
    (2 : Int) ≤ ((scanLoop 2 ([1, 2, 3, 4, 5] : List Int).length 0
        ((([1, 2, 3, 4, 5] : List Int).map toDigitByte).take 1) []).length : Int)
      + ((([1, 2, 3, 4, 5] : List Int).length : Int) - (1 : Nat)) :=
  ((scan_feasibility [1, 2, 3, 4, 5] 2 (by decide) (by decide)).1 1 (by decide)).1

/-! ## A bank of equal digits -/

theorem popLoopCount_of_ge (k remaining : Int) (c : Nat) (stack : List Nat) (pops : Nat)
    (h : ∀ x ∈ stack, c ≤ x) :
    popLoopCount k remaining c stack pops = (stack, pops) := by
  cases stack with
  | nil => rfl
  | cons top rest =>
    have htop := h top (List.mem_cons_self _ _)
    unfold popLoopCount
    rw [if_neg (by intro hc; have := hc.1; omega)]

theorem scanLoopCount_equal (k n : Int) (c : Nat) :
    ∀ (m i : Nat) (st : ScanCount), (∀ x ∈ st.stack, x = c) →
      (scanLoopCount k n i (List.replicate m c) st).pops = st.pops := by
  intro m
  induction m with
  | zero => intro i st _; rfl
  | succ m ih =>
    intro i st hst
    simp only [List.replicate_succ, scanLoopCount]
    have hpop := popLoopCount_of_ge k (n - i) c st.stack st.pops
      (fun x hx => by rw [hst x hx])
    have hstep : (scanStepCount k n i c st).pops = st.pops ∧
        ∀ x ∈ (scanStepCount k n i c st).stack, x = c := by
      unfold scanStepCount
      simp only [hpop]
      split_ifs
      · refine ⟨rfl, ?_⟩
        intro x hx
        rcases List.mem_cons.mp hx with rfl | hx
        · rfl
        · exact hst x hx
      · exact ⟨rfl, hst⟩
    rw [ih (i + 1) _ hstep.2, hstep.1]

/-- C30: on the bank of `n ≥ 1` copies of a digit `d`, with `1 ≤ k ≤ n`, the
result is `k` copies of the character of `d`, and the scan does no pop. -/
theorem FindMaxSubsequence_equal_digits (d : Int) (hd0 : 0 ≤ d) (hd9 : d ≤ 9)
    (n : Nat) (_hn : 1 ≤ n) (k : Int) (h1 : 1 ≤ k) (hk : k ≤ (n : Int)) :
    FindMaxSubsequence (List.replicate n d) k = List.replicate k.toNat (digitChar d) ∧
    (scanLoopCount k ((List.replicate n d).length : Int) 0
        ((List.replicate n d).map toDigitByte) ⟨[], 0, 0⟩).pops = 0 := by
  have hbank : IsDigitBank (List.replicate n d) := by
    intro x hx
    rw [(List.mem_replicate.mp hx).2]
    exact ⟨hd0, hd9⟩
  refine ⟨?_, ?_⟩
  · have hsub := subsequence_sublist (List.replicate n d) k hbank
    rw [List.map_replicate] at hsub
    obtain ⟨m, _, hm⟩ := List.sublist_replicate_iff.mp hsub
    have hlen := subsequence_length (List.replicate n d) k hbank
    rw [hm] at hlen ⊢
    simp only [List.length_replicate] at hlen
    congr 1
    omega
  · rw [List.map_replicate]
    exact scanLoopCount_equal k _ (toDigitByte d) n 0 ⟨[], 0, 0⟩ (by simp)

/-- Witness for C30 on five copies of `2` with `k = 3`. -/
theorem FindMaxSubsequence_equal_digits_witness :
    FindMaxSubsequence (List.replicate 5 2) 3 = List.replicate (3 : Int).toNat (digitChar 2) ∧
    (scanLoopCount 3 ((List.replicate 5 (2 : Int)).length : Int) 0
        ((List.replicate 5 (2 : Int)).map toDigitByte) ⟨[], 0, 0⟩).pops = 0 :=
  FindMaxSubsequence_equal_digits 2 (by decide) (by decide) 5 (by decide) 3 (by decide)
    (by decide)

end Day3

namespace Day2

/-! ## `IsInvalidIDPart2` -/

theorem matchLoop_iff (pattern : List Char) (p : Nat) (hp : pattern.length = p) :
    ∀ (m : Nat) (rest : List Char), rest.length = m * p →
      (matchLoop pattern p m rest = true ↔ rest = (List.replicate m pattern).flatten) := by
  intro m
  induction m with
  | zero =>
    intro rest hlen
    have : rest = [] := List.length_eq_zero.mp (by simpa using hlen)
    subst this
    simp [matchLoop]
  | succ m ih =>
    intro rest hlen
    have hdrop : (rest.drop p).length = m * p := by
      rw [List.length_drop, hlen, Nat.succ_mul]; omega
    simp only [matchLoop, List.replicate_succ, List.flatten_cons]
    constructor
    · intro h
      split_ifs at h with hne
      have htake : rest.take p = pattern := by
        by_contra hc; exact hne hc
      have := (ih (rest.drop p) hdrop).mp h
      rw [← this, ← htake, List.take_append_drop]
    · intro h
      have htake : rest.take p = pattern := by
        rw [h, ← hp, List.take_left]
      have hdrop2 : rest.drop p = (List.replicate m pattern).flatten := by
        rw [h, ← hp, List.drop_left]
      rw [if_neg (by simp [htake])]
      exact (ih (rest.drop p) hdrop).mpr hdrop2

theorem patternLoop_iff (s : List Char) (length : Nat) :
    ∀ (todo p : Nat),
      (patternLoop s length todo p = true ↔
        ∃ q, p ≤ q ∧ q < p + todo ∧ length % q = 0 ∧ 2 ≤ length / q ∧
          matchLoop (s.take q) q (length / q) s = true) := by
  intro todo
  induction todo with
  | zero =>
    intro p
    simp only [patternLoop, Bool.false_eq_true, false_iff]
    rintro ⟨q, h1, h2, _⟩
    omega
  | succ todo ih =>
    intro p
    have hrec := ih (p + 1)
    have hsplit : ∀ q, (p ≤ q ∧ q < p + (todo + 1)) ↔ (q = p ∨ (p + 1 ≤ q ∧ q < p + 1 + todo)) := by
      intro q; omega
    unfold patternLoop
    by_cases h1 : length % p ≠ 0
    · rw [if_pos h1, hrec]
      constructor
      · rintro ⟨q, hq1, hq2, hq⟩
        exact ⟨q, by omega, by omega, hq⟩
      · rintro ⟨q, hq1, hq2, hq3, hq⟩
        have hne : q ≠ p := by rintro rfl; exact h1 hq3
        exact ⟨q, by omega, by omega, hq3, hq⟩
    · rw [if_neg h1]
      simp only
      by_cases h2 : length / p < 2
      · rw [if_pos h2, hrec]
        constructor
        · rintro ⟨q, hq1, hq2, hq⟩
          exact ⟨q, by omega, by omega, hq⟩
        · rintro ⟨q, hq1, hq2, hq3, hq4, hq⟩
          have hne : q ≠ p := by rintro rfl; omega
          exact ⟨q, by omega, by omega, hq3, hq4, hq⟩
      · rw [if_neg h2]
        by_cases h3 : matchLoop (s.take p) p (length / p) s = true
        · rw [if_pos h3]
          simp only [true_iff]
          exact ⟨p, le_refl _, by omega, by omega, by omega, h3⟩
        · rw [if_neg h3, hrec]
          constructor
          · rintro ⟨q, hq1, hq2, hq⟩
            exact ⟨q, by omega, by omega, hq⟩
          · rintro ⟨q, hq1, hq2, hq3, hq4, hq⟩
            have hne : q ≠ p := by rintro rfl; exact h3 hq
            exact ⟨q, by omega, by omega, hq3, hq4, hq⟩

theorem invalidPart2_iff (id : Int) :
    IsInvalidIDPart2 id = true ↔
      ∃ p : Nat, 1 ≤ p ∧ p ≤ (Day3.Itoa id).length / 2 ∧ p ∣ (Day3.Itoa id).length ∧
        2 ≤ (Day3.Itoa id).length / p ∧
        Day3.Itoa id
          = (List.replicate ((Day3.Itoa id).length / p) ((Day3.Itoa id).take p)).flatten := by
  unfold IsInvalidIDPart2
  simp only
  rw [patternLoop_iff]
  constructor
  · rintro ⟨q, hq1, hq2, hq3, hq4, hm⟩
    have hdvd : q ∣ (Day3.Itoa id).length := Nat.dvd_of_mod_eq_zero hq3
    have hlen : (Day3.Itoa id).length = (Day3.Itoa id).length / q * q :=
      (Nat.div_mul_cancel hdvd).symm
    have htake : ((Day3.Itoa id).take q).length = q := by
      rw [List.length_take]; omega
    exact ⟨q, hq1, by omega, hdvd, hq4,
      (matchLoop_iff _ q htake _ _ hlen).mp hm⟩
  · rintro ⟨p, hp1, hp2, hdvd, _, heq⟩
    have hlen : (Day3.Itoa id).length = (Day3.Itoa id).length / p * p :=
      (Nat.div_mul_cancel hdvd).symm
    have htake : ((Day3.Itoa id).take p).length = p := by
      rw [List.length_take]; omega
    have h2 : 2 ≤ (Day3.Itoa id).length / p := by
      rw [Nat.le_div_iff_mul_le (by omega)]; omega
    exact ⟨p, hp1, by omega, Nat.mod_eq_zero_of_dvd hdvd, h2,
      (matchLoop_iff _ p htake _ _ hlen).mpr heq⟩

/-- C21: `IsInvalidIDPart2` holds exactly when, for the decimal representation
`s` of length `L`, some pattern length `p` with `1 ≤ p ≤ L/2` divides `L` and
`s` is `L/p` consecutive copies of its first `p` characters; this is so for
every id, the non-negative ones in particular. -/
theorem IsInvalidIDPart2_spec (id : Int) :
    IsInvalidIDPart2 id = true ↔
      ∃ p : Nat, 1 ≤ p ∧ p ≤ (Day3.Itoa id).length / 2 ∧ p ∣ (Day3.Itoa id).length ∧
        2 ≤ (Day3.Itoa id).length / p ∧
        Day3.Itoa id
          = (List.replicate ((Day3.Itoa id).length / p) ((Day3.Itoa id).take p)).flatten :=
  invalidPart2_iff id


/-! ## `SumInvalidIDsInRanges` -/

theorem Icc_eq_insert (a b : Int) (h : a ≤ b) :
    Finset.Icc a b = insert a (Finset.Icc (a + 1) b) := by
  ext x
  simp only [Finset.mem_Icc, Finset.mem_insert]
  omega

theorem selectedSum_step (f : Int → Bool) (a b : Int) (h : a ≤ b) :
    ((Finset.Icc a b).filter (fun id => f id = true)).sum (fun id => id)
      = (if f a then a else 0)
        + ((Finset.Icc (a + 1) b).filter (fun id => f id = true)).sum (fun id => id) := by
  rw [Icc_eq_insert a b h, Finset.filter_insert]
  have hnot : a ∉ (Finset.Icc (a + 1) b).filter (fun id => f id = true) := by
    simp only [Finset.mem_filter, Finset.mem_Icc]
    omega
  by_cases hf : f a = true
  · rw [if_pos hf, if_pos hf, Finset.sum_insert hnot]
  · rw [if_neg hf, if_neg hf, zero_add]

theorem rangeLoop_spec (f : Int → Bool) (last : Int) (hlast : last < 9223372036854775807) :
    ∀ (fuel : Nat) (id t : Int), -9223372036854775808 ≤ id →
      (last + 1 - id).toNat ≤ fuel →
      rangeLoop f last fuel id (Day3.wrapInt64 t)
        = some (Day3.wrapInt64
            (t + ((Finset.Icc id last).filter (fun j => f j = true)).sum (fun j => j))) := by
  intro fuel
  induction fuel with
  | zero =>
    intro id t _ hfuel
    have hgt : ¬ id ≤ last := by omega
    simp only [rangeLoop, if_neg hgt]
    rw [Finset.Icc_eq_empty hgt]
    simp
  | succ fuel ih =>
    intro id t hid hfuel
    by_cases hle : id ≤ last
    · have hw : Day3.wrapInt64 (id + 1) = id + 1 :=
        Day3.wrapInt64_of_range _ (by omega) (by omega)
      simp only [rangeLoop, if_pos hle, hw]
      rw [selectedSum_step f id last hle]
      by_cases hf : f id = true
      · rw [if_pos hf, if_pos hf, Day3.wrapInt64_wrap_add,
          ih (id + 1) (t + id) (by omega) (by omega)]
        congr 2
        ring
      · rw [if_neg hf, if_neg hf, ih (id + 1) t (by omega) (by omega)]
        congr 2
        ring
    · simp only [rangeLoop, if_neg hle]
      rw [Finset.Icc_eq_empty hle]
      simp

theorem sumLoop_spec (fuel : Nat) (f : Int → Bool) :
    ∀ (ranges : List IDRange) (t : Int),
      (∀ r ∈ ranges, -9223372036854775808 ≤ r.Start ∧ r.End < 9223372036854775807) →
      (∀ r ∈ ranges, (r.End + 1 - r.Start).toNat ≤ fuel) →
      sumLoop fuel f ranges (Day3.wrapInt64 t)
        = some (Day3.wrapInt64 (t + invalidSum ranges f)) := by
  intro ranges
  induction ranges with
  | nil => intro t _ _; simp [sumLoop, invalidSum]
  | cons r rest ih =>
    intro t hr hfuel
    have h1 := hr r (List.mem_cons_self _ _)
    simp only [sumLoop]
    rw [rangeLoop_spec f r.End h1.2 fuel r.Start t h1.1 (hfuel r (List.mem_cons_self _ _))]
    simp only
    rw [ih _ (fun q hq => hr q (List.mem_cons_of_mem _ hq))
      (fun q hq => hfuel q (List.mem_cons_of_mem _ hq))]
    congr 2
    simp only [invalidSum, List.map_cons, List.sum_cons]
    ring

theorem sumInvalid_eq (fuel : Nat) (f : Int → Bool) (ranges : List IDRange)
    (hr : ∀ r ∈ ranges, -9223372036854775808 ≤ r.Start ∧ r.End < 9223372036854775807)
    (hfuel : ∀ r ∈ ranges, (r.End + 1 - r.Start).toNat ≤ fuel) :
    SumInvalidIDsInRanges fuel ranges f = some (Day3.wrapInt64 (invalidSum ranges f)) := by
  have h := sumLoop_spec fuel f ranges 0 hr hfuel
  have h0 : Day3.wrapInt64 0 = 0 := by decide
  rw [h0, zero_add] at h
  exact h

/-- C22 as written fails: on two ranges holding the single id `2^63 - 2`, with
a predicate that selects every id, one iteration per range suffices and the
`int64` sum wraps to `-4`, while the sum of the selected ids is `2^64 - 4`. -/
theorem SumInvalidIDsInRanges_not_exact_sum :
    SumInvalidIDsInRanges 1
        [⟨9223372036854775806, 9223372036854775806⟩,
         ⟨9223372036854775806, 9223372036854775806⟩] (fun _ => true) = some (-4) ∧
    invalidSum
        [⟨9223372036854775806, 9223372036854775806⟩,
         ⟨9223372036854775806, 9223372036854775806⟩] (fun _ => true)
      = 18446744073709551612 := by
  refine ⟨by decide, ?_⟩
  simp [invalidSum]

/-- C22 (amended): for ranges with `End < 2^63 - 1` and any predicate, once
every inner loop has the iterations it needs, `SumInvalidIDsInRanges` returns
the sum over the ranges of the selected ids between `Start` and `End` (an id
counted once per range that holds it), reduced to the `int64` range; it is
that sum exactly when the sum lies in the `int64` range; it is 0 for the empty
list. -/
theorem SumInvalidIDsInRanges_spec (fuel : Nat) (f : Int → Bool) (ranges : List IDRange)
    (hr : ∀ r ∈ ranges, -9223372036854775808 ≤ r.Start ∧ r.End < 9223372036854775807)
    (hfuel : ∀ r ∈ ranges, (r.End + 1 - r.Start).toNat ≤ fuel) :
    SumInvalidIDsInRanges fuel ranges f = some (Day3.wrapInt64 (invalidSum ranges f)) ∧
    (-9223372036854775808 ≤ invalidSum ranges f →
      invalidSum ranges f < 9223372036854775808 →
      SumInvalidIDsInRanges fuel ranges f = some (invalidSum ranges f)) ∧
    SumInvalidIDsInRanges fuel [] f = some 0 := by
  have h := sumInvalid_eq fuel f ranges hr hfuel
  refine ⟨h, ?_, rfl⟩
  intro h1 h2
  rw [h, Day3.wrapInt64_of_range _ h1 h2]

/-- Witness for C22 (amended) on the ranges `10-15` and `20-25` of the
repository's test, with the part-1 predicate. -/
theorem SumInvalidIDsInRanges_spec_witness :
    SumInvalidIDsInRanges 6 [⟨10, 15⟩, ⟨20, 25⟩] IsInvalidIDPart1
      = some (Day3.wrapInt64 (invalidSum [⟨10, 15⟩, ⟨20, 25⟩] IsInvalidIDPart1)) :=
  (SumInvalidIDsInRanges_spec 6 IsInvalidIDPart1 [⟨10, 15⟩, ⟨20, 25⟩]
    (by decide) (by decide)).1

end Day2

namespace Day1

/-! ## Go's remainder on the dial -/

theorem goMod_of_nonneg (x : Int) (h : 0 ≤ x) : goMod x 100 = x % 100 :=
  Int.tmod_eq_emod h (by decide)

theorem goMod_of_neg (x : Int) (h : x < 0) : goMod x 100 = -((-x) % 100) := by
  obtain ⟨n, rfl⟩ : ∃ n : Nat, x = Int.negSucc n := by
    cases x with
    | ofNat m => exact absurd h (by simp)
    | negSucc n => exact ⟨n, rfl⟩
  show Int.tmod (Int.negSucc n) 100 = -((-(Int.negSucc n)) % 100)
  rw [Int.neg_negSucc]
  rfl

theorem goMod_fix (x : Int) :
    (if goMod x 100 < 0 then goMod x 100 + 100 else goMod x 100) = x % 100 := by
  by_cases h : 0 ≤ x
  · rw [goMod_of_nonneg x h]
    rw [if_neg (by omega)]
  · rw [goMod_of_neg x (by omega)]
    split_ifs <;> omega

/-! ## `SimulateDialPart1` -/

theorem part1Step_spec (p z : Int) (r : Rotation) (hp : 0 ≤ p ∧ p ≤ 99)
    (hdir : r.Direction = 'L' ∨ r.Direction = 'R')
    (hd : 0 ≤ r.Distance ∧ r.Distance ≤ 9223372036854775708) :
    part1Step (p, z) r
      = ((p + signedDistance r) % 100,
          if (p + signedDistance r) % 100 = 0 then z + 1 else z) := by
  unfold part1Step signedDistance
  rcases hdir with hL | hR
  · have hw : Day3.wrapInt64 (p - r.Distance) = p - r.Distance :=
      Day3.wrapInt64_of_range _ (by omega) (by omega)
    simp only [hL, if_true, hw, goMod_fix]
    rfl
  · have hne : ¬ r.Direction = 'L' := by rw [hR]; decide
    have hw : Day3.wrapInt64 (p + r.Distance) = p + r.Distance :=
      Day3.wrapInt64_of_range _ (by omega) (by omega)
    have hRL : ¬ ('R' : Char) = 'L' := by decide
    simp only [hR, hRL, if_true, if_false, hw,
      goMod_of_nonneg _ (by omega : 0 ≤ p + r.Distance)]

theorem filter_range_succ (P : Nat → Bool) (n : Nat) :
    ((List.range (n + 1)).filter P).length
      = (if P 0 = true then 1 else 0) + ((List.range n).filter (fun i => P (i + 1))).length := by
  rw [List.range_succ_eq_map, List.filter_cons, List.filter_map]
  have hcomp : (P ∘ Nat.succ) = fun i => P (i + 1) := rfl
  split_ifs with h
  · rw [List.length_cons, List.length_map, hcomp]; omega
  · rw [List.length_map, hcomp]; omega

theorem zeroStopsFrom_cons (start : Int) (r : Rotation) (rest : List Rotation) :
    zeroStopsFrom start (r :: rest)
      = (if (start + signedDistance r) % 100 = 0 then 1 else 0)
        + zeroStopsFrom (start + signedDistance r) rest := by
  unfold zeroStopsFrom
  rw [List.length_cons, filter_range_succ]
  simp only [List.take_succ_cons, List.map_cons, List.sum_cons, List.take_zero, List.map_nil,
    List.sum_nil, add_zero, decide_eq_true_eq, ← add_assoc]

theorem zeroStopsFrom_congr (a b : Int) (h : a % 100 = b % 100) (rotations : List Rotation) :
    zeroStopsFrom a rotations = zeroStopsFrom b rotations := by
  unfold zeroStopsFrom
  congr 1
  apply List.filter_congr
  intro i _
  have : ∀ t : Int, ((a + t) % 100 = 0) ↔ ((b + t) % 100 = 0) := by intro t; omega
  simp only [this]

theorem part1_fold : ∀ (rotations : List Rotation) (p z : Int), 0 ≤ p ∧ p ≤ 99 →
    (∀ r ∈ rotations, (r.Direction = 'L' ∨ r.Direction = 'R') ∧
      0 ≤ r.Distance ∧ r.Distance ≤ 9223372036854775708) →
    (rotations.foldl part1Step (p, z)).2 = z + (zeroStopsFrom p rotations : Int) ∧
    0 ≤ (rotations.foldl part1Step (p, z)).1 ∧ (rotations.foldl part1Step (p, z)).1 ≤ 99 := by
  intro rotations
  induction rotations with
  | nil => intro p z hp _; simpa [zeroStopsFrom] using hp
  | cons r rest ih =>
    intro p z hp h
    have hr := h r (List.mem_cons_self _ _)
    rw [List.foldl_cons, part1Step_spec p z r hp hr.1 hr.2, zeroStopsFrom_cons]
    obtain ⟨h1, h2⟩ := ih ((p + signedDistance r) % 100)
      (if (p + signedDistance r) % 100 = 0 then z + 1 else z) (by omega)
      (fun q hq => h q (List.mem_cons_of_mem _ hq))
    refine ⟨?_, h2⟩
    rw [h1, zeroStopsFrom_congr ((p + signedDistance r) % 100) (p + signedDistance r)
      (by omega)]
    split_ifs <;> push_cast <;> ring

/-- C23 as written fails: one `'R'` rotation of distance 9223372036854775766
makes `position + Distance` wrap to a multiple of 100, so 1 is returned where
no index satisfies the congruence; and one `'R'` rotation of distance
`2^63 - 1` leaves the tracked position at `-59`. -/
theorem SimulateDialPart1_overflow :
    SimulateDialPart1 [⟨'R', 9223372036854775766⟩] = 1 ∧
    zeroStopsFrom 50 [⟨'R', 9223372036854775766⟩] = 0 ∧
    (List.foldl part1Step (50, 0) [⟨'R', 9223372036854775807⟩]).1 = -59 := by
  decide

/-- C23 (amended): for rotations with `Direction` in `'L'`, `'R'` and
`0 ≤ Distance ≤ 2^63 - 100`, `SimulateDialPart1` is the number of indices `i`
at which 50 plus the signed distances of the rotations `0..i` is a multiple of
100, and the position stays in `[0, 99]` after every rotation. -/
theorem SimulateDialPart1_spec (rotations : List Rotation)
    (h : ∀ r ∈ rotations, (r.Direction = 'L' ∨ r.Direction = 'R') ∧
      0 ≤ r.Distance ∧ r.Distance ≤ 9223372036854775708) :
    SimulateDialPart1 rotations = (zeroStopsFrom 50 rotations : Int) ∧
    ∀ i : Nat, 0 ≤ ((rotations.take i).foldl part1Step (50, 0)).1 ∧
      ((rotations.take i).foldl part1Step (50, 0)).1 ≤ 99 := by
  refine ⟨?_, ?_⟩
  · have := (part1_fold rotations 50 0 (by decide) h).1
    simpa [SimulateDialPart1] using this
  · intro i
    exact (part1_fold (rotations.take i) 50 0 (by decide)
      (fun r hr => h r (List.mem_of_mem_take hr))).2

/-- Witness for C23 (amended) on the two rotations `R50`, `L100`, which both
stop at 0. -/
theorem SimulateDialPart1_spec_witness :
    SimulateDialPart1 [⟨'R', 50⟩, ⟨'L', 100⟩]
      = (zeroStopsFrom 50 [⟨'R', 50⟩, ⟨'L', 100⟩] : Int) ∧
    ∀ i : Nat, 0 ≤ ((([⟨'R', 50⟩, ⟨'L', 100⟩] : List Rotation).take i).foldl part1Step (50, 0)).1 ∧
      ((([⟨'R', 50⟩, ⟨'L', 100⟩] : List Rotation).take i).foldl part1Step (50, 0)).1 ≤ 99 :=
  SimulateDialPart1_spec [⟨'R', 50⟩, ⟨'L', 100⟩] (by decide)


/-! ## `SimulateDialPart2` against its closed form -/

theorem wrap_count (c : Prop) [Decidable c] (z : Int) :
    (if c then Day3.wrapInt64 (Day3.wrapInt64 z + 1) else Day3.wrapInt64 z)
      = Day3.wrapInt64 (if c then z + 1 else z) := by
  split_ifs
  · exact Day3.wrapInt64_wrap_add z 1
  · rfl

theorem rightClick_spec (p z : Int) (hp : 0 ≤ p ∧ p ≤ 99) :
    rightClick (p, Day3.wrapInt64 z)
      = ((p + 1) % 100, Day3.wrapInt64 (if (p + 1) % 100 = 0 then z + 1 else z)) := by
  unfold rightClick
  have hw : Day3.wrapInt64 (p + 1) = p + 1 :=
    Day3.wrapInt64_of_range _ (by omega) (by omega)
  simp only [hw, goMod_of_nonneg _ (by omega : 0 ≤ p + 1), wrap_count]

theorem leftClick_spec (p z : Int) (hp : 0 ≤ p ∧ p ≤ 99) :
    leftClick (p, Day3.wrapInt64 z)
      = ((p - 1) % 100, Day3.wrapInt64 (if (p - 1) % 100 = 0 then z + 1 else z)) := by
  unfold leftClick
  have hw : Day3.wrapInt64 (p - 1) = p - 1 :=
    Day3.wrapInt64_of_range _ (by omega) (by omega)
  simp only [hw, goMod_fix, wrap_count]

theorem clickLoop_right (distance : Int) (hd : distance < 9223372036854775807) :
    ∀ (fuel : Nat) (step p z : Int), 0 ≤ p ∧ p ≤ 99 → 1 ≤ step → step ≤ distance + 1 →
      (distance + 1 - step).toNat ≤ fuel →
      clickLoop rightClick distance fuel step (p, Day3.wrapInt64 z)
        = some ((p + (distance + 1 - step)) % 100,
            Day3.wrapInt64 (z + (p + (distance + 1 - step)) / 100)) := by
  intro fuel
  induction fuel with
  | zero =>
    intro step p z hp h1 h2 hfuel
    have hgt : ¬ step ≤ distance := by omega
    have he : distance + 1 - step = 0 := by omega
    simp only [clickLoop, if_neg hgt, he, add_zero]
    congr 2
    · omega
    · congr 1
      omega
  | succ fuel ih =>
    intro step p z hp h1 h2 hfuel
    by_cases hle : step ≤ distance
    · have hw : Day3.wrapInt64 (step + 1) = step + 1 :=
        Day3.wrapInt64_of_range _ (by omega) (by omega)
      simp only [clickLoop, if_pos hle, hw, rightClick_spec p z hp]
      rw [ih (step + 1) _ _ (by omega) (by omega) (by omega) (by omega)]
      congr 2
      · omega
      · congr 1
        split_ifs <;> omega
    · have he : distance + 1 - step = 0 := by omega
      simp only [clickLoop, if_neg hle, he, add_zero]
      congr 2
      · omega
      · congr 1
        omega

theorem clickLoop_left (distance : Int) (hd : distance < 9223372036854775807) :
    ∀ (fuel : Nat) (step p z : Int), 0 ≤ p ∧ p ≤ 99 → 1 ≤ step → step ≤ distance + 1 →
      (distance + 1 - step).toNat ≤ fuel →
      clickLoop leftClick distance fuel step (p, Day3.wrapInt64 z)
        = some ((p - (distance + 1 - step)) % 100,
            Day3.wrapInt64 (z + (if p = 0 then (distance + 1 - step) / 100
              else if p ≤ distance + 1 - step then 1 + (distance + 1 - step - p) / 100
              else 0))) := by
  intro fuel
  induction fuel with
  | zero =>
    intro step p z hp h1 h2 hfuel
    have hgt : ¬ step ≤ distance := by omega
    have he : distance + 1 - step = 0 := by omega
    simp only [clickLoop, if_neg hgt, he]
    congr 2
    · omega
    · congr 1
      split_ifs <;> omega
  | succ fuel ih =>
    intro step p z hp h1 h2 hfuel
    by_cases hle : step ≤ distance
    · have hw : Day3.wrapInt64 (step + 1) = step + 1 :=
        Day3.wrapInt64_of_range _ (by omega) (by omega)
      simp only [clickLoop, if_pos hle, hw, leftClick_spec p z hp]
      rw [ih (step + 1) _ _ (by omega) (by omega) (by omega) (by omega)]
      congr 2
      · omega
      · congr 1
        split_ifs <;> omega
    · have he : distance + 1 - step = 0 := by omega
      simp only [clickLoop, if_neg hle, he]
      congr 2
      · omega
      · congr 1
        split_ifs <;> omega

theorem closedStep_range (p z : Int) (r : Rotation) :
    0 ≤ (closedStep (p, z) r).1 ∧ (closedStep (p, z) r).1 ≤ 99 := by
  unfold closedStep
  simp only
  split_ifs <;> simp only <;> omega

theorem part2Loop_spec (fuel : Nat) : ∀ (rotations : List Rotation) (p z : Int),
    0 ≤ p ∧ p ≤ 99 →
    (∀ r ∈ rotations, (r.Direction = 'L' ∨ r.Direction = 'R') ∧
      0 ≤ r.Distance ∧ r.Distance < 9223372036854775807) →
    (∀ r ∈ rotations, r.Distance.toNat ≤ fuel) →
    part2Loop fuel rotations (p, Day3.wrapInt64 z)
      = some ((rotations.foldl closedStep (p, z)).1,
          Day3.wrapInt64 (rotations.foldl closedStep (p, z)).2) := by
  intro rotations
  induction rotations with
  | nil => intro p z _ _ _; rfl
  | cons r rest ih =>
    intro p z hp h hfuel
    have hr := h r (List.mem_cons_self _ _)
    have hf := hfuel r (List.mem_cons_self _ _)
    have hrest := fun (q : Int × Int) (hq : 0 ≤ q.1 ∧ q.1 ≤ 99) =>
      ih q.1 q.2 hq (fun x hx => h x (List.mem_cons_of_mem _ hx))
        (fun x hx => hfuel x (List.mem_cons_of_mem _ hx))
    have hrange := closedStep_range p z r
    rw [List.foldl_cons]
    rcases hr.1 with hL | hR
    · have hloop := clickLoop_left r.Distance hr.2.2 fuel 1 p z hp (le_refl _) (by omega)
        (by omega)
      have hstep : closedStep (p, z) r
          = ((p - (r.Distance + 1 - 1)) % 100,
              z + (if p = 0 then (r.Distance + 1 - 1) / 100
                else if p ≤ r.Distance + 1 - 1 then 1 + (r.Distance + 1 - 1 - p) / 100
                else 0)) := by
        have hLR : ¬ ('L' : Char) = 'R' := by decide
        unfold closedStep
        simp only [hL, hLR, if_false, add_sub_cancel_right]
      have hloop2 : clickLoop leftClick r.Distance fuel 1 (p, Day3.wrapInt64 z)
          = some ((closedStep (p, z) r).1, Day3.wrapInt64 (closedStep (p, z) r).2) := by
        rw [hloop, hstep]
      simp only [part2Loop, hL, if_true, hloop2]
      exact hrest _ hrange
    · have hloop := clickLoop_right r.Distance hr.2.2 fuel 1 p z hp (le_refl _) (by omega)
        (by omega)
      have hstep : closedStep (p, z) r
          = ((p + (r.Distance + 1 - 1)) % 100, z + (p + (r.Distance + 1 - 1)) / 100) := by
        unfold closedStep
        simp only [hR, if_true, add_sub_cancel_right]
      have hloop2 : clickLoop rightClick r.Distance fuel 1 (p, Day3.wrapInt64 z)
          = some ((closedStep (p, z) r).1, Day3.wrapInt64 (closedStep (p, z) r).2) := by
        rw [hloop, hstep]
      have hRL : ¬ ('R' : Char) = 'L' := by decide
      simp only [part2Loop, hR, hRL, if_true, if_false, hloop2]
      exact hrest _ hrange

theorem part2Loop_start (fuel : Nat) (rotations : List Rotation)
    (h : ∀ r ∈ rotations, (r.Direction = 'L' ∨ r.Direction = 'R') ∧
      0 ≤ r.Distance ∧ r.Distance < 9223372036854775807)
    (hfuel : ∀ r ∈ rotations, r.Distance.toNat ≤ fuel) :
    part2Loop fuel rotations (50, 0)
      = some ((rotations.foldl closedStep (50, 0)).1,
          Day3.wrapInt64 (rotations.foldl closedStep (50, 0)).2) := by
  have h0 : Day3.wrapInt64 0 = 0 := by decide
  have := part2Loop_spec fuel rotations 50 0 (by decide) h hfuel
  rwa [h0] at this

theorem closed_count_mono : ∀ (rotations : List Rotation) (p z : Int), 0 ≤ p ∧ p ≤ 99 →
    (∀ r ∈ rotations, 0 ≤ r.Distance) → z ≤ (rotations.foldl closedStep (p, z)).2 := by
  intro rotations
  induction rotations with
  | nil => intro p z _ _; exact le_refl _
  | cons r rest ih =>
    intro p z hp h
    have hd := h r (List.mem_cons_self _ _)
    rw [List.foldl_cons]
    have hrange := closedStep_range p z r
    have hstep : z ≤ (closedStep (p, z) r).2 := by
      unfold closedStep
      simp only
      split_ifs <;> simp only <;> omega
    exact le_trans hstep
      (ih (closedStep (p, z) r).1 (closedStep (p, z) r).2 hrange
        (fun x hx => h x (List.mem_cons_of_mem _ hx)))

theorem part2_eq_wrap (fuel : Nat) (rotations : List Rotation)
    (h : ∀ r ∈ rotations, (r.Direction = 'L' ∨ r.Direction = 'R') ∧
      0 ≤ r.Distance ∧ r.Distance < 9223372036854775807)
    (hfuel : ∀ r ∈ rotations, r.Distance.toNat ≤ fuel) :
    SimulateDialPart2 fuel rotations
      = some (Day3.wrapInt64 (SimulateDialPart2Closed rotations)) := by
  unfold SimulateDialPart2 SimulateDialPart2Closed
  rw [part2Loop_start fuel rotations h hfuel]
  rfl

set_option maxRecDepth 100000 in
theorem part2_count_wraps :
    SimulateDialPart2 9223372036854775708
        (List.replicate 101 ⟨'R', 9223372036854775708⟩) = some (-9131138316486228151) ∧
    SimulateDialPart2Closed (List.replicate 101 ⟨'R', 9223372036854775708⟩)
      = 9315605757223323465 ∧
    SimulateDialPart1 (List.replicate 101 ⟨'R', 9223372036854775708⟩) = 0 := by
  have hc : SimulateDialPart2Closed (List.replicate 101 ⟨'R', 9223372036854775708⟩)
      = 9315605757223323465 := by decide
  refine ⟨?_, hc, by decide⟩
  rw [part2_eq_wrap 9223372036854775708 _
    (fun r hr => by rw [List.eq_of_mem_replicate hr]; decide)
    (fun r hr => by rw [List.eq_of_mem_replicate hr]; decide), hc]
  decide

theorem clickLoop_forever (click : Int × Int → Int × Int) :
    ∀ (fuel : Nat) (step : Int) (state : Int × Int), step ≤ 9223372036854775807 →
      clickLoop click 9223372036854775807 fuel step state = none := by
  intro fuel
  induction fuel with
  | zero => intro step state h; simp only [clickLoop, if_pos h]
  | succ fuel ih =>
    intro step state h
    simp only [clickLoop, if_pos h]
    exact ih _ _ (by have := Day3.wrapInt64_range (step + 1); omega)

/-- C24 as written fails: for the one rotation `'R'` of distance `2^63 - 1`
the click loop never ends (`step <= Distance` holds for every `int`), whatever
the number of iterations allowed, while the closed form gives a count; and for
101 rotations `'R'` of distance `2^63 - 100` the `int` counter `zeroCount`
wraps, so the value returned is negative while the closed form is
9315605757223323465. -/
theorem SimulateDialPart2_diverges :
    (∀ fuel : Nat, SimulateDialPart2 fuel [⟨'R', 9223372036854775807⟩] = none) ∧
    SimulateDialPart2Closed [⟨'R', 9223372036854775807⟩] = 92233720368547758 ∧
    SimulateDialPart2 9223372036854775708
        (List.replicate 101 ⟨'R', 9223372036854775708⟩) = some (-9131138316486228151) ∧
    SimulateDialPart2Closed (List.replicate 101 ⟨'R', 9223372036854775708⟩)
      = 9315605757223323465 := by
  refine ⟨?_, by decide, part2_count_wraps.1, part2_count_wraps.2.1⟩
  intro fuel
  have hRL : ¬ ('R' : Char) = 'L' := by decide
  simp only [SimulateDialPart2, part2Loop, hRL, if_true, if_false,
    clickLoop_forever rightClick fuel 1 (50, 0) (by decide), Option.map_none']

/-- C24 (amended): for rotations with `Direction` in `'L'`, `'R'` and
`0 ≤ Distance < 2^63 - 1`, once every click loop has the iterations it needs,
the click-by-click `SimulateDialPart2` returns the closed form reduced to the
`int` range, and the closed form itself when that is at most `2^63 - 1`. In
the closed form, from position `p` a rotation of distance `d` adds
`(p + d) / 100` for `'R'`, and for `'L'` adds `d / 100` if `p = 0`,
`1 + (d - p) / 100` if `0 < p ≤ d`, 0 if `d < p`, and ends at `(p + d) mod 100`
or `(p - d) mod 100`. -/
theorem SimulateDialPart2_closed (fuel : Nat) (rotations : List Rotation)
    (h : ∀ r ∈ rotations, (r.Direction = 'L' ∨ r.Direction = 'R') ∧
      0 ≤ r.Distance ∧ r.Distance < 9223372036854775807)
    (hfuel : ∀ r ∈ rotations, r.Distance.toNat ≤ fuel) :
    SimulateDialPart2 fuel rotations
      = some (Day3.wrapInt64 (SimulateDialPart2Closed rotations)) ∧
    (SimulateDialPart2Closed rotations ≤ 9223372036854775807 →
      SimulateDialPart2 fuel rotations = some (SimulateDialPart2Closed rotations)) := by
  have hw := part2_eq_wrap fuel rotations h hfuel
  refine ⟨hw, fun hle => ?_⟩
  have h0 : 0 ≤ SimulateDialPart2Closed rotations :=
    closed_count_mono rotations 50 0 (by decide) (fun r hr => (h r hr).2.1)
  rw [hw, Day3.wrapInt64_of_range _ (by omega) (by omega)]

/-- Witness for C24 (amended) on the rotation `R150` of the repository's
test. -/
theorem SimulateDialPart2_closed_witness :
    SimulateDialPart2 150 [⟨'R', 150⟩] = some (SimulateDialPart2Closed [⟨'R', 150⟩]) :=
  (SimulateDialPart2_closed 150 [⟨'R', 150⟩] (by decide) (by decide)).2 (by decide)

end Day1

namespace Day4

/-! ## Reads in a rectangular grid -/

theorem cellAt_nat (grid : List (List Char)) (r c : Nat) :
    cellAt grid r c = match grid[r]? with
      | none => none
      | some cells => cells[c]? := by
  unfold cellAt
  have h : ¬ ((r : Int) < 0 ∨ (c : Int) < 0) := by omega
  rw [if_neg h]
  simp only [Int.toNat_ofNat]

theorem cellAt_of_row (grid : List (List Char)) (r c : Nat) (cells : List Char)
    (h : grid[r]? = some cells) : cellAt grid r c = cells[c]? := by
  rw [cellAt_nat, h]

theorem cellAt_inside (grid : List (List Char)) (first : List Char) (tl : List (List Char))
    (hgrid : grid = first :: tl) (hrect : Rectangular grid) (r c : Int)
    (h : r ≥ 0 ∧ r < (grid.length : Int) ∧ c ≥ 0 ∧ c < (first.length : Int)) :
    ∃ ch, cellAt grid r c = some ch := by
  obtain ⟨rn, rfl⟩ := Int.eq_ofNat_of_zero_le h.1
  obtain ⟨cn, rfl⟩ := Int.eq_ofNat_of_zero_le h.2.2.1
  have hr : rn < grid.length := by omega
  have hrow : grid[rn]? = some grid[rn] := List.getElem?_eq_getElem hr
  have hlen : (grid[rn]).length = first.length :=
    hrect _ (List.getElem_mem _) first (by rw [hgrid]; exact List.mem_cons_self _ _)
  have hc : cn < (grid[rn]).length := by omega
  exact ⟨_, by rw [cellAt_of_row grid rn cn _ hrow, List.getElem?_eq_getElem hc]⟩

theorem cellAt_outside (grid : List (List Char)) (first : List Char) (tl : List (List Char))
    (hgrid : grid = first :: tl) (hrect : Rectangular grid) (r c : Int)
    (h : ¬ (r ≥ 0 ∧ r < (grid.length : Int) ∧ c ≥ 0 ∧ c < (first.length : Int))) :
    cellAt grid r c = none := by
  by_cases hneg : r < 0 ∨ c < 0
  · unfold cellAt; rw [if_pos hneg]
  · obtain ⟨rn, rfl⟩ := Int.eq_ofNat_of_zero_le (by omega : 0 ≤ r)
    obtain ⟨cn, rfl⟩ := Int.eq_ofNat_of_zero_le (by omega : 0 ≤ c)
    rw [cellAt_nat]
    by_cases hr : rn < grid.length
    · have hlen : (grid[rn]).length = first.length :=
        hrect _ (List.getElem_mem _) first (by rw [hgrid]; exact List.mem_cons_self _ _)
      rw [List.getElem?_eq_getElem hr]
      simp only
      exact List.getElem?_eq_none (by omega)
    · rw [List.getElem?_eq_none (by omega)]

/-! ## The table `directions` against the eight neighbours -/

theorem directions_neighbours (row col : Int) :
    (directions.map (fun dir => (row + dir.1, col + dir.2))).toFinset = neighbours row col := by
  ext ⟨a, b⟩
  simp only [directions, neighbours, List.map_cons, List.map_nil, List.toFinset_cons,
    List.toFinset_nil, Finset.mem_insert, Finset.mem_singleton, Finset.mem_erase,
    Finset.mem_product, Finset.mem_Icc, Prod.mk.injEq, ne_eq, insert_emptyc_eq]
  constructor
  · intro h
    rcases h with h | h | h | h | h | h | h | h <;> obtain ⟨h1, h2⟩ := h <;>
      refine ⟨fun hc => ?_, ?_, ?_⟩ <;> omega
  · rintro ⟨hne, ⟨h1, h2⟩, h3, h4⟩
    have ha : a = row + -1 ∨ a = row + 0 ∨ a = row + 1 := by omega
    have hb : b = col + -1 ∨ b = col + 0 ∨ b = col + 1 := by omega
    rcases ha with ha | ha | ha <;> rcases hb with hb | hb | hb <;> subst ha <;> subst hb <;>
      simp at hne ⊢

theorem directions_shift_nodup (row col : Int) :
    (directions.map (fun dir => (row + dir.1, col + dir.2))).Nodup := by
  refine List.Nodup.map ?_ (by decide)
  intro x y h
  simp only [Prod.mk.injEq, add_right_inj] at h
  exact Prod.ext h.1 h.2

theorem table_count (row col : Int) (P : Int × Int → Bool) :
    (directions.filter (fun dir => P (row + dir.1, col + dir.2))).length
      = ((neighbours row col).filter (fun p => P p = true)).card := by
  rw [← directions_neighbours, ← List.toFinset_filter,
    List.toFinset_card_of_nodup ((directions_shift_nodup row col).filter _), List.filter_map,
    List.length_map]
  rfl

theorem card_neighbours (row col : Int) : (neighbours row col).card = 8 := by
  rw [← directions_neighbours, List.toFinset_card_of_nodup (directions_shift_nodup row col)]
  rfl

/-! ## `CountAdjacentRolls` -/

theorem adjacentLoop_spec(grid : List (List Char)) (first : List Char)
    (tl : List (List Char)) (hgrid : grid = first :: tl) (hrect : Rectangular grid)
    (row col : Int) : ∀ (dirs : List (Int × Int)) (count : Int),
      adjacentLoop grid grid.length first.length row col dirs count
        = some (count + ((dirs.filter
            (fun dir => cellAt grid (row + dir.1) (col + dir.2) = some '@')).length : Int)) := by
  intro dirs
  induction dirs with
  | nil => intro count; simp [adjacentLoop]
  | cons dir rest ih =>
    intro count
    unfold adjacentLoop
    simp only
    by_cases hin : row + dir.1 ≥ 0 ∧ row + dir.1 < (grid.length : Int) ∧ col + dir.2 ≥ 0 ∧
        col + dir.2 < (first.length : Int)
    · obtain ⟨ch, hch⟩ := cellAt_inside grid first tl hgrid hrect _ _ hin
      rw [if_pos hin, hch]
      simp only
      rw [ih, List.filter_cons]
      by_cases hat : ch = '@'
      · subst hat
        simp only [hch, if_true, decide_True, List.length_cons]
        push_cast
        congr 1
        ring
      · have hne : ¬ (some ch = some '@') := fun h => hat (Option.some.inj h)
        simp only [hch, hat, hne, if_false, decide_False]
        rfl
    · have hnone := cellAt_outside grid first tl hgrid hrect _ _ hin
      rw [if_neg hin, ih, List.filter_cons]
      simp [hnone]

theorem countAdjacent_spec (grid : List (List Char)) (hne : grid ≠ [])
    (hrect : Rectangular grid) (row col : Int) :
    CountAdjacentRolls grid row col = some (neighbourRolls grid row col : Int) := by
  cases hg : grid with
  | nil => exact absurd hg hne
  | cons first tl =>
    have h := adjacentLoop_spec grid first tl hg hrect row col directions 0
    have hcount := table_count row col (fun p => decide (cellAt grid p.1 p.2 = some '@'))
    simp only [decide_eq_true_eq] at hcount
    rw [hg] at h hcount
    unfold CountAdjacentRolls neighbourRolls
    simp only
    rw [h, zero_add, hcount]

theorem neighbourRolls_le (grid : List (List Char)) (row col : Int) :
    neighbourRolls grid row col ≤ 8 := by
  unfold neighbourRolls
  exact le_trans (Finset.card_filter_le _ _) (le_of_eq (card_neighbours row col))

/-- C25: in a non-empty rectangular grid, for an in-bounds cell,
`CountAdjacentRolls` returns (no read is out of bounds) the number of the
in-bounds neighbours among the eight around the cell that hold `'@'`, the cell
itself left out; the number is between 0 and 8. -/
theorem CountAdjacentRolls_spec (grid : List (List Char)) (hne : grid ≠ [])
    (hrect : Rectangular grid) (row col : Nat) (_hrow : row < grid.length)
    (_hcol : ∀ cells ∈ grid, col < cells.length) :
    CountAdjacentRolls grid row col = some (neighbourRolls grid row col : Int) ∧
    0 ≤ (neighbourRolls grid row col : Int) ∧ (neighbourRolls grid row col : Int) ≤ 8 := by
  refine ⟨countAdjacent_spec grid hne hrect row col, by omega, ?_⟩
  have := neighbourRolls_le grid row col
  omega

/-- Witness for C25 on the middle cell of a 3 by 3 grid with four rolls
around it. -/
theorem CountAdjacentRolls_spec_witness :
    CountAdjacentRolls [['@', '.', '@'], ['.', '@', '.'], ['@', '.', '@']] (1 : Nat) (1 : Nat)
      = some (neighbourRolls [['@', '.', '@'], ['.', '@', '.'], ['@', '.', '@']]
          (1 : Nat) (1 : Nat) : Int) ∧
    0 ≤ (neighbourRolls [['@', '.', '@'], ['.', '@', '.'], ['@', '.', '@']]
          (1 : Nat) (1 : Nat) : Int) ∧
    (neighbourRolls [['@', '.', '@'], ['.', '@', '.'], ['@', '.', '@']]
          (1 : Nat) (1 : Nat) : Int) ≤ 8 :=
  CountAdjacentRolls_spec [['@', '.', '@'], ['.', '@', '.'], ['@', '.', '@']]
    (by decide) (by unfold Rectangular; decide) 1 1 (by decide) (by decide)


/-! ## `IsAccessible` and the scans of the grid -/

theorem isAccessible_spec (grid : List (List Char)) (hrect : Rectangular grid)
    (r c : Nat) (ch : Char) (hcell : cellAt grid r c = some ch) :
    IsAccessible grid r c = some (accessibleCell grid r c) := by
  have hne : grid ≠ [] := by
    rintro rfl
    simp [cellAt_nat] at hcell
  unfold IsAccessible accessibleCell
  rw [hcell]
  simp only
  by_cases hat : ch = '@'
  · subst hat
    rw [if_neg (by simp), countAdjacent_spec grid hne hrect r c]
    simp
  · have hne2 : ¬ (some ch = some '@') := fun h => hat (Option.some.inj h)
    rw [if_pos hat]
    simp [hne2]

theorem isAccessible_other (grid : List (List Char)) (row col : Int) (ch : Char)
    (hcell : cellAt grid row col = some ch) (hat : ch ≠ '@') :
    IsAccessible grid row col = some false := by
  unfold IsAccessible
  rw [hcell]
  simp only
  rw [if_pos hat]

theorem countInRow_spec (grid : List (List Char)) (hrect : Rectangular grid) (row : Nat) :
    ∀ (cells : List Char) (col : Nat) (count : Int),
      (∀ j, j < cells.length → ∃ ch, cellAt grid row ((col + j : Nat) : Int) = some ch) →
      countInRow grid row cells col count
        = some (count + ((((List.range' col cells.length).map (fun c => (row, c))).filter
            (fun pos => accessibleCell grid pos.1 pos.2)).length : Int)) := by
  intro cells
  induction cells with
  | nil => intro col count _; simp [countInRow]
  | cons x cells ih =>
    intro col count hin
    obtain ⟨ch, hch⟩ := hin 0 (by simp)
    have hacc := isAccessible_spec grid hrect row col ch (by simpa using hch)
    have hrest := fun (cnt : Int) => ih (col + 1) cnt (by
      intro j hj
      have := hin (j + 1) (by simpa using hj)
      have e : col + (j + 1) = col + 1 + j := by omega
      rw [e] at this
      exact this)
    simp only [countInRow, List.length_cons, List.range'_succ, List.map_cons, List.filter_cons]
    rw [hacc]
    by_cases ha : accessibleCell grid row col = true
    · simp only [ha, if_true, List.length_cons]
      rw [hrest]
      push_cast
      congr 1
      ring
    · have hf : accessibleCell grid row col = false := by
        cases h : accessibleCell grid row col
        · rfl
        · exact absurd h ha
      simp only [hf, Bool.false_eq_true, if_false]
      rw [hrest]

theorem findInRow_spec (grid : List (List Char)) (hrect : Rectangular grid) (row : Nat) :
    ∀ (cells : List Char) (col : Nat) (accessible : List (Nat × Nat)),
      (∀ j, j < cells.length → ∃ ch, cellAt grid row ((col + j : Nat) : Int) = some ch) →
      findInRow grid row cells col accessible
        = some (accessible ++ ((List.range' col cells.length).map (fun c => (row, c))).filter
            (fun pos => accessibleCell grid pos.1 pos.2)) := by
  intro cells
  induction cells with
  | nil => intro col accessible _; simp [findInRow]
  | cons x cells ih =>
    intro col accessible hin
    obtain ⟨ch, hch⟩ := hin 0 (by simp)
    have hacc := isAccessible_spec grid hrect row col ch (by simpa using hch)
    have hrest := fun (acc : List (Nat × Nat)) => ih (col + 1) acc (by
      intro j hj
      have := hin (j + 1) (by simpa using hj)
      have e : col + (j + 1) = col + 1 + j := by omega
      rw [e] at this
      exact this)
    simp only [findInRow, List.length_cons, List.range'_succ, List.map_cons, List.filter_cons]
    rw [hacc]
    by_cases ha : accessibleCell grid row col = true
    · simp only [ha, if_true]
      rw [hrest]
      simp
    · have hf : accessibleCell grid row col = false := by
        cases h : accessibleCell grid row col
        · rfl
        · exact absurd h ha
      simp only [hf, Bool.false_eq_true, if_false]
      rw [hrest]

theorem row_inside (grid lines : List (List Char)) (cells : List Char) (row : Nat)
    (hdrop : grid.drop row = cells :: lines) :
    ∀ j, j < cells.length → ∃ ch, cellAt grid row ((0 + j : Nat) : Int) = some ch := by
  intro j hj
  have hrow : grid[row]? = some cells := by
    have := congrArg (fun l => l[0]?) hdrop
    simpa [List.getElem?_drop] using this
  rw [Nat.zero_add, cellAt_of_row grid row j cells hrow]
  exact ⟨_, List.getElem?_eq_getElem hj⟩

theorem drop_succ_of_drop (grid lines : List (List Char)) (cells : List Char) (row : Nat)
    (hdrop : grid.drop row = cells :: lines) : grid.drop (row + 1) = lines := by
  have : grid.drop (row + 1) = (grid.drop row).drop 1 := by
    rw [List.drop_drop]
  rw [this, hdrop]
  rfl

theorem countInRows_spec (grid : List (List Char)) (hrect : Rectangular grid) :
    ∀ (lines : List (List Char)) (row : Nat) (count : Int), grid.drop row = lines →
      countInRows grid lines row count
        = some (count + (((cellsFrom lines row).filter
            (fun pos => accessibleCell grid pos.1 pos.2)).length : Int)) := by
  intro lines
  induction lines with
  | nil => intro row count _; simp [countInRows, cellsFrom]
  | cons cells lines ih =>
    intro row count hdrop
    have hrow := countInRow_spec grid hrect row cells 0 count
      (row_inside grid lines cells row hdrop)
    simp only [countInRows, hrow]
    rw [ih (row + 1) _ (drop_succ_of_drop grid lines cells row hdrop)]
    simp only [cellsFrom, rowCells, List.filter_append, List.length_append,
      List.range_eq_range']
    push_cast
    congr 1
    ring

theorem findInRows_spec (grid : List (List Char)) (hrect : Rectangular grid) :
    ∀ (lines : List (List Char)) (row : Nat) (accessible : List (Nat × Nat)),
      grid.drop row = lines →
      findInRows grid lines row accessible
        = some (accessible ++ (cellsFrom lines row).filter
            (fun pos => accessibleCell grid pos.1 pos.2)) := by
  intro lines
  induction lines with
  | nil => intro row accessible _; simp [findInRows, cellsFrom]
  | cons cells lines ih =>
    intro row accessible hdrop
    have hrow := findInRow_spec grid hrect row cells 0 accessible
      (row_inside grid lines cells row hdrop)
    simp only [findInRows, hrow]
    rw [ih (row + 1) _ (drop_succ_of_drop grid lines cells row hdrop)]
    simp only [cellsFrom, rowCells, List.filter_append, List.append_assoc,
      List.range_eq_range']

theorem countAccessible_eq (grid : List (List Char)) (hrect : Rectangular grid) :
    CountAccessibleRolls grid = some ((accessibleCells grid).length : Int) := by
  unfold CountAccessibleRolls accessibleCells
  rw [countInRows_spec grid hrect grid 0 0 rfl, zero_add]

theorem findAccessible_eq (grid : List (List Char)) (hrect : Rectangular grid) :
    findInRows grid grid 0 [] = some (accessibleCells grid) := by
  unfold accessibleCells
  rw [findInRows_spec grid hrect grid 0 [] rfl, List.nil_append]

theorem mem_rowCells (row : Nat) (cells : List Char) (pos : Nat × Nat) :
    pos ∈ rowCells row cells ↔ pos.1 = row ∧ pos.2 < cells.length := by
  unfold rowCells
  simp only [List.mem_map, List.mem_range]
  constructor
  · rintro ⟨c, hc, rfl⟩
    exact ⟨rfl, hc⟩
  · rintro ⟨h1, h2⟩
    exact ⟨pos.2, h2, by rw [← h1]⟩

theorem mem_cellsFrom : ∀ (lines : List (List Char)) (row : Nat) (pos : Nat × Nat),
    pos ∈ cellsFrom lines row ↔
      ∃ i cells, lines[i]? = some cells ∧ pos.1 = row + i ∧ pos.2 < cells.length := by
  intro lines
  induction lines with
  | nil => intro row pos; simp [cellsFrom]
  | cons first lines ih =>
    intro row pos
    simp only [cellsFrom, List.mem_append, mem_rowCells, ih]
    constructor
    · rintro (⟨h1, h2⟩ | ⟨i, cells, hi, h1, h2⟩)
      · exact ⟨0, first, by simp, by omega, h2⟩
      · exact ⟨i + 1, cells, by simpa using hi, by omega, h2⟩
    · rintro ⟨i, cells, hi, h1, h2⟩
      cases i with
      | zero =>
        have : first = cells := by simpa using hi
        subst this
        exact Or.inl ⟨by omega, h2⟩
      | succ i => exact Or.inr ⟨i, cells, by simpa using hi, by omega, h2⟩

theorem cellsFrom_nodup : ∀ (lines : List (List Char)) (row : Nat),
    (cellsFrom lines row).Nodup := by
  intro lines
  induction lines with
  | nil => intro row; simp [cellsFrom]
  | cons first lines ih =>
    intro row
    simp only [cellsFrom]
    refine List.Nodup.append ?_ (ih (row + 1)) ?_
    · unfold rowCells
      exact (List.nodup_range _).map (fun a b h => by injection h)
    · intro pos h1 h2
      have e1 := ((mem_rowCells row first pos).mp h1).1
      obtain ⟨i, _, _, e2, _⟩ := (mem_cellsFrom lines (row + 1) pos).mp h2
      omega

theorem mem_cellsFrom_of_cell (grid : List (List Char)) (r c : Nat) (ch : Char)
    (h : cellAt grid r c = some ch) : (r, c) ∈ cellsFrom grid 0 := by
  rw [mem_cellsFrom]
  rw [cellAt_nat] at h
  cases hrow : grid[r]? with
  | none => rw [hrow] at h; simp at h
  | some cells =>
    rw [hrow] at h
    simp only at h
    have hc : c < cells.length := by
      by_contra hge
      rw [List.getElem?_eq_none (by omega)] at h
      simp at h
    exact ⟨r, cells, hrow, by simp, hc⟩

theorem mem_accessibleCells (grid : List (List Char)) (pos : Nat × Nat) :
    pos ∈ accessibleCells grid ↔
      cellAt grid pos.1 pos.2 = some '@' ∧ neighbourRolls grid pos.1 pos.2 < 4 := by
  unfold accessibleCells
  rw [List.mem_filter]
  constructor
  · rintro ⟨_, h⟩
    simpa [accessibleCell] using h
  · intro h
    exact ⟨mem_cellsFrom_of_cell grid pos.1 pos.2 '@' h.1, by simpa [accessibleCell] using h⟩

theorem accessibleCells_nodup (grid : List (List Char)) : (accessibleCells grid).Nodup :=
  (cellsFrom_nodup grid 0).filter _

/-- C26: on a rectangular grid `CountAccessibleRolls` returns the number of
cells that hold `'@'` and have fewer than 4 neighbours holding `'@'` (the
length of the duplicate-free list of exactly these cells); a cell that does not
hold `'@'` is not accessible. -/
theorem CountAccessibleRolls_spec (grid : List (List Char)) (hrect : Rectangular grid) :
    CountAccessibleRolls grid = some ((accessibleCells grid).length : Int) ∧
    (accessibleCells grid).Nodup ∧
    (∀ pos : Nat × Nat, pos ∈ accessibleCells grid ↔
      cellAt grid pos.1 pos.2 = some '@' ∧ neighbourRolls grid pos.1 pos.2 < 4) ∧
    (∀ (row col : Int) (ch : Char), cellAt grid row col = some ch → ch ≠ '@' →
      IsAccessible grid row col = some false) :=
  ⟨countAccessible_eq grid hrect, accessibleCells_nodup grid, mem_accessibleCells grid,
    isAccessible_other grid⟩

/-- Witness for C26 on a 2 by 2 grid with three rolls. -/
theorem CountAccessibleRolls_spec_witness :
    CountAccessibleRolls [['@', '@'], ['@', '.']]
      = some ((accessibleCells [['@', '@'], ['@', '.']]).length : Int) :=
  (CountAccessibleRolls_spec [['@', '@'], ['@', '.']] (by unfold Rectangular; decide)).1


/-! ## Removing rolls -/

theorem set_rows : ∀ (grid : List (List Char)) (r : Nat) (cells x : List Char),
    grid[r]? = some cells → x.length = cells.length →
    (grid.set r x).map List.length = grid.map List.length := by
  intro grid
  induction grid with
  | nil => intro r cells x h _; simp at h
  | cons first rest ih =>
    intro r cells x h hlen
    cases r with
    | zero =>
      have : first = cells := by simpa using h
      subst this
      simp [hlen]
    | succ r =>
      simp only [List.set_cons_succ, List.map_cons]
      rw [ih r cells x (by simpa using h) hlen]

theorem setCell_rows (grid : List (List Char)) (r c : Nat) (ch : Char) :
    (setCell grid r c ch).map List.length = grid.map List.length := by
  unfold setCell
  cases h : grid[r]? with
  | none => rfl
  | some cells => exact set_rows grid r cells _ h (by simp)

theorem rectangular_of_rows (g1 g2 : List (List Char))
    (h : g2.map List.length = g1.map List.length) (hrect : Rectangular g1) :
    Rectangular g2 := by
  intro a ha b hb
  have ha2 : a.length ∈ g1.map List.length := by
    rw [← h]; exact List.mem_map_of_mem _ ha
  have hb2 : b.length ∈ g1.map List.length := by
    rw [← h]; exact List.mem_map_of_mem _ hb
  obtain ⟨a1, ha1, hae⟩ := List.mem_map.mp ha2
  obtain ⟨b1, hb1, hbe⟩ := List.mem_map.mp hb2
  rw [← hae, ← hbe]
  exact hrect a1 ha1 b1 hb1

theorem cellAt_setCell_other (grid : List (List Char)) (r c r2 c2 : Nat) (ch : Char)
    (hne : (r2, c2) ≠ (r, c)) :
    cellAt (setCell grid r c ch) r2 c2 = cellAt grid r2 c2 := by
  rw [cellAt_nat, cellAt_nat]
  unfold setCell
  cases h : grid[r]? with
  | none => rfl
  | some cells =>
    simp only
    by_cases hr : r = r2
    · subst hr
      have hc : c ≠ c2 := by
        intro hc; subst hc; exact hne rfl
      have hlt : r < grid.length := by
        by_contra hge
        rw [List.getElem?_eq_none (by omega)] at h
        simp at h
      rw [List.getElem?_set_self hlt, h]
      simp only
      exact List.getElem?_set_ne hc
    · rw [List.getElem?_set_ne hr]

theorem count_set : ∀ (cells : List Char) (c : Nat), cells[c]? = some '@' →
    (cells.set c '.').count '@' + 1 = cells.count '@' := by
  intro cells
  induction cells with
  | nil => intro c h; simp at h
  | cons x rest ih =>
    intro c h
    cases c with
    | zero =>
      have : x = '@' := by simpa using h
      subst this
      simp
    | succ c =>
      have := ih c (by simpa using h)
      simp only [List.set_cons_succ, List.count_cons]
      omega

theorem sum_set : ∀ (grid : List (List Char)) (r : Nat) (cells x : List Char),
    grid[r]? = some cells → x.count '@' + 1 = cells.count '@' →
    ((grid.set r x).map (fun l => l.count '@')).sum + 1
      = (grid.map (fun l => l.count '@')).sum := by
  intro grid
  induction grid with
  | nil => intro r cells x h _; simp at h
  | cons first rest ih =>
    intro r cells x h hcount
    cases r with
    | zero =>
      have : first = cells := by simpa using h
      subst this
      simp only [List.set_cons_zero, List.map_cons, List.sum_cons]
      omega
    | succ r =>
      have := ih r cells x (by simpa using h) hcount
      simp only [List.set_cons_succ, List.map_cons, List.sum_cons]
      omega

theorem countRolls_setCell (grid : List (List Char)) (r c : Nat)
    (h : cellAt grid r c = some '@') :
    countRolls (setCell grid r c '.') + 1 = countRolls grid := by
  rw [cellAt_nat] at h
  unfold countRolls setCell
  cases hrow : grid[r]? with
  | none => rw [hrow] at h; simp at h
  | some cells =>
    rw [hrow] at h
    simp only at h
    exact sum_set grid r cells _ hrow (count_set cells c h)

theorem removeAll_rows : ∀ (accessible : List (Nat × Nat)) (grid : List (List Char)),
    (removeAll grid accessible).map List.length = grid.map List.length := by
  intro accessible
  induction accessible with
  | nil => intro grid; rfl
  | cons pos rest ih =>
    intro grid
    have := ih (setCell grid pos.1 pos.2 '.')
    simp only [removeAll, List.foldl_cons] at this ⊢
    rw [this, setCell_rows]

theorem removeAll_count : ∀ (accessible : List (Nat × Nat)) (grid : List (List Char)),
    accessible.Nodup → (∀ pos ∈ accessible, cellAt grid pos.1 pos.2 = some '@') →
    countRolls (removeAll grid accessible) + accessible.length = countRolls grid := by
  intro accessible
  induction accessible with
  | nil => intro grid _ _; rfl
  | cons pos rest ih =>
    intro grid hnd hall
    have hnd2 := List.nodup_cons.mp hnd
    have hpos := hall pos (List.mem_cons_self _ _)
    have hstep := countRolls_setCell grid pos.1 pos.2 hpos
    have hrest : ∀ q ∈ rest, cellAt (setCell grid pos.1 pos.2 '.') q.1 q.2 = some '@' := by
      intro q hq
      have hne : (q.1, q.2) ≠ (pos.1, pos.2) := by
        intro he
        have : q = pos := by
          cases q; cases pos; simpa using he
        exact hnd2.1 (this ▸ hq)
      rw [cellAt_setCell_other grid pos.1 pos.2 q.1 q.2 '.' hne]
      exact hall q (List.mem_cons_of_mem _ hq)
    have := ih (setCell grid pos.1 pos.2 '.') hnd2.2 hrest
    simp only [removeAll, List.foldl_cons, List.length_cons] at this ⊢
    omega

/-! ## The removal loop -/

theorem removalLoop_spec : ∀ (fuel : Nat) (grid : List (List Char)) (total : Int),
    Rectangular grid → countRolls grid < fuel →
    ∃ final, removalLoop fuel grid total
        = some (final, total + ((countRolls grid : Int) - (countRolls final : Int))) ∧
      Rectangular final ∧ accessibleCells final = [] ∧ countRolls final ≤ countRolls grid := by
  intro fuel
  induction fuel with
  | zero => intro grid total _ h; omega
  | succ fuel ih =>
    intro grid total hrect hfuel
    unfold removalLoop
    rw [findAccessible_eq grid hrect]
    simp only
    by_cases hlen : (accessibleCells grid).length = 0
    · rw [if_pos hlen]
      exact ⟨grid, by simp, hrect, List.length_eq_zero.mp hlen, le_refl _⟩
    · rw [if_neg hlen]
      have hcount := removeAll_count (accessibleCells grid) grid (accessibleCells_nodup grid)
        (fun pos hpos => ((mem_accessibleCells grid pos).mp hpos).1)
      have hrect2 : Rectangular (removeAll grid (accessibleCells grid)) :=
        rectangular_of_rows grid _ (removeAll_rows _ _) hrect
      obtain ⟨final, hrun, hfr, hfa, hfc⟩ := ih (removeAll grid (accessibleCells grid))
        (total + ((accessibleCells grid).length : Int)) hrect2 (by omega)
      refine ⟨final, ?_, hfr, hfa, by omega⟩
      rw [hrun]
      congr 2
      have : (countRolls grid : Int)
          = (countRolls (removeAll grid (accessibleCells grid)) : Int)
            + ((accessibleCells grid).length : Int) := by exact_mod_cast hcount.symm
      omega

/-- C27: on a rectangular grid, once the loop has the rounds it needs (more
than the number of rolls), `CountTotalRemovableRolls` returns the number of
`'@'` cells of the input minus the number left in the grid on which the rounds
of simultaneous removal stop, and in that grid no roll is accessible: every
remaining `'@'` has at least 4 neighbours holding `'@'`. -/
theorem CountTotalRemovableRolls_spec (grid : List (List Char)) (hrect : Rectangular grid)
    (fuel : Nat) (hfuel : countRolls grid < fuel) :
    ∃ final, removalLoop fuel grid 0
        = some (final, (countRolls grid : Int) - (countRolls final : Int)) ∧
      CountTotalRemovableRolls fuel grid
        = some ((countRolls grid : Int) - (countRolls final : Int)) ∧
      accessibleCells final = [] ∧
      ∀ row col : Nat, cellAt final row col = some '@' →
        4 ≤ neighbourRolls final row col := by
  obtain ⟨final, hrun, _, hfa, _⟩ := removalLoop_spec fuel grid 0 hrect hfuel
  rw [zero_add] at hrun
  refine ⟨final, hrun, ?_, hfa, ?_⟩
  · unfold CountTotalRemovableRolls
    rw [hrun]
    rfl
  · intro row col hcell
    by_contra hlt
    have hmem : (row, col) ∈ accessibleCells final :=
      (mem_accessibleCells final (row, col)).mpr ⟨hcell, Nat.lt_of_not_le hlt⟩
    rw [hfa] at hmem
    simp at hmem

/-- Witness for C27 on a 2 by 2 grid with three rolls, all removable. -/
theorem CountTotalRemovableRolls_spec_witness :
    ∃ final, removalLoop 4 [['@', '@'], ['@', '.']] 0
        = some (final, (countRolls [['@', '@'], ['@', '.']] : Int) - (countRolls final : Int)) ∧
      CountTotalRemovableRolls 4 [['@', '@'], ['@', '.']]
        = some ((countRolls [['@', '@'], ['@', '.']] : Int) - (countRolls final : Int)) ∧
      accessibleCells final = [] ∧
      ∀ row col : Nat, cellAt final row col = some '@' →
        4 ≤ neighbourRolls final row col :=
  CountTotalRemovableRolls_spec [['@', '@'], ['@', '.']] (by unfold Rectangular; decide) 4
    (by decide)

end Day4

namespace Day6

/-! ## `solvePart2` on a worksheet without numbers -/

/-- C28: the code does not return 0 on the two lines `""` and `"*"`: the one
problem, in column 0 with operator `'*'`, has no number, and its empty product
1 is added to the result. With the operator `'+'` the same shape gives 0. -/
theorem solvePart2_no_numbers :
    solvePart2 [[], ['*']] = some 1 ∧ solvePart2 [[], ['+']] = some 0 := by
  decide

end Day6

namespace Day3

/-! ## The stack never grows past `k` -/

theorem scanLoop_length_le (k n : Int) :
    ∀ (unread : List Nat) (i : Nat) (stack : List Nat),
      (stack.length : Int) ≤ k → ((scanLoop k n i unread stack).length : Int) ≤ k := by
  intro unread
  induction unread with
  | nil => intro i stack h; exact h
  | cons c rest ih =>
    intro i stack h
    exact ih (i + 1) _ (scanStep_length_le k n i c stack h)

theorem popLoop_length_le (k r : Int) (c : Nat) (stack : List Nat)
    (h : (stack.length : Int) ≤ k) : ((popLoop k r c stack).length : Int) ≤ k := by
  have hs := (popLoop_suffix k r c stack).length_le
  omega

/-- C40: in the scan of `FindMaxSubsequence` with `0 < k < n` the stack holds
at most `k` bytes after every iteration and after the pops inside every
iteration, it holds exactly `k` bytes when the scan ends, and the truncation of
lines 98-100 leaves it unchanged. -/
theorem scan_stack_bound (bank : List Int) (k : Int) (h0 : 0 < k)
    (hk : k < (bank.length : Int)) :
    (∀ i : Nat,
      ((scanLoop k bank.length 0 ((bank.map toDigitByte).take i) []).length : Int) ≤ k) ∧
    (∀ (i c : Nat), ((popLoop k ((bank.length : Int) - i) c
        (scanLoop k bank.length 0 ((bank.map toDigitByte).take i) [])).length : Int) ≤ k) ∧
    ((scanLoop k bank.length 0 (bank.map toDigitByte) []).length : Int) = k ∧
    trimStack k (scanLoop k bank.length 0 (bank.map toDigitByte) [])
      = scanLoop k bank.length 0 (bank.map toDigitByte) [] := by
  have hpre : ∀ i : Nat,
      ((scanLoop k bank.length 0 ((bank.map toDigitByte).take i) []).length : Int) ≤ k :=
    fun i => scanLoop_length_le k bank.length _ 0 [] (by simpa using h0.le)
  have hlen := scan_length (bank.map toDigitByte) k h0 (by simpa using hk)
  simp only [List.length_map] at hlen
  exact ⟨hpre, fun i c => popLoop_length_le k _ c _ (hpre i), hlen,
    trimStack_of_le k _ (by omega)⟩

/-- Witness for C40 on the bank `[1, 9, 2]` with `k = 2`. -/
theorem scan_stack_bound_witness :
    ((scanLoop 2 ([1, 9, 2] : List Int).length 0
        (([1, 9, 2] : List Int).map toDigitByte) []).length : Int) = 2 :=
  (scan_stack_bound [1, 9, 2] 2 (by decide) (by decide)).2.2.1

/-! ## The scan run with `k ≥ n` -/

theorem popLoopCount_of_short (k remaining : Int) (c : Nat) (stack : List Nat) (pops : Nat)
    (h : (stack.length : Int) - 1 + remaining < k) :
    popLoopCount k remaining c stack pops = (stack, pops) := by
  cases stack with
  | nil => rfl
  | cons top rest =>
    unfold popLoopCount
    rw [if_neg (by omega)]

theorem scanLoopCount_of_ge (k n : Int) :
    ∀ (unread : List Nat) (i : Nat) (st : ScanCount),
      st.stack.length = i → (i : Int) + unread.length ≤ n → n ≤ k →
      scanLoopCount k n i unread st
        = { stack := unread.reverse ++ st.stack, pops := st.pops,
            pushes := st.pushes + unread.length } := by
  intro unread
  induction unread with
  | nil => intro i st _ _ _; simp [scanLoopCount]
  | cons c rest ih =>
    intro i st hlen hn hk
    simp only [List.length_cons, Nat.cast_add, Nat.cast_one] at hn
    have hpop : popLoopCount k (n - i) c st.stack st.pops = (st.stack, st.pops) :=
      popLoopCount_of_short k (n - i) c st.stack st.pops (by omega)
    have hstep : scanStepCount k n i c st
        = { stack := c :: st.stack, pops := st.pops, pushes := st.pushes + 1 } := by
      unfold scanStepCount
      simp only [hpop]
      rw [if_pos (by omega)]
    unfold scanLoopCount
    rw [hstep, ih (i + 1) _ (by simp [hlen]) (by push_cast; omega) hk]
    simp only [List.reverse_cons, List.append_assoc, List.singleton_append, List.length_cons]
    congr 1
    omega

theorem scan_of_ge (bank : List Int) (k : Int) (hk : (bank.length : Int) ≤ k) :
    scanLoopCount k bank.length 0 (bank.map toDigitByte) { stack := [], pops := 0, pushes := 0 }
      = { stack := (bank.map toDigitByte).reverse, pops := 0, pushes := bank.length } := by
  rw [scanLoopCount_of_ge k bank.length (bank.map toDigitByte) 0
    { stack := [], pops := 0, pushes := 0 } rfl (by simp) hk]
  simp

/-- C31: for a digit bank of length `n` and `k ≥ n`, `k ≥ 1`, the scan of lines
75-102 run with that `k` never pops, pushes every digit, and its string is the
whole bank, the very string the shortcut branch `k >= n` returns. -/
theorem scan_agrees_with_shortcut (bank : List Int) (k : Int) (hd : IsDigitBank bank)
    (_h1 : 1 ≤ k) (hk : (bank.length : Int) ≤ k) :
    (scanLoopCount k bank.length 0 (bank.map toDigitByte)
      { stack := [], pops := 0, pushes := 0 }).pops = 0 ∧
    (scanLoopCount k bank.length 0 (bank.map toDigitByte)
      { stack := [], pops := 0, pushes := 0 }).pushes = bank.length ∧
    stackString (trimStack k (scanLoop k bank.length 0 (bank.map toDigitByte) []))
      = bank.map digitChar ∧
    stackString (trimStack k (scanLoop k bank.length 0 (bank.map toDigitByte) []))
      = FindMaxSubsequence bank k := by
  have hrun := scan_of_ge bank k hk
  have hspec := (scanLoopCount_spec k bank.length (bank.map toDigitByte) 0
    { stack := [], pops := 0, pushes := 0 } rfl).1
  rw [hrun] at hspec
  simp only at hspec
  have hstr : stackString (trimStack k (scanLoop k bank.length 0 (bank.map toDigitByte) []))
      = bank.map digitChar := by
    rw [← hspec, trimStack_of_le k _ (by simpa using hk)]
    unfold stackString
    rw [List.reverse_reverse]
    exact map_toDigitByte_digits bank hd
  refine ⟨by rw [hrun], by rw [hrun], hstr, ?_⟩
  rw [hstr, subsequence_of_ge bank k hd hk]

/-- Witness for C31 on the bank `[1, 9, 2]` with `k = 5`. -/
theorem scan_agrees_with_shortcut_witness :
    stackString (trimStack 5 (scanLoop 5 ([1, 9, 2] : List Int).length 0
        (([1, 9, 2] : List Int).map toDigitByte) []))
      = FindMaxSubsequence [1, 9, 2] 5 :=
  (scan_agrees_with_shortcut [1, 9, 2] 5 (by decide) (by decide) (by decide)).2.2.2

end Day3

namespace Day3

/-! ## The characters of a result, and the size of a contribution -/

theorem subsequence_digits (bank : List Int) (k : Int) (hd : IsDigitBank bank) :
    ∀ ch ∈ FindMaxSubsequence bank k, 48 ≤ ch.toNat ∧ ch.toNat ≤ 57 :=
  fun ch hch => mem_map_digitChar bank hd ch ((subsequence_sublist bank k hd).subset hch)

/-- C32: for a digit bank and any `k`, every character of
`FindMaxSubsequence(bank, k)` is one of `'0'..'9'`; hence the base-10 parse of
`SumMaxJoltagesPart2` succeeds on every non-empty result, and a digit bank is
never skipped: it adds the value of its 12-digit result to the total. -/
theorem FindMaxSubsequence_digits (bank : List Int) (k : Int) (hd : IsDigitBank bank) :
    (∀ ch ∈ FindMaxSubsequence bank k, '0' ≤ ch ∧ ch ≤ '9') ∧
    (FindMaxSubsequence bank k ≠ [] →
      SetString (FindMaxSubsequence bank k)
        = some (decimalValue (FindMaxSubsequence bank k) : Int)) ∧
    (∀ total : Int, part2Step total bank
      = total + (decimalValue (FindMaxSubsequence bank 12) : Int)) :=
  ⟨fun ch hch => subsequence_digits bank k hd ch hch,
   fun hne => SetString_digits _ hne (subsequence_digits bank k hd),
   fun total => part2Step_digits total bank hd⟩

/-- Witness for C32 on the bank `[4, 0, 7]` with `k = 2`. -/
theorem FindMaxSubsequence_digits_witness :
    SetString (FindMaxSubsequence [4, 0, 7] 2)
      = some (decimalValue (FindMaxSubsequence [4, 0, 7] 2) : Int) :=
  (FindMaxSubsequence_digits [4, 0, 7] 2 (by decide)).2.1 (by decide)

theorem contribution_range (bank : List Int) (hd : IsDigitBank bank) :
    decimalValue (FindMaxSubsequence bank 12) ≤ 999999999999 := by
  have hlt := decimalValue_lt _ (subsequence_digits bank 12 hd)
  have hlen := subsequence_length bank 12 hd
  have hle : (FindMaxSubsequence bank 12).length ≤ 12 := by omega
  have hpow : 10 ^ (FindMaxSubsequence bank 12).length ≤ 10 ^ 12 :=
    Nat.pow_le_pow_right (by decide) hle
  have : (10 : Nat) ^ 12 = 1000000000000 := by norm_num
  omega

theorem contribution_sum_range (banks : List (List Int))
    (hd : ∀ bank ∈ banks, IsDigitBank bank) :
    0 ≤ (banks.map (fun bank => (decimalValue (FindMaxSubsequence bank 12) : Int))).sum ∧
    (banks.map (fun bank => (decimalValue (FindMaxSubsequence bank 12) : Int))).sum
      ≤ 999999999999 * (banks.length : Int) := by
  induction banks with
  | nil => simp
  | cons b rest ih =>
    have hb := contribution_range b (hd b (List.mem_cons_self _ _))
    have hr := ih (fun bank hm => hd bank (List.mem_cons_of_mem _ hm))
    simp only [List.map_cons, List.sum_cons, List.length_cons, Nat.cast_add, Nat.cast_one]
    omega

/-- C35: a digit bank adds at most 999999999999 (and never a negative amount)
to the Part 2 total, so for digit banks
`0 ≤ SumMaxJoltagesPart2(banks) ≤ 999999999999 * len(banks)`. -/
theorem SumMaxJoltagesPart2_bounds (banks : List (List Int))
    (hd : ∀ bank ∈ banks, IsDigitBank bank) :
    (∀ bank ∈ banks, ∀ total : Int,
      total ≤ part2Step total bank ∧ part2Step total bank ≤ total + 999999999999) ∧
    0 ≤ SumMaxJoltagesPart2 banks ∧
    SumMaxJoltagesPart2 banks ≤ 999999999999 * (banks.length : Int) := by
  refine ⟨?_, ?_⟩
  · intro bank hm total
    rw [part2Step_digits total bank (hd bank hm)]
    have := contribution_range bank (hd bank hm)
    omega
  · have hs := contribution_sum_range banks hd
    unfold SumMaxJoltagesPart2
    rw [part2_foldl banks hd 0]
    omega

/-- Witness for C35 on two banks, one of them longer than twelve digits. -/
theorem SumMaxJoltagesPart2_bounds_witness :
    0 ≤ SumMaxJoltagesPart2 [[9, 9], [1, 2, 3, 4, 5, 6, 7, 8, 9, 0, 1, 2, 3]] ∧
    SumMaxJoltagesPart2 [[9, 9], [1, 2, 3, 4, 5, 6, 7, 8, 9, 0, 1, 2, 3]]
      ≤ 999999999999 *
        (([[9, 9], [1, 2, 3, 4, 5, 6, 7, 8, 9, 0, 1, 2, 3]] : List (List Int)).length : Int) :=
  (SumMaxJoltagesPart2_bounds [[9, 9], [1, 2, 3, 4, 5, 6, 7, 8, 9, 0, 1, 2, 3]]
    (by decide)).2

/-! ## Parsing a digit string and selecting everything -/

theorem TrimSpace_digits (s : List Char) (hs : ∀ ch ∈ s, 48 ≤ ch.toNat ∧ ch.toNat ≤ 57) :
    TrimSpace s = s := by
  have hns : ∀ ch ∈ s, ¬ IsSpace ch = true := by
    intro ch hm
    have := hs ch hm
    unfold IsSpace
    simp only [decide_eq_true_eq]
    omega
  unfold TrimSpace
  have h1 : s.dropWhile IsSpace = s := by
    cases s with
    | nil => rfl
    | cons a rest =>
      exact List.dropWhile_cons_of_neg (hns a (List.mem_cons_self _ _))
  rw [h1]
  exact List.rdropWhile_eq_self_iff.mpr (fun hl => hns _ (List.getLast_mem hl))

theorem digitChar_val (ch : Char) (h : 48 ≤ ch.toNat ∧ ch.toNat ≤ 57) :
    digitChar ((ch.toNat : Int) - 48) = ch := by
  unfold digitChar
  have : 48 + ((ch.toNat : Int) - 48).toNat = ch.toNat := by omega
  rw [this]
  exact Char.ofNat_toNat ch

/-- C34: for a non-empty string `s` of digits and `k ≥ len(s)`,
`ParseBatteryBank(s)` succeeds with a bank `b` and `FindMaxSubsequence(b, k)`
is `s` again. -/
theorem parse_then_select_all (s : List Char) (k : Int) (hne : s ≠ [])
    (hs : ∀ ch ∈ s, '0' ≤ ch ∧ ch ≤ '9') (hk : (byteLen s : Int) ≤ k) :
    ∃ b, ParseBatteryBank s = Except.ok b ∧ FindMaxSubsequence b k = s := by
  have hdig : ∀ ch ∈ s, 48 ≤ ch.toNat ∧ ch.toNat ≤ 57 := fun ch hm => hs ch hm
  have hout : ∀ ch ∈ s, ¬ (ch < '0' ∨ ch > '9') := by
    intro ch hm hc
    have h := hdig ch hm
    rcases hc with hc | hc
    · have : ch.toNat < 48 := hc
      omega
    · have : 57 < ch.toNat := hc
      omega
  have hbytes := byteLen_digits s hout
  have hloop := parseLoop_digits s [] (List.replicate (byteLen s) 0) hout
    (by rw [List.length_replicate, hbytes])
  simp only [List.length_nil, List.nil_append] at hloop
  refine ⟨s.map (fun ch => (ch.toNat : Int) - 48), ?_, ?_⟩
  · unfold ParseBatteryBank
    simp only [TrimSpace_digits s hdig]
    rw [if_neg hne]
    exact hloop
  · have hbank : IsDigitBank (s.map (fun ch => (ch.toNat : Int) - 48)) := by
      intro d hm
      obtain ⟨ch, hc, rfl⟩ := List.mem_map.mp hm
      have := hdig ch hc
      omega
    rw [subsequence_of_ge _ k hbank (by rw [List.length_map]; omega), List.map_map]
    conv_rhs => rw [← List.map_id s]
    exact List.map_congr_left (fun ch hm => digitChar_val ch (hdig ch hm))

/-- Witness for C34 on the string `"007"` with `k = 3`. -/
theorem parse_then_select_all_witness :
    ∃ b, ParseBatteryBank ['0', '0', '7'] = Except.ok b
      ∧ FindMaxSubsequence b 3 = ['0', '0', '7'] :=
  parse_then_select_all ['0', '0', '7'] 3 (by decide) (by decide) (by decide)

end Day3

namespace Day3

/-! ## Two digits out of the stack scan against the pair maximum -/

theorem pairMax_attained (bank : List Int) (hd : IsDigitBank bank) (hn : 2 ≤ bank.length) :
    ∃ i j, i < j ∧ j < bank.length ∧
      FindMaxTwoDigitJoltage bank = 10 * bank.getD i 0 + bank.getD j 0 := by
  have hlen : ¬ bank.length < 2 := by omega
  obtain ⟨h1, h2, h3⟩ := joltOuter_spec bank 0 hd
  simp only [FindMaxTwoDigitJoltage, if_neg hlen]
  rcases h3 with h3 | h3
  · refine ⟨0, 1, by omega, by omega, ?_⟩
    have hle := h2 0 1 (by omega) (by omega)
    have h0 := (getD_digit bank hd 0 (by omega)).1
    have h1' := (getD_digit bank hd 1 (by omega)).1
    omega
  · exact h3

theorem pairMax_upper (bank : List Int) (hd : IsDigitBank bank) (hn : 2 ≤ bank.length)
    (i j : Nat) (hij : i < j) (hj : j < bank.length) :
    10 * bank.getD i 0 + bank.getD j 0 ≤ FindMaxTwoDigitJoltage bank := by
  have hlen : ¬ bank.length < 2 := by omega
  simp only [FindMaxTwoDigitJoltage, if_neg hlen]
  exact (joltOuter_spec bank 0 hd).2.1 i j hij hj

theorem decimalValue_pair (a b : Int) (ha : 0 ≤ a ∧ a ≤ 9) (hb : 0 ≤ b ∧ b ≤ 9) :
    (decimalValue [digitChar a, digitChar b] : Int) = 10 * a + b := by
  have h1 := toNat_digitChar a ha.1 ha.2
  have h2 := toNat_digitChar b hb.1 hb.2
  simp only [decimalValue, List.foldl_cons, List.foldl_nil, h1, h2]
  omega

theorem selectDigits_pair (bank : List Int) (hd : IsDigitBank bank) (i j : Nat)
    (hij : i < j) (hj : j < bank.length) :
    IsSelection bank.length [i, j] ∧
    (decimalValue (selectDigits bank [i, j]) : Int)
      = 10 * bank.getD i 0 + bank.getD j 0 := by
  refine ⟨⟨by simp [hij], ?_⟩, ?_⟩
  · intro x hx
    simp only [List.mem_cons, List.mem_singleton, List.not_mem_nil, or_false] at hx
    rcases hx with rfl | rfl <;> omega
  · exact decimalValue_pair _ _ (getD_digit bank hd i (by omega)) (getD_digit bank hd j hj)

/-- C33: for a digit bank of length at least 2, the decimal value of
`FindMaxSubsequence(bank, 2)` equals `FindMaxTwoDigitJoltage(bank)`. -/
theorem FindMaxSubsequence_two_eq_pairMax (bank : List Int) (hd : IsDigitBank bank)
    (hn : 2 ≤ bank.length) :
    (decimalValue (FindMaxSubsequence bank 2) : Int) = FindMaxTwoDigitJoltage bank := by
  have hlen := subsequence_length bank 2 hd
  have hlen2 : (FindMaxSubsequence bank 2).length = 2 := by omega
  have hsub := subsequence_sublist bank 2 hd
  obtain ⟨idx, hsel, hidx⟩ := selection_of_sublist digitChar 0 bank _ hsub
  have hilen : idx.length = 2 := by
    have := congrArg List.length hidx
    rw [List.length_map] at this
    omega
  obtain ⟨i, j, rfl⟩ : ∃ i j, idx = [i, j] := by
    match idx, hilen with
    | [i, j], _ => exact ⟨i, j, rfl⟩
  have hij : i < j := by
    have := hsel.1
    simp only [List.pairwise_cons, List.mem_singleton, forall_eq] at this
    exact this.1
  have hj : j < bank.length := hsel.2 j (by simp)
  have hval : (decimalValue (FindMaxSubsequence bank 2) : Int)
      = 10 * bank.getD i 0 + bank.getD j 0 := by
    rw [hidx]
    exact (selectDigits_pair bank hd i j hij hj).2
  apply le_antisymm
  · rw [hval]
    exact pairMax_upper bank hd hn i j hij hj
  · obtain ⟨a, b, hab, hb, hmax⟩ := pairMax_attained bank hd hn
    obtain ⟨hs, hv⟩ := selectDigits_pair bank hd a b hab hb
    have hsl := selectDigits_sublist bank [a, b] hs
    have hlex := subsequence_lex_max bank 2 hd (by decide) (by exact_mod_cast hn)
      (selectDigits bank [a, b]) hsl (by simp [selectDigits])
    have hle := decimalValue_le_of_lexLE _ _ (by simp [selectDigits, hlen2])
      (fun ch hch => mem_map_digitChar bank hd ch (hsl.subset hch))
      (fun ch hch => mem_map_digitChar bank hd ch (hsub.subset hch)) hlex
    rw [hmax, ← hv]
    exact_mod_cast hle

/-- Witness for C33 on the bank `[1, 9, 2, 8]`. -/
theorem FindMaxSubsequence_two_eq_pairMax_witness :
    (decimalValue (FindMaxSubsequence [1, 9, 2, 8] 2) : Int)
      = FindMaxTwoDigitJoltage [1, 9, 2, 8] :=
  FindMaxSubsequence_two_eq_pairMax [1, 9, 2, 8] (by decide) (by decide)

end Day3

namespace Day2

/-- C36: for every integer `id`, `IsInvalidIDPart1(id)` implies
`IsInvalidIDPart2(id)`: a decimal string made of a block written twice is a
block repeated at least twice. -/
theorem part1_implies_part2 (id : Int) (h : IsInvalidIDPart1 id = true) :
    IsInvalidIDPart2 id = true := by
  obtain ⟨m, hm, hlen, heq⟩ := (invalidPart1_iff id).mp h
  refine (invalidPart2_iff id).mpr ⟨m, hm, by omega, ⟨2, by omega⟩, ?_, ?_⟩
  · rw [hlen, Nat.mul_div_cancel _ (by omega)]
  · rw [hlen, Nat.mul_div_cancel _ (by omega)]
    have : (List.replicate 2 ((Day3.Itoa id).take m)).flatten
        = (Day3.Itoa id).take m ++ (Day3.Itoa id).take m := by
      simp [List.replicate]
    rw [this]
    calc Day3.Itoa id
        = (Day3.Itoa id).take m ++ (Day3.Itoa id).drop m := (List.take_append_drop m _).symm
      _ = (Day3.Itoa id).take m ++ (Day3.Itoa id).take m := by rw [← heq]

/-- Witness for C36 on the identifier 1212. -/
theorem part1_implies_part2_witness : IsInvalidIDPart2 1212 = true :=
  part1_implies_part2 1212 (by decide)

end Day2

namespace Day1

/-! ## `SimulateDialPart2` against `SimulateDialPart1` -/

theorem step_compare (p z1 z2 : Int) (r : Rotation) (hp : 0 ≤ p ∧ p ≤ 99) (hz : z1 ≤ z2)
    (hdir : r.Direction = 'L' ∨ r.Direction = 'R')
    (hd : 1 ≤ r.Distance ∧ r.Distance ≤ 9223372036854775708) :
    ∃ q y1 y2, part1Step (p, z1) r = (q, y1) ∧ closedStep (p, z2) r = (q, y2) ∧
      (0 ≤ q ∧ q ≤ 99) ∧ y1 ≤ y2 := by
  have h1 := part1Step_spec p z1 r hp hdir ⟨by omega, hd.2⟩
  rcases hdir with hL | hR
  · have hne : ¬ r.Direction = 'R' := by rw [hL]; decide
    refine ⟨(p - r.Distance) % 100,
      if (p - r.Distance) % 100 = 0 then z1 + 1 else z1,
      z2 + (if p = 0 then r.Distance / 100
        else if p ≤ r.Distance then 1 + (r.Distance - p) / 100 else 0), ?_, ?_, by omega, ?_⟩
    · rw [h1]
      simp only [signedDistance, hL, if_true, ← sub_eq_add_neg]
    · simp only [closedStep, hne, if_false]
    · split_ifs <;> omega
  · have hne : ¬ r.Direction = 'L' := by rw [hR]; decide
    refine ⟨(p + r.Distance) % 100,
      if (p + r.Distance) % 100 = 0 then z1 + 1 else z1,
      z2 + (p + r.Distance) / 100, ?_, ?_, by omega, ?_⟩
    · rw [h1]
      simp only [signedDistance, hne, if_false]
    · simp only [closedStep, hR, if_true]
    · split_ifs <;> omega

theorem fold_compare : ∀ (rotations : List Rotation) (p z1 z2 : Int), 0 ≤ p ∧ p ≤ 99 →
    z1 ≤ z2 →
    (∀ r ∈ rotations, (r.Direction = 'L' ∨ r.Direction = 'R') ∧
      1 ≤ r.Distance ∧ r.Distance ≤ 9223372036854775708) →
    (rotations.foldl part1Step (p, z1)).1 = (rotations.foldl closedStep (p, z2)).1 ∧
    (rotations.foldl part1Step (p, z1)).2 ≤ (rotations.foldl closedStep (p, z2)).2 := by
  intro rotations
  induction rotations with
  | nil => intro p z1 z2 _ hz _; exact ⟨rfl, hz⟩
  | cons r rest ih =>
    intro p z1 z2 hp hz h
    have hr := h r (List.mem_cons_self _ _)
    obtain ⟨q, y1, y2, e1, e2, hq, hy⟩ := step_compare p z1 z2 r hp hz hr.1 hr.2
    rw [List.foldl_cons, List.foldl_cons, e1, e2]
    exact ih q y1 y2 hq hy (fun x hx => h x (List.mem_cons_of_mem _ hx))

/-- C37 as written fails: after the one rotation `'R'` of distance
`2^63 - 42` (at least 1) `SimulateDialPart1` holds position 0, the sum
`position + Distance` having wrapped, while the click-by-click
`SimulateDialPart2` ends at position 16; for the distance `2^63 - 1`
`SimulateDialPart2` returns nothing to compare, whatever the number of
iterations allowed; and for 101 rotations `'R'` of distance `2^63 - 100` the
`int` counter of `SimulateDialPart2` wraps to a negative value, below the 0 of
`SimulateDialPart1`. -/
theorem SimulateDial_positions_differ :
    (List.foldl part1Step (50, 0) [⟨'R', 9223372036854775766⟩]).1 = 0 ∧
    (part2Loop 9223372036854775766 [⟨'R', 9223372036854775766⟩] (50, 0)).map (fun st => st.1)
      = some 16 ∧
    (∀ fuel : Nat, SimulateDialPart2 fuel [⟨'R', 9223372036854775807⟩] = none) ∧
    SimulateDialPart2 9223372036854775708
        (List.replicate 101 ⟨'R', 9223372036854775708⟩) = some (-9131138316486228151) ∧
    SimulateDialPart1 (List.replicate 101 ⟨'R', 9223372036854775708⟩) = 0 := by
  refine ⟨by decide, ?_, ?_, part2_count_wraps.1, part2_count_wraps.2.2⟩
  · rw [part2Loop_start 9223372036854775766 [⟨'R', 9223372036854775766⟩] (by decide)
      (by decide)]
    decide
  · intro fuel
    have hRL : ¬ ('R' : Char) = 'L' := by decide
    simp only [SimulateDialPart2, part2Loop, hRL, if_true, if_false,
      clickLoop_forever rightClick fuel 1 (50, 0) (by decide), Option.map_none']

/-- C37 (amended): for rotations with `Direction` in `'L'`, `'R'` and
`1 ≤ Distance ≤ 2^63 - 100`, once every click loop has the iterations it needs,
both simulations hold the same dial position after each rotation, and when the
number of times the dial points at 0 during the rotations (the closed form of
Part 2) is at most `2^63 - 1`, `SimulateDialPart2` returns a count that is at
least `SimulateDialPart1`. -/
theorem SimulateDialPart2_ge_Part1 (fuel : Nat) (rotations : List Rotation)
    (h : ∀ r ∈ rotations, (r.Direction = 'L' ∨ r.Direction = 'R') ∧
      1 ≤ r.Distance ∧ r.Distance ≤ 9223372036854775708)
    (hfuel : ∀ r ∈ rotations, r.Distance.toNat ≤ fuel) :
    (∀ i : Nat, ∃ st, part2Loop fuel (rotations.take i) (50, 0) = some st ∧
      st.1 = ((rotations.take i).foldl part1Step (50, 0)).1) ∧
    (SimulateDialPart2Closed rotations ≤ 9223372036854775807 →
      ∃ v, SimulateDialPart2 fuel rotations = some v ∧ SimulateDialPart1 rotations ≤ v) := by
  have hweak : ∀ l : List Rotation, (∀ r ∈ l, r ∈ rotations) →
      (∀ r ∈ l, (r.Direction = 'L' ∨ r.Direction = 'R') ∧
        0 ≤ r.Distance ∧ r.Distance < 9223372036854775807) ∧
      (∀ r ∈ l, r.Distance.toNat ≤ fuel) := by
    intro l hl
    refine ⟨fun r hr => ?_, fun r hr => hfuel r (hl r hr)⟩
    have := h r (hl r hr)
    exact ⟨this.1, by omega, by omega⟩
  refine ⟨?_, ?_⟩
  · intro i
    obtain ⟨h1, h2⟩ := hweak (rotations.take i) (fun r hr => List.mem_of_mem_take hr)
    refine ⟨_, part2Loop_start fuel (rotations.take i) h1 h2, ?_⟩
    exact ((fold_compare (rotations.take i) 50 0 0 (by decide) (le_refl _)
      (fun r hr => h r (List.mem_of_mem_take hr))).1).symm
  · intro hle
    obtain ⟨h1, h2⟩ := hweak rotations (fun r hr => hr)
    have h0 : 0 ≤ SimulateDialPart2Closed rotations :=
      closed_count_mono rotations 50 0 (by decide) (fun r hr => (h1 r hr).2.1)
    refine ⟨SimulateDialPart2Closed rotations, ?_, ?_⟩
    · rw [part2_eq_wrap fuel rotations h1 h2,
        Day3.wrapInt64_of_range _ (by omega) (by omega)]
    · exact (fold_compare rotations 50 0 0 (by decide) (le_refl _) h).2

/-- Witness for C37 (amended) on the rotations `R150`, `L100`: Part 2 counts
three passes over 0, Part 1 two stops at 0. -/
theorem SimulateDialPart2_ge_Part1_witness :
    ∃ v, SimulateDialPart2 150 [⟨'R', 150⟩, ⟨'L', 100⟩] = some v ∧
      SimulateDialPart1 [⟨'R', 150⟩, ⟨'L', 100⟩] ≤ v :=
  (SimulateDialPart2_ge_Part1 150 [⟨'R', 150⟩, ⟨'L', 100⟩] (by decide) (by decide)).2
    (by decide)

end Day1

namespace Day4

/-! ## Termination of the removal loop -/

theorem removalLoopCount_agrees : ∀ (fuel : Nat) (grid : List (List Char)) (total : Int)
    (rounds : Nat),
    (removalLoopCount fuel grid total rounds).map (fun s => (s.1, s.2.1))
      = removalLoop fuel grid total := by
  intro fuel
  induction fuel with
  | zero => intro grid total rounds; rfl
  | succ fuel ih =>
    intro grid total rounds
    unfold removalLoopCount removalLoop
    cases findInRows grid grid 0 [] with
    | none => rfl
    | some accessible =>
      simp only
      split_ifs
      · rfl
      · exact ih _ _ _

theorem round_decreases (grid : List (List Char)) (hrect : Rectangular grid)
    (accessible : List (Nat × Nat)) (hfind : findInRows grid grid 0 [] = some accessible)
    (hne : accessible.length ≠ 0) :
    countRolls (removeAll grid accessible) < countRolls grid := by
  rw [findAccessible_eq grid hrect] at hfind
  have he : accessibleCells grid = accessible := by injection hfind
  subst he
  have hcount := removeAll_count (accessibleCells grid) grid (accessibleCells_nodup grid)
    (fun pos hpos => ((mem_accessibleCells grid pos).mp hpos).1)
  omega

theorem removalLoopCount_spec : ∀ (fuel : Nat) (grid : List (List Char)) (total : Int)
    (rounds : Nat), Rectangular grid → countRolls grid < fuel →
    ∃ final n, removalLoopCount fuel grid total rounds
        = some (final, total + ((countRolls grid : Int) - (countRolls final : Int)),
            rounds + n) ∧
      countRolls final + n ≤ countRolls grid ∧
      countRolls final + (accessibleCells grid).length ≤ countRolls grid := by
  intro fuel
  induction fuel with
  | zero => intro grid total rounds _ h; omega
  | succ fuel ih =>
    intro grid total rounds hrect hfuel
    unfold removalLoopCount
    rw [findAccessible_eq grid hrect]
    simp only
    by_cases hlen : (accessibleCells grid).length = 0
    · rw [if_pos hlen]
      exact ⟨grid, 0, by simp, by omega, by omega⟩
    · rw [if_neg hlen]
      have hcount := removeAll_count (accessibleCells grid) grid (accessibleCells_nodup grid)
        (fun pos hpos => ((mem_accessibleCells grid pos).mp hpos).1)
      have hrect2 : Rectangular (removeAll grid (accessibleCells grid)) :=
        rectangular_of_rows grid _ (removeAll_rows _ _) hrect
      obtain ⟨final, n, hrun, hn, _⟩ := ih (removeAll grid (accessibleCells grid))
        (total + ((accessibleCells grid).length : Int)) (rounds + 1) hrect2 (by omega)
      refine ⟨final, n + 1, ?_, by omega, by omega⟩
      rw [hrun]
      have : (countRolls grid : Int)
          = (countRolls (removeAll grid (accessibleCells grid)) : Int)
            + ((accessibleCells grid).length : Int) := by exact_mod_cast hcount.symm
      have e1 : total + ((accessibleCells grid).length : Int)
            + ((countRolls (removeAll grid (accessibleCells grid)) : Int)
                - (countRolls final : Int))
          = total + ((countRolls grid : Int) - (countRolls final : Int)) := by omega
      have e2 : rounds + 1 + n = rounds + (n + 1) := by omega
      rw [e1, e2]

/-- C39: on a rectangular grid the removal loop of `CountTotalRemovableRolls`
ends: a round that finds rolls to remove leaves strictly fewer `'@'` cells, so
within one round more than the number of `'@'` cells of the input the loop has
returned, the number of rounds that removed rolls and the returned total are
both at most that number, and the total is at least
`CountAccessibleRolls(grid)`. -/
theorem removal_terminates (grid : List (List Char)) (hrect : Rectangular grid) :
    (∀ (current : List (List Char)) (accessible : List (Nat × Nat)), Rectangular current →
      findInRows current current 0 [] = some accessible → accessible.length ≠ 0 →
      countRolls (removeAll current accessible) < countRolls current) ∧
    ∃ (final : List (List Char)) (total : Int) (rounds : Nat) (first : Int),
      removalLoopCount (countRolls grid + 1) grid 0 0 = some (final, total, rounds) ∧
      CountTotalRemovableRolls (countRolls grid + 1) grid = some total ∧
      rounds ≤ countRolls grid ∧ total ≤ (countRolls grid : Int) ∧
      CountAccessibleRolls grid = some first ∧ first ≤ total := by
  refine ⟨fun current accessible hr hf hne => round_decreases current hr accessible hf hne, ?_⟩
  obtain ⟨final, n, hrun, hn, hacc⟩ :=
    removalLoopCount_spec (countRolls grid + 1) grid 0 0 hrect (by omega)
  refine ⟨final, _, _, _, hrun, ?_, by omega, by omega, countAccessible_eq grid hrect, by omega⟩
  unfold CountTotalRemovableRolls
  rw [← removalLoopCount_agrees (countRolls grid + 1) grid 0 0, hrun]
  rfl

/-- Witness for C39 on a 2 by 2 grid with three rolls. -/
theorem removal_terminates_witness :
    ∃ (final : List (List Char)) (total : Int) (rounds : Nat) (first : Int),
      removalLoopCount (countRolls [['@', '@'], ['@', '.']] + 1) [['@', '@'], ['@', '.']] 0 0
        = some (final, total, rounds) ∧
      CountTotalRemovableRolls (countRolls [['@', '@'], ['@', '.']] + 1)
        [['@', '@'], ['@', '.']] = some total ∧
      rounds ≤ countRolls [['@', '@'], ['@', '.']] ∧
      total ≤ (countRolls [['@', '@'], ['@', '.']] : Int) ∧
      CountAccessibleRolls [['@', '@'], ['@', '.']] = some first ∧ first ≤ total :=
  (removal_terminates [['@', '@'], ['@', '.']] (by unfold Rectangular; decide)).2

end Day4

namespace Day4

/-! ## What the removal rounds leave -/

theorem cellAt_some_nat (grid : List (List Char)) (r c : Int) (ch : Char)
    (h : cellAt grid r c = some ch) : ∃ rn cn : Nat, r = rn ∧ c = cn := by
  unfold cellAt at h
  split_ifs at h with hneg
  exact ⟨r.toNat, c.toNat, by omega, by omega⟩

theorem cellAt_setCell_roll (grid : List (List Char)) (r c r2 c2 : Nat)
    (h : cellAt (setCell grid r c '.') r2 c2 = some '@') :
    cellAt grid r2 c2 = some '@' := by
  by_cases hne : (r2, c2) = (r, c)
  · injection hne with h1 h2
    subst h1
    subst h2
    rw [cellAt_nat] at h
    unfold setCell at h
    cases hrow : grid[r2]? with
    | none =>
      rw [hrow] at h
      simp only [hrow] at h
      simp at h
    | some cells =>
      rw [hrow] at h
      simp only at h
      have hlt : r2 < grid.length := by
        by_contra hge
        rw [List.getElem?_eq_none (by omega)] at hrow
        simp at hrow
      rw [List.getElem?_set_self hlt] at h
      simp only at h
      by_cases hc : c2 < cells.length
      · rw [List.getElem?_set_self hc] at h
        simp at h
      · rw [List.getElem?_eq_none (by simp; omega)] at h
        simp at h
  · rwa [cellAt_setCell_other grid r c r2 c2 '.' hne] at h

theorem removeAll_roll : ∀ (accessible : List (Nat × Nat)) (grid : List (List Char))
    (r c : Nat), cellAt (removeAll grid accessible) r c = some '@' →
    cellAt grid r c = some '@' := by
  intro accessible
  induction accessible with
  | nil => intro grid r c h; exact h
  | cons pos rest ih =>
    intro grid r c h
    have h2 := ih (setCell grid pos.1 pos.2 '.') r c
      (by simpa only [removeAll, List.foldl_cons] using h)
    exact cellAt_setCell_roll grid pos.1 pos.2 r c h2

theorem removeAll_other : ∀ (accessible : List (Nat × Nat)) (grid : List (List Char))
    (r c : Nat), (r, c) ∉ accessible →
    cellAt (removeAll grid accessible) r c = cellAt grid r c := by
  intro accessible
  induction accessible with
  | nil => intro grid r c _; rfl
  | cons pos rest ih =>
    intro grid r c hmem
    have hne : (r, c) ≠ (pos.1, pos.2) := fun e => hmem (by rw [e]; exact List.mem_cons_self _ _)
    have h2 := ih (setCell grid pos.1 pos.2 '.') r c
      (fun hm => hmem (List.mem_cons_of_mem _ hm))
    simp only [removeAll, List.foldl_cons] at h2 ⊢
    rw [h2, cellAt_setCell_other grid pos.1 pos.2 r c '.' hne]

theorem removalLoop_roll : ∀ (fuel : Nat) (grid final : List (List Char)) (total t : Int),
    removalLoop fuel grid total = some (final, t) →
    ∀ r c : Nat, cellAt final r c = some '@' → cellAt grid r c = some '@' := by
  intro fuel
  induction fuel with
  | zero => intro grid final total t h; simp [removalLoop] at h
  | succ fuel ih =>
    intro grid final total t h r c hcell
    unfold removalLoop at h
    cases hfind : findInRows grid grid 0 [] with
    | none => rw [hfind] at h; simp at h
    | some accessible =>
      rw [hfind] at h
      simp only at h
      split_ifs at h with hlen
      · have : grid = final := by
          injection h with h'
          exact congrArg Prod.fst h'
        rw [this]
        exact hcell
      · exact removeAll_roll accessible grid r c (ih _ final _ t h r c hcell)

theorem supported_not_accessible (grid : List (List Char)) (S : Finset (Int × Int))
    (hS : SelfSupporting S) (hsub : ∀ p ∈ S, cellAt grid p.1 p.2 = some '@')
    (r c : Nat) (hp : ((r : Int), (c : Int)) ∈ S) : (r, c) ∉ accessibleCells grid := by
  intro hmem
  have hlt := ((mem_accessibleCells grid (r, c)).mp hmem).2
  have h4 := hS _ hp
  have hmono : (neighbours (r : Int) (c : Int)).filter (fun q => q ∈ S)
      ⊆ (neighbours (r : Int) (c : Int)).filter
          (fun q => cellAt grid q.1 q.2 = some '@') :=
    Finset.monotone_filter_right _ (fun q hq => hsub q hq)
  have hle := Finset.card_le_card hmono
  unfold neighbourRolls at hlt
  simp only at h4 hlt
  omega

theorem removalLoop_keeps : ∀ (fuel : Nat) (grid final : List (List Char)) (total t : Int),
    Rectangular grid → removalLoop fuel grid total = some (final, t) →
    ∀ S : Finset (Int × Int), SelfSupporting S →
      (∀ p ∈ S, cellAt grid p.1 p.2 = some '@') →
      ∀ p ∈ S, cellAt final p.1 p.2 = some '@' := by
  intro fuel
  induction fuel with
  | zero => intro grid final total t _ h; simp [removalLoop] at h
  | succ fuel ih =>
    intro grid final total t hrect h S hS hsub
    unfold removalLoop at h
    rw [findAccessible_eq grid hrect] at h
    simp only at h
    split_ifs at h with hlen
    · have : grid = final := by
        injection h with h'
        exact congrArg Prod.fst h'
      rw [← this]
      exact hsub
    · have hrect2 : Rectangular (removeAll grid (accessibleCells grid)) :=
        rectangular_of_rows grid _ (removeAll_rows _ _) hrect
      refine ih _ final _ t hrect2 h S hS ?_
      intro p hp
      obtain ⟨rn, cn, hr, hc⟩ := cellAt_some_nat grid p.1 p.2 '@' (hsub p hp)
      have hpe : p = ((rn : Int), (cn : Int)) := Prod.ext hr hc
      rw [hpe] at hp ⊢
      simp only
      rw [removeAll_other _ grid rn cn (supported_not_accessible grid S hS hsub rn cn hp)]
      exact hsub _ hp

end Day4

namespace Day4

/-! ## The set of rolls and its size -/

theorem mem_rollSet (grid : List (List Char)) (p : Int × Int) :
    p ∈ rollSet grid ↔ cellAt grid p.1 p.2 = some '@' := by
  unfold rollSet
  simp only [List.mem_toFinset, List.mem_map, List.mem_filter, decide_eq_true_eq]
  constructor
  · rintro ⟨pos, ⟨_, h⟩, rfl⟩
    exact h
  · intro h
    obtain ⟨rn, cn, hr, hc⟩ := cellAt_some_nat grid p.1 p.2 '@' h
    have hpe : p = ((rn : Int), (cn : Int)) := Prod.ext hr hc
    rw [hpe] at h ⊢
    exact ⟨(rn, cn), ⟨mem_cellsFrom_of_cell grid rn cn '@' h, h⟩, rfl⟩

theorem count_range (a : Char) (l : List Char) :
    ((List.range l.length).filter (fun c => decide (l[c]? = some a))).length = l.count a := by
  induction l using List.reverseRecOn with
  | nil => rfl
  | append_singleton l x ih =>
    rw [List.length_append, List.length_singleton, List.range_succ, List.filter_append,
      List.length_append, List.count_append]
    have h1 : (List.range l.length).filter (fun c => decide ((l ++ [x])[c]? = some a))
        = (List.range l.length).filter (fun c => decide (l[c]? = some a)) := by
      apply List.filter_congr
      intro c hc
      rw [List.getElem?_append_left (List.mem_range.mp hc)]
    rw [h1, ih]
    congr 1
    have h2 : (l ++ [x])[l.length]? = some x := by simp
    by_cases hx : x = a
    · simp [List.filter, h2, hx]
    · have hx2 : ¬ (x == a) = true := by simpa using hx
      simp [List.filter, h2, hx, List.count_singleton, hx2]

theorem rollCells_length (grid : List (List Char)) :
    ∀ (lines : List (List Char)) (row : Nat), grid.drop row = lines →
      ((cellsFrom lines row).filter
        (fun pos => decide (cellAt grid pos.1 pos.2 = some '@'))).length
        = (lines.map (fun l => l.count '@')).sum := by
  intro lines
  induction lines with
  | nil => intro row _; rfl
  | cons cells lines ih =>
    intro row hdrop
    have hrow : grid[row]? = some cells := by
      have := congrArg (fun l => l[0]?) hdrop
      simpa [List.getElem?_drop] using this
    have hrest := ih (row + 1) (drop_succ_of_drop grid lines cells row hdrop)
    simp only [cellsFrom, List.filter_append, List.length_append, List.map_cons,
      List.sum_cons, hrest]
    congr 1
    unfold rowCells
    rw [List.filter_map, List.length_map, ← count_range '@' cells]
    congr 1
    apply List.filter_congr
    intro c _
    simp only [Function.comp]
    rw [cellAt_of_row grid row c cells hrow]

theorem card_rollSet (grid : List (List Char)) : (rollSet grid).card = countRolls grid := by
  unfold rollSet countRolls
  have hinj : Function.Injective (fun pos : Nat × Nat => ((pos.1 : Int), (pos.2 : Int))) := by
    intro a b h
    simp only [Prod.mk.injEq, Nat.cast_inj] at h
    exact Prod.ext h.1 h.2
  rw [List.toFinset_card_of_nodup (((cellsFrom_nodup grid 0).filter _).map hinj),
    List.length_map]
  exact rollCells_length grid grid 0 rfl

theorem rollSet_final_supporting (final : List (List Char))
    (hfa : accessibleCells final = []) : SelfSupporting (rollSet final) := by
  intro p hp
  have hcell := (mem_rollSet final p).mp hp
  obtain ⟨rn, cn, hr, hc⟩ := cellAt_some_nat final p.1 p.2 '@' hcell
  have hge : 4 ≤ neighbourRolls final rn cn := by
    by_contra hlt
    have hmem : (rn, cn) ∈ accessibleCells final :=
      (mem_accessibleCells final (rn, cn)).mpr ⟨by rw [← hr, ← hc]; exact hcell,
        Nat.lt_of_not_le hlt⟩
    rw [hfa] at hmem
    simp at hmem
  have heq : (neighbours p.1 p.2).filter (fun q => q ∈ rollSet final)
      = (neighbours (rn : Int) (cn : Int)).filter
          (fun q => cellAt final q.1 q.2 = some '@') := by
    rw [hr, hc]
    exact Finset.filter_congr (fun q _ => mem_rollSet final q)
  rw [heq]
  exact hge

/-- C38: on a rectangular grid, once the loop has the rounds it needs, the
`'@'` cells of the grid on which `CountTotalRemovableRolls` stops form the
largest set of `'@'` cells of the input in which every cell has at least 4 of
its eight neighbours in the set: the set is such a set, it contains every such
set (so none has more cells, and it is the only set with these properties), and
the result is the number of `'@'` cells of the input minus its size. -/
theorem remaining_is_largest_supported (grid : List (List Char)) (hrect : Rectangular grid)
    (fuel : Nat) (hfuel : countRolls grid < fuel) :
    ∃ final total, removalLoop fuel grid 0 = some (final, total) ∧
      CountTotalRemovableRolls fuel grid
        = some ((countRolls grid : Int) - ((rollSet final).card : Int)) ∧
      rollSet final ⊆ rollSet grid ∧ SelfSupporting (rollSet final) ∧
      (∀ S : Finset (Int × Int), S ⊆ rollSet grid → SelfSupporting S →
        S ⊆ rollSet final ∧ S.card ≤ (rollSet final).card) ∧
      (∀ T : Finset (Int × Int), T ⊆ rollSet grid → SelfSupporting T →
        (∀ S : Finset (Int × Int), S ⊆ rollSet grid → SelfSupporting S → S ⊆ T) →
        T = rollSet final) := by
  obtain ⟨final, hrun, _, hfa, _⟩ := removalLoop_spec fuel grid 0 hrect hfuel
  rw [zero_add] at hrun
  have hsub : rollSet final ⊆ rollSet grid := by
    intro p hp
    have hcell := (mem_rollSet final p).mp hp
    obtain ⟨rn, cn, hr, hc⟩ := cellAt_some_nat final p.1 p.2 '@' hcell
    rw [mem_rollSet, hr, hc]
    rw [hr, hc] at hcell
    exact removalLoop_roll fuel grid final 0 _ hrun rn cn hcell
  have hsupp := rollSet_final_supporting final hfa
  have hmax : ∀ S : Finset (Int × Int), S ⊆ rollSet grid → SelfSupporting S →
      S ⊆ rollSet final := by
    intro S hS hsup p hp
    rw [mem_rollSet]
    exact removalLoop_keeps fuel grid final 0 _ hrect hrun S hsup
      (fun q hq => (mem_rollSet grid q).mp (hS hq)) p hp
  refine ⟨final, _, hrun, ?_, hsub, hsupp, ?_, ?_⟩
  · unfold CountTotalRemovableRolls
    rw [hrun, card_rollSet]
    rfl
  · intro S hS hsup
    exact ⟨hmax S hS hsup, Finset.card_le_card (hmax S hS hsup)⟩
  · intro T hT hTs hTmax
    exact Finset.Subset.antisymm (hmax T hT hTs) (hTmax _ hsub hsupp)

/-- Witness for C38 on the full 4 by 4 grid, where the four corners go and the
other twelve rolls support each other. -/
theorem remaining_is_largest_supported_witness :
    ∃ final total, removalLoop 17 (List.replicate 4 (List.replicate 4 '@')) 0
        = some (final, total) ∧
      CountTotalRemovableRolls 17 (List.replicate 4 (List.replicate 4 '@'))
        = some ((countRolls (List.replicate 4 (List.replicate 4 '@')) : Int)
            - ((rollSet final).card : Int)) ∧
      rollSet final ⊆ rollSet (List.replicate 4 (List.replicate 4 '@')) ∧
      SelfSupporting (rollSet final) ∧
      (∀ S : Finset (Int × Int), S ⊆ rollSet (List.replicate 4 (List.replicate 4 '@')) →
        SelfSupporting S → S ⊆ rollSet final ∧ S.card ≤ (rollSet final).card) ∧
      (∀ T : Finset (Int × Int), T ⊆ rollSet (List.replicate 4 (List.replicate 4 '@')) →
        SelfSupporting T →
        (∀ S : Finset (Int × Int), S ⊆ rollSet (List.replicate 4 (List.replicate 4 '@')) →
          SelfSupporting S → S ⊆ T) →
        T = rollSet final) :=
  remaining_is_largest_supported (List.replicate 4 (List.replicate 4 '@'))
    (by unfold Rectangular; decide) 17 (by decide)

end Day4
